import Mathlib

/-!
# The async-resolution tracker of `lib/rules/resolve-async.js`

A shallow embedding of the ESLint rule `resolve-async`: the call-shape
classifiers, the per-test tracking frames, the four visitor handlers and the
verification that runs when a test-declaration call is exited.

Conventions of the embedding.

* The frame stack `asyncStateStack` is a `List AsyncState` whose HEAD is the
  innermost frame: JavaScript `push` is `::`, `pop` removes the head, and
  `asyncStateStack[asyncStateStack.length - 1]` is the head.
* `stopSemaphoreCount` is an `Int`; the JavaScript number is exact for every
  count a traversal can reach (magnitude below `2^53`).
* `asyncCallbackVars` starts as the object literal `{}`.  It is modelled by the
  list of its own properties in insertion order, which is the order in which
  `for ... in` enumerates string keys that are not array indices (identifier
  names and `"undefined"` never are).  The `in` operator also sees the
  properties inherited from `Object.prototype`.
* The host traversal (ESLint) is not part of the rule; `events` models its
  contract: a node is entered, its children are traversed in source order, and
  a call expression is exited after all of its descendants.
-/

namespace ResolveAsync

/-! ## Syntax trees -/

/-- ESTree nodes, restricted to the node types the rule inspects.  Every other
node type (literals, statements, arrow functions, patterns, ...) is `Other`,
carrying its child nodes in source order.  The `computed` flag of a member
expression is omitted because the rule never reads it. -/
inductive Node where
  | Identifier (name : String)
  | MemberExpression (object : Node) (property : Node)
  | CallExpression (callee : Node) (arguments : List Node)
  | FunctionExpression (params : List Node) (body : Node)
  | AssignmentExpression (left : Node) (right : Node)
  | VariableDeclarator (id : Node) (init : Option Node)
  | Other (children : List Node)

/-- The `name` property of a node: defined on identifiers only, `undefined`
(here `none`) on every other node type. -/
def Node.name : Node → Option String
  | .Identifier name => some name
  | _ => none

/-- The test `node.type === "FunctionExpression"`. -/
def Node.isFunctionExpression : Node → Bool
  | .FunctionExpression _ _ => true
  | _ => false

/-! ## JavaScript objects used as maps -/

/-- Own enumerable properties of an object, in insertion order. -/
abbrev JSObject := List (String × Bool)

/-- Property names every plain object inherits from `Object.prototype`. -/
def objectPrototypeKeys : List String :=
  ["constructor", "__defineGetter__", "__defineSetter__", "hasOwnProperty",
   "__lookupGetter__", "__lookupSetter__", "isPrototypeOf", "propertyIsEnumerable",
   "toString", "valueOf", "__proto__", "toLocaleString"]

/-- Conversion of a possibly undefined name to a property key: `undefined`
becomes the string `"undefined"`. -/
def propertyKey : Option String → String
  | some name => name
  | none => "undefined"

/-- Own-property test. -/
def hasOwnProperty (obj : JSObject) (key : String) : Bool :=
  obj.any (fun entry => entry.1 == key)

/-- The expression `key in obj`: own properties and inherited ones. -/
def hasProperty (obj : JSObject) (key : String) : Bool :=
  hasOwnProperty obj key || objectPrototypeKeys.contains key

/-- The assignment `obj[key] = value` for a boolean `value`.  An existing own
property keeps its position; a new one is appended.  The key `__proto__` is an
inherited accessor whose setter ignores a boolean, so nothing is stored. -/
def setProperty (obj : JSObject) (key : String) (value : Bool) : JSObject :=
  if key == "__proto__" then obj
  else if hasOwnProperty obj key then
    obj.map (fun entry => if entry.1 == key then (key, value) else entry)
  else obj ++ [(key, value)]

/-- JavaScript truthiness of a value that is a string or `undefined`. -/
def truthy : Option String → Bool
  | some s => s != ""
  | none => false

/-! ## Tracking frames and reports -/

/-- One tracking frame, the object pushed on `asyncStateStack`. -/
structure AsyncState where
  stopSemaphoreCount : Int
  asyncCallbackVars : JSObject
  assertContextVar : Option String

/-- One call of `context.report(node, message, data)`; the constructor is the
message template and its fields are the anchor node and the template data. -/
inductive Report where
  | STOP_MESSAGE (node : Node) (semaphore : Int) (callOrCalls : String)
  | ASYNC_VAR_MESSAGE (node : Node) (asyncVar : String)

/-- Whether a report uses the template `STOP_MESSAGE`. -/
def Report.isStop : Report → Bool
  | .STOP_MESSAGE _ _ _ => true
  | .ASYNC_VAR_MESSAGE _ _ => false

/-- Whether a report uses the template `ASYNC_VAR_MESSAGE`. -/
def Report.isAsyncVar : Report → Bool
  | .STOP_MESSAGE _ _ _ => false
  | .ASYNC_VAR_MESSAGE _ _ => true

/-- Whether a report is an `ASYNC_VAR_MESSAGE` naming the given variable. -/
def Report.namesVar (v : String) : Report → Bool
  | .STOP_MESSAGE _ _ _ => false
  | .ASYNC_VAR_MESSAGE _ asyncVar => asyncVar == v

/-! ## Call-shape classifiers -/

/-- The constant `SUPPORTED_IDENTIFIERS`. -/
def SUPPORTED_IDENTIFIERS : List String := ["test", "asyncTest"]

/-- The function `isTest`. -/
def isTest (calleeNode : Node) : Bool :=
  match calleeNode with
  | .Identifier name => SUPPORTED_IDENTIFIERS.contains name
  | .MemberExpression (.Identifier object) (.Identifier property) =>
      object == "QUnit" && SUPPORTED_IDENTIFIERS.contains property
  | _ => false

/-- The function `isAsyncTest`. -/
def isAsyncTest (calleeNode : Node) : Bool :=
  match calleeNode with
  | .Identifier name => name == "asyncTest"
  | .MemberExpression (.Identifier object) (.Identifier property) =>
      object == "QUnit" && property == "asyncTest"
  | _ => false

/-- The function `isAsyncCallExpression`; its argument may be absent (a
declarator without initializer has `init === null`). -/
def isAsyncCallExpression (asyncStateStack : List AsyncState)
    (callExpressionNode : Option Node) : Bool :=
  let assertContextVar : Option String :=
    match asyncStateStack with
    | [] => none
    | asyncState :: _ => asyncState.assertContextVar
  if truthy assertContextVar then
    match callExpressionNode with
    | some (.CallExpression (.MemberExpression (.Identifier object) (.Identifier property)) _) =>
        some object == assertContextVar && property == "async"
    | _ => false
  else false

/-- The function `isAsyncCallbackVar`. -/
def isAsyncCallbackVar (asyncStateStack : List AsyncState) (calleeNode : Node) : Bool :=
  match asyncStateStack, calleeNode with
  | asyncState :: _, .Identifier name => hasProperty asyncState.asyncCallbackVars name
  | _, _ => false

/-- The function `isStop`. -/
def isStop (calleeNode : Node) : Bool :=
  match calleeNode with
  | .Identifier name => name == "stop"
  | .MemberExpression (.Identifier object) (.Identifier property) =>
      object == "QUnit" && property == "stop"
  | _ => false

/-- The function `isStart`. -/
def isStart (calleeNode : Node) : Bool :=
  match calleeNode with
  | .Identifier name => name == "start"
  | .MemberExpression (.Identifier object) (.Identifier property) =>
      object == "QUnit" && property == "start"
  | _ => false

/-- The function `getAssertContextNameForTest`: the `name` of the first
parameter of the first function-expression argument. -/
def getAssertContextNameForTest (argumentsNodes : List Node) : Option String :=
  match (argumentsNodes.filter Node.isFunctionExpression).head? with
  | some (.FunctionExpression (param :: _) _) => param.name
  | _ => none

/-! ## State updates -/

/-- The function `incrementSemaphoreCount`. -/
def incrementSemaphoreCount (asyncStateStack : List AsyncState) (amount : Int) :
    List AsyncState :=
  match asyncStateStack with
  | [] => []
  | asyncState :: rest =>
      { asyncState with stopSemaphoreCount := asyncState.stopSemaphoreCount + amount } :: rest

/-- The function `addAsyncCallbackVar`. -/
def addAsyncCallbackVar (asyncStateStack : List AsyncState) (lhsNode : Node) :
    List AsyncState :=
  match asyncStateStack with
  | [] => []
  | asyncState :: rest =>
      { asyncState with
        asyncCallbackVars :=
          setProperty asyncState.asyncCallbackVars (propertyKey lhsNode.name) false } :: rest

/-- The function `markAsyncCallbackVarCalled`. -/
def markAsyncCallbackVarCalled (asyncStateStack : List AsyncState) (calleeNode : Node) :
    List AsyncState :=
  match asyncStateStack with
  | [] => []
  | asyncState :: rest =>
      { asyncState with
        asyncCallbackVars :=
          setProperty asyncState.asyncCallbackVars (propertyKey calleeNode.name) true } :: rest

/-- The function `verifyAsyncState`, returning the reports in the order in
which `context.report` is called: the conditional semaphore report, then the
`for ... in` loop over the callback variables. -/
def verifyAsyncState (asyncState : AsyncState) (node : Node) : List Report :=
  let reported : List Report :=
    if asyncState.stopSemaphoreCount > 0 then
      let singular : Bool := asyncState.stopSemaphoreCount == 1
      [Report.STOP_MESSAGE node asyncState.stopSemaphoreCount
        (if singular then "call" else "calls")]
    else []
  asyncState.asyncCallbackVars.foldl
    (fun reported entry =>
      if entry.2 == false then reported ++ [Report.ASYNC_VAR_MESSAGE node entry.1]
      else reported)
    reported

/-! ## Visitor handlers -/

/-- The handler `"CallExpression"`. -/
def onCallExpression (asyncStateStack : List AsyncState) (callee : Node)
    (arguments : List Node) : List AsyncState :=
  if isTest callee then
    let assertContextVar := getAssertContextNameForTest arguments
    { stopSemaphoreCount := if isAsyncTest callee then 1 else 0,
      asyncCallbackVars := [],
      assertContextVar := assertContextVar } :: asyncStateStack
  else if isAsyncCallbackVar asyncStateStack callee then
    markAsyncCallbackVarCalled asyncStateStack callee
  else if isStop callee then
    incrementSemaphoreCount asyncStateStack 1
  else if isStart callee then
    incrementSemaphoreCount asyncStateStack (-1)
  else asyncStateStack

/-- The handler `"CallExpression:exit"`.  It yields `none` when it would throw:
`pop` on an empty stack returns `undefined`, and `verifyAsyncState` then reads
a property of `undefined`. -/
def onCallExpressionExit (asyncStateStack : List AsyncState) (callee : Node)
    (arguments : List Node) : Option (List AsyncState × List Report) :=
  if isTest callee then
    match asyncStateStack with
    | [] => none
    | asyncState :: rest =>
        some (rest, verifyAsyncState asyncState (Node.CallExpression callee arguments))
  else some (asyncStateStack, [])

/-- The handler `"AssignmentExpression"`. -/
def onAssignmentExpression (asyncStateStack : List AsyncState) (left right : Node) :
    List AsyncState :=
  if isAsyncCallExpression asyncStateStack (some right) then
    addAsyncCallbackVar asyncStateStack left
  else asyncStateStack

/-- The handler `"VariableDeclarator"`. -/
def onVariableDeclarator (asyncStateStack : List AsyncState) (id : Node)
    (init : Option Node) : List AsyncState :=
  if isAsyncCallExpression asyncStateStack init then
    addAsyncCallbackVar asyncStateStack id
  else asyncStateStack

/-! ## The traversal and the tracker run -/

/-- The four visitor events the rule registers for, with the fields of the
visited node the handlers read. -/
inductive Event where
  | callEnter (callee : Node) (arguments : List Node)
  | callExit (callee : Node) (arguments : List Node)
  | assignmentEnter (left right : Node)
  | declaratorEnter (id : Node) (init : Option Node)

mutual
/-- The event sequence of a depth-first traversal of a tree: a node is
entered, its children are traversed in source order, and a call expression is
exited after all of its descendants. -/
def events : Node → List Event
  | .Identifier _ => []
  | .MemberExpression object property => events object ++ events property
  | .CallExpression callee arguments =>
      Event.callEnter callee arguments ::
        ((events callee ++ eventsList arguments) ++ [Event.callExit callee arguments])
  | .FunctionExpression params body => eventsList params ++ events body
  | .AssignmentExpression left right =>
      Event.assignmentEnter left right :: (events left ++ events right)
  | .VariableDeclarator id none => Event.declaratorEnter id none :: events id
  | .VariableDeclarator id (some init) =>
      Event.declaratorEnter id (some init) :: (events id ++ events init)
  | .Other children => eventsList children
/-- The event sequence of a list of sibling nodes, left to right. -/
def eventsList : List Node → List Event
  | [] => []
  | node :: rest => events node ++ eventsList rest
end

/-- Dispatch of one event to its handler: the new stack and the reports of the
event, or `none` when the handler throws. -/
def step (asyncStateStack : List AsyncState) :
    Event → Option (List AsyncState × List Report)
  | .callEnter callee arguments => some (onCallExpression asyncStateStack callee arguments, [])
  | .callExit callee arguments => onCallExpressionExit asyncStateStack callee arguments
  | .assignmentEnter left right => some (onAssignmentExpression asyncStateStack left right, [])
  | .declaratorEnter id init => some (onVariableDeclarator asyncStateStack id init, [])

/-- The tracker run over a sequence of events: the final stack and all reports
in the order they were made, or `none` as soon as a handler throws. -/
def run (asyncStateStack : List AsyncState) :
    List Event → Option (List AsyncState × List Report)
  | [] => some (asyncStateStack, [])
  | event :: rest =>
      match step asyncStateStack event with
      | none => none
      | some (stack1, reports1) =>
          match run stack1 rest with
          | none => none
          | some (stack2, reports2) => some (stack2, reports1 ++ reports2)

/-- The events between the enter and the exit of a call expression: those of
its callee followed by those of its arguments. -/
def bodyEvents (callee : Node) (arguments : List Node) : List Event :=
  events callee ++ eventsList arguments

/-- The reports made by the exit event of a call, when the tracker has handled
the call's enter event and the given events in between, starting from the
given stack. -/
def exitReportsAfter (asyncStateStack : List AsyncState) (callee : Node)
    (arguments : List Node) (between : List Event) : Option (List Report) :=
  match run asyncStateStack (Event.callEnter callee arguments :: between) with
  | none => none
  | some (stack1, _) =>
      match onCallExpressionExit stack1 callee arguments with
      | none => none
      | some (_, reports) => some reports

/-- The reports made by the exit event of the call expression
`callee(arguments)` when the call is traversed depth-first starting from the
given stack. -/
def exitReports (asyncStateStack : List AsyncState) (callee : Node)
    (arguments : List Node) : Option (List Report) :=
  exitReportsAfter asyncStateStack callee arguments (bodyEvents callee arguments)

/-! ## Events seen by one frame -/

mutual
/-- The events of a subtree that are handled while the frame that is innermost
when the subtree is entered is still innermost: the traversal of `events`,
except that a nested test-declaration call is skipped with everything below it
(its own frame is innermost there) and that exit events, which leave every
frame as it is, are dropped. -/
def ownEvents : Node → List Event
  | .Identifier _ => []
  | .MemberExpression object property => ownEvents object ++ ownEvents property
  | .CallExpression callee arguments =>
      if isTest callee then []
      else Event.callEnter callee arguments :: (ownEvents callee ++ ownEventsList arguments)
  | .FunctionExpression params body => ownEventsList params ++ ownEvents body
  | .AssignmentExpression left right =>
      Event.assignmentEnter left right :: (ownEvents left ++ ownEvents right)
  | .VariableDeclarator id none => Event.declaratorEnter id none :: ownEvents id
  | .VariableDeclarator id (some init) =>
      Event.declaratorEnter id (some init) :: (ownEvents id ++ ownEvents init)
  | .Other children => ownEventsList children
/-- The same for a list of sibling nodes. -/
def ownEventsList : List Node → List Event
  | [] => []
  | node :: rest => ownEvents node ++ ownEventsList rest
end

/-- The events handled between the enter and the exit of the call
`callee(arguments)` while the frame pushed by that call is innermost. -/
def frameEvents (callee : Node) (arguments : List Node) : List Event :=
  ownEvents callee ++ ownEventsList arguments

/-- An event that neither pushes nor pops a frame: every event except the
enter and the exit of a test-declaration call. -/
def Event.keepsFrames : Event → Bool
  | .callEnter callee _ => !isTest callee
  | .callExit callee _ => !isTest callee
  | .assignmentEnter _ _ => true
  | .declaratorEnter _ _ => true

/-- The event enters a call whose callee is a semaphore increment. -/
def Event.isStopCall : Event → Bool
  | .callEnter callee _ => isStop callee
  | _ => false

/-- The event enters a call whose callee is a semaphore decrement. -/
def Event.isStartCall : Event → Bool
  | .callEnter callee _ => isStart callee
  | _ => false

/-- The event enters a call whose callee is the bare identifier `v`. -/
def Event.callsBare (v : String) : Event → Bool
  | .callEnter (.Identifier name) _ => name == v
  | _ => false

/-- The property key an assignment or declarator event registers in a frame
whose assertion-context name is `contextVar`, if it registers one: the
right-hand side must pass `isAsyncCallExpression` for such a frame. -/
def Event.registers (contextVar : Option String) : Event → Option String
  | .assignmentEnter left right =>
      if isAsyncCallExpression [⟨0, [], contextVar⟩] (some right)
      then some (propertyKey left.name) else none
  | .declaratorEnter id init =>
      if isAsyncCallExpression [⟨0, [], contextVar⟩] init
      then some (propertyKey id.name) else none
  | _ => none

/-- Every event that registers a callback variable is followed, later in the
sequence, by an event entering a call of that bare name. -/
def registrationsResolved (contextVar : Option String) : List Event → Bool
  | [] => true
  | event :: rest =>
      (match event.registers contextVar with
        | some v => rest.any (Event.callsBare v)
        | none => true) && registrationsResolved contextVar rest

/-- The frame a test-declaration call pushes. -/
def initialFrame (callee : Node) (arguments : List Node) : AsyncState :=
  { stopSemaphoreCount := if isAsyncTest callee then 1 else 0,
    asyncCallbackVars := [],
    assertContextVar := getAssertContextNameForTest arguments }

/-- The effect of one event on a frame that is innermost when the event is
handled (read off `step` on the one-frame stack). -/
def frameStep (frame : AsyncState) (event : Event) : AsyncState :=
  match step [frame] event with
  | some (frame1 :: _, _) => frame1
  | _ => frame

/-- The frame after a sequence of events, all handled while it is innermost. -/
def trackFrame (frame : AsyncState) (evs : List Event) : AsyncState :=
  evs.foldl frameStep frame

/-- The stack after a sequence of events that neither push nor pop: only the
innermost frame, if there is one, is tracked. -/
def trackStack : List AsyncState → List Event → List AsyncState
  | [], _ => []
  | frame :: below, evs => trackFrame frame evs :: below

/-! ## Notions used to state the properties -/

/-- The own keys of an object, in insertion order. -/
def ownKeys (obj : JSObject) : List String := obj.map Prod.fst

/-- Representation invariant of an object built from `{}` by boolean
assignments: no key occurs twice, and `__proto__` is never an own key. -/
def WellFormed (obj : JSObject) : Prop :=
  (ownKeys obj).Nodup ∧ "__proto__" ∉ ownKeys obj

/-- The report list the specification prescribes for a popped frame: the
semaphore report when the count is positive, then one report for each callback
variable whose entry is `false`, in the order of the entries. -/
def specReports (asyncState : AsyncState) (node : Node) : List Report :=
  (if asyncState.stopSemaphoreCount > 0 then
      [Report.STOP_MESSAGE node asyncState.stopSemaphoreCount
        (if asyncState.stopSemaphoreCount = 1 then "call" else "calls")]
    else []) ++
  (asyncState.asyncCallbackVars.filter (fun entry => entry.2 == false)).map
    (fun entry => Report.ASYNC_VAR_MESSAGE node entry.1)

/-- The number of events that enter a call whose callee is a semaphore
increment. -/
def countStopCalls (evs : List Event) : Int := (evs.countP Event.isStopCall : Nat)

/-- The number of events that enter a call whose callee is a semaphore
decrement. -/
def countStartCalls (evs : List Event) : Int := (evs.countP Event.isStartCall : Nat)

/-- Every exit event of the sequence is directly preceded by the events
between the enter and the exit of its call, and these by the enter event of
the same call. -/
def ExitsMatched (evs : List Event) : Prop :=
  ∀ pre c a post, evs = pre ++ Event.callExit c a :: post →
    ∃ before, pre = before ++ Event.callEnter c a :: bodyEvents c a

/-- The anchor node of a report. -/
def Report.node : Report → Node
  | .STOP_MESSAGE node _ _ => node
  | .ASYNC_VAR_MESSAGE node _ => node

/-- The event is the exit of a test-declaration call. -/
def Event.isTestExit : Event → Bool
  | .callExit callee _ => isTest callee
  | _ => false

mutual
/-- The number of test-declaration calls in a subtree. -/
def countTestCalls : Node → Nat
  | .Identifier _ => 0
  | .MemberExpression object property => countTestCalls object + countTestCalls property
  | .CallExpression callee arguments =>
      countTestCalls callee + countTestCallsList arguments + (if isTest callee then 1 else 0)
  | .FunctionExpression params body => countTestCallsList params + countTestCalls body
  | .AssignmentExpression left right => countTestCalls left + countTestCalls right
  | .VariableDeclarator id none => countTestCalls id
  | .VariableDeclarator id (some init) => countTestCalls id + countTestCalls init
  | .Other children => countTestCallsList children
/-- The same for a list of sibling nodes. -/
def countTestCallsList : List Node → Nat
  | [] => 0
  | node :: rest => countTestCalls node + countTestCallsList rest
end

mutual
/-- The verifications of a subtree: for each test-declaration call in it, in
the order in which the calls are exited, the reports of one `verifyAsyncState`
on the frame of that call, as the events handled while it was innermost have
left it, at the node of that call. -/
def treeReports : Node → List Report
  | .Identifier _ => []
  | .MemberExpression object property => treeReports object ++ treeReports property
  | .CallExpression callee arguments =>
      (treeReports callee ++ treeReportsList arguments) ++
        (if isTest callee then
          verifyAsyncState (trackFrame (initialFrame callee arguments)
            (frameEvents callee arguments)) (Node.CallExpression callee arguments)
         else [])
  | .FunctionExpression params body => treeReportsList params ++ treeReports body
  | .AssignmentExpression left right => treeReports left ++ treeReports right
  | .VariableDeclarator id none => treeReports id
  | .VariableDeclarator id (some init) => treeReports id ++ treeReports init
  | .Other children => treeReportsList children
/-- The same for a list of sibling nodes. -/
def treeReportsList : List Node → List Report
  | [] => []
  | node :: rest => treeReports node ++ treeReportsList rest
end

/-- The number of events, in a sequence handled while the given frame is
innermost, that enter a call whose callee is a semaphore increment and is
not, when the event is handled, a callback variable of the frame. -/
def effectiveStopCalls (frame : AsyncState) : List Event → Int
  | [] => 0
  | event :: rest =>
      (match event with
        | .callEnter callee _ =>
            if isStop callee && !isAsyncCallbackVar [frame] callee then 1 else 0
        | _ => 0) + effectiveStopCalls (frameStep frame event) rest

/-- The number of events, in a sequence handled while the given frame is
innermost, that enter a call whose callee is a semaphore decrement and is
not, when the event is handled, a callback variable of the frame. -/
def effectiveStartCalls (frame : AsyncState) : List Event → Int
  | [] => 0
  | event :: rest =>
      (match event with
        | .callEnter callee _ =>
            if isStart callee && !isAsyncCallbackVar [frame] callee then 1 else 0
        | _ => 0) + effectiveStartCalls (frameStep frame event) rest

/-- The names of a list without repetition, each at the place of its first
occurrence. -/
def firstOccurrences : List String → List String
  | [] => []
  | k :: ks => k :: (firstOccurrences ks).filter (fun x => x != k)

/-- The names registered as callback variables by a sequence of events, for a
frame whose assertion-context name is `contextVar`, in the order in which they
are first registered. -/
def registrationOrder (contextVar : Option String) (evs : List Event) : List String :=
  firstOccurrences (evs.filterMap (Event.registers contextVar))

/-- The key order of an object after an assignment to the key `k`, when `k`
is not `__proto__`: the key is appended unless it is an own key already. -/
def insertKey (keys : List String) (k : String) : List String :=
  if k ∈ keys then keys else keys ++ [k]

/-! ## Sample programs -/

/-- A literal argument, such as the name of a test: a node without children
that the rule does not inspect. -/
def literal : Node := .Other []

/-- The call expression `object.property()`. -/
def memberCall (object property : String) : Node :=
  .CallExpression (.MemberExpression (.Identifier object) (.Identifier property)) []

/-- The expression statement `name();`. -/
def callStatement (name : String) : Node :=
  .Other [.CallExpression (.Identifier name) []]

/-- The declaration statement `var v = x.async();`. -/
def asyncDeclaration (v x : String) : Node :=
  .Other [.VariableDeclarator (.Identifier v) (some (memberCall x "async"))]

/-- The expression statement `v = x.async();`. -/
def asyncAssignment (v x : String) : Node :=
  .Other [.AssignmentExpression (.Identifier v) (memberCall x "async")]

/-- The argument list `("name", function (params) { statements })` of a test
declaration. -/
def testArguments (params : List String) (statements : List Node) : List Node :=
  [literal, .FunctionExpression (params.map Node.Identifier) (.Other statements)]

/-- The expression statement `callee("name", function (params) { statements });`
with a bare callee. -/
def testStatement (callee : String) (params : List String) (statements : List Node) : Node :=
  .Other [.CallExpression (.Identifier callee) (testArguments params statements)]

/-! ## Basic facts about the run -/

theorem run_cons (s : List AsyncState) (e : Event) (es : List Event) :
    run s (e :: es) =
      match step s e with
      | none => none
      | some (stack1, reports1) =>
          match run stack1 es with
          | none => none
          | some (stack2, reports2) => some (stack2, reports1 ++ reports2) := rfl

theorem run_cons_some {s sa sb : List AsyncState} {ra rb : List Report} {e : Event}
    {es : List Event} (h1 : step s e = some (sa, ra)) (h2 : run sa es = some (sb, rb)) :
    run s (e :: es) = some (sb, ra ++ rb) := by
  rw [run_cons, h1]; simp only []; rw [h2]

theorem run_cons_inv {s s2 : List AsyncState} {r : List Report} {e : Event}
    {es : List Event} (h : run s (e :: es) = some (s2, r)) :
    ∃ sa ra rb, step s e = some (sa, ra) ∧ run sa es = some (s2, rb) ∧ r = ra ++ rb := by
  rw [run_cons] at h
  cases hs : step s e with
  | none => rw [hs] at h; simp at h
  | some p =>
    obtain ⟨sa, ra⟩ := p
    rw [hs] at h
    simp only [] at h
    cases hr : run sa es with
    | none => rw [hr] at h; simp at h
    | some q =>
      obtain ⟨sb, rb⟩ := q
      rw [hr] at h
      simp only [Option.some.injEq, Prod.mk.injEq] at h
      obtain ⟨rfl, rfl⟩ := h
      exact ⟨sa, ra, rb, rfl, hr, rfl⟩

theorem run_append_some {s s1 s2 : List AsyncState} {r1 r2 : List Report} :
    ∀ {xs ys : List Event}, run s xs = some (s1, r1) → run s1 ys = some (s2, r2) →
      run s (xs ++ ys) = some (s2, r1 ++ r2) := by
  intro xs
  induction xs generalizing s r1 with
  | nil =>
    intro ys h1 h2
    simp only [run, Option.some.injEq, Prod.mk.injEq] at h1
    obtain ⟨rfl, rfl⟩ := h1
    simpa using h2
  | cons e es ih =>
    intro ys h1 h2
    obtain ⟨sa, ra, rb, hs, hr, rfl⟩ := run_cons_inv h1
    rw [List.cons_append, run_cons_some hs (ih hr h2), List.append_assoc]

theorem run_append_inv {s s2 : List AsyncState} {r : List Report} :
    ∀ {xs ys : List Event}, run s (xs ++ ys) = some (s2, r) →
      ∃ s1 r1 r2, run s xs = some (s1, r1) ∧ run s1 ys = some (s2, r2) ∧ r = r1 ++ r2 := by
  intro xs
  induction xs generalizing s r with
  | nil =>
    intro ys h
    exact ⟨s, [], r, rfl, by simpa using h, rfl⟩
  | cons e es ih =>
    intro ys h
    rw [List.cons_append] at h
    obtain ⟨sa, ra, rb, hs, hr, rfl⟩ := run_cons_inv h
    obtain ⟨s1, r1, r2, h1, h2, rfl⟩ := ih hr
    exact ⟨s1, ra ++ r1, r2, run_cons_some hs h1, h2, by simp⟩

theorem run_singleton {s s1 : List AsyncState} {r : List Report} {e : Event}
    (h : step s e = some (s1, r)) : run s [e] = some (s1, r) := by
  have := run_cons_some h (rfl : run s1 [] = some (s1, []))
  simpa using this

theorem trackStack_nil (s : List AsyncState) : trackStack s [] = s := by
  cases s <;> rfl

theorem trackStack_append (s : List AsyncState) (xs ys : List Event) :
    trackStack (trackStack s xs) ys = trackStack s (xs ++ ys) := by
  cases s with
  | nil => rfl
  | cons f below => simp [trackStack, trackFrame, List.foldl_append]

theorem isAsyncCallbackVar_top (f : AsyncState) (below : List AsyncState) (c : Node) :
    isAsyncCallbackVar (f :: below) c = isAsyncCallbackVar [f] c := by
  cases c <;> rfl

theorem isAsyncCallExpression_top (f : AsyncState) (below : List AsyncState) (x : Option Node) :
    isAsyncCallExpression (f :: below) x = isAsyncCallExpression [f] x := rfl

/-- An event that neither pushes nor pops changes the innermost frame only and
reports nothing. -/
theorem step_keepsFrames (f : AsyncState) (below : List AsyncState) (e : Event)
    (h : e.keepsFrames = true) :
    step (f :: below) e = some (frameStep f e :: below, []) := by
  cases e with
  | callEnter c a =>
    simp only [Event.keepsFrames, Bool.not_eq_true'] at h
    simp only [frameStep, step, onCallExpression, h, isAsyncCallbackVar_top f below c]
    by_cases h1 : isAsyncCallbackVar [f] c = true
    · simp [h1, markAsyncCallbackVarCalled]
    · by_cases h2 : isStop c = true
      · simp [h1, h2, incrementSemaphoreCount]
      · by_cases h3 : isStart c = true
        · simp [h1, h2, h3, incrementSemaphoreCount]
        · simp [h1, h2, h3]
  | callExit c a =>
    simp only [Event.keepsFrames, Bool.not_eq_true'] at h
    simp [frameStep, step, onCallExpressionExit, h]
  | assignmentEnter l r =>
    simp only [frameStep, step, onAssignmentExpression, isAsyncCallExpression_top f below]
    by_cases h1 : isAsyncCallExpression [f] (some r) = true
    · simp [h1, addAsyncCallbackVar]
    · simp [h1]
  | declaratorEnter i init =>
    simp only [frameStep, step, onVariableDeclarator, isAsyncCallExpression_top f below]
    by_cases h1 : isAsyncCallExpression [f] init = true
    · simp [h1, addAsyncCallbackVar]
    · simp [h1]

theorem step_keepsFrames_nil (e : Event) (h : e.keepsFrames = true) :
    step [] e = some ([], []) := by
  cases e with
  | callEnter c a =>
    simp only [Event.keepsFrames, Bool.not_eq_true'] at h
    simp only [step, onCallExpression, h]
    have : isAsyncCallbackVar [] c = false := by cases c <;> rfl
    by_cases h2 : isStop c = true
    · simp [this, h2, incrementSemaphoreCount]
    · by_cases h3 : isStart c = true
      · simp [this, h2, h3, incrementSemaphoreCount]
      · simp [this, h2, h3]
  | callExit c a =>
    simp only [Event.keepsFrames, Bool.not_eq_true'] at h
    simp [step, onCallExpressionExit, h]
  | assignmentEnter l r =>
    simp [step, onAssignmentExpression, isAsyncCallExpression, truthy]
  | declaratorEnter i init =>
    simp [step, onVariableDeclarator, isAsyncCallExpression, truthy]

theorem step_keepsFrames_stack (s : List AsyncState) (e : Event)
    (h : e.keepsFrames = true) :
    step s e = some (trackStack s [e], []) := by
  cases s with
  | nil => exact step_keepsFrames_nil e h
  | cons f below => exact step_keepsFrames f below e h

theorem step_callEnter_test (s : List AsyncState) (c : Node) (a : List Node)
    (h : isTest c = true) :
    step s (Event.callEnter c a) = some (initialFrame c a :: s, []) := by
  simp [step, onCallExpression, h, initialFrame]

theorem step_callExit_test (f : AsyncState) (s : List AsyncState) (c : Node) (a : List Node)
    (h : isTest c = true) :
    step (f :: s) (Event.callExit c a) =
      some (s, verifyAsyncState f (Node.CallExpression c a)) := by
  simp [step, onCallExpressionExit, h]

mutual
/-- The run over the traversal of a subtree never throws; it leaves the stack
as the frame-local events of the subtree leave it. -/
theorem run_events : ∀ (n : Node) (s : List AsyncState),
    ∃ reps, run s (events n) = some (trackStack s (ownEvents n), reps)
  | .Identifier _, s => ⟨[], by simp [events, ownEvents, run, trackStack_nil]⟩
  | .MemberExpression o p, s => by
    obtain ⟨r1, h1⟩ := run_events o s
    obtain ⟨r2, h2⟩ := run_events p (trackStack s (ownEvents o))
    have hall := run_append_some h1 h2
    rw [trackStack_append] at hall
    simp only [events, ownEvents]
    exact ⟨_, hall⟩
  | .CallExpression c a, s => by
    by_cases ht : isTest c = true
    · obtain ⟨r1, h1⟩ := run_events c (initialFrame c a :: s)
      obtain ⟨r2, h2⟩ := run_eventsList a (trackStack (initialFrame c a :: s) (ownEvents c))
      have hbody := run_append_some h1 h2
      rw [trackStack_append] at hbody
      have hexit := run_singleton (step_callExit_test
        (trackFrame (initialFrame c a) (ownEvents c ++ ownEventsList a)) s c a ht)
      have hall := run_cons_some (step_callEnter_test s c a ht) (run_append_some hbody hexit)
      simp only [events, ownEvents, ht, if_true, trackStack_nil]
      exact ⟨_, hall⟩
    · have hk : (Event.callEnter c a).keepsFrames = true := by simp [Event.keepsFrames, ht]
      obtain ⟨r1, h1⟩ := run_events c (trackStack s [Event.callEnter c a])
      obtain ⟨r2, h2⟩ := run_eventsList a
        (trackStack (trackStack s [Event.callEnter c a]) (ownEvents c))
      have hbody := run_append_some h1 h2
      have hexit : run (trackStack (trackStack (trackStack s [Event.callEnter c a])
          (ownEvents c)) (ownEventsList a)) [Event.callExit c a] =
          some (trackStack (trackStack (trackStack s [Event.callEnter c a])
          (ownEvents c)) (ownEventsList a), []) := by
        apply run_singleton
        simp [step, onCallExpressionExit, ht]
      have hall := run_cons_some (step_keepsFrames_stack s _ hk) (run_append_some hbody hexit)
      rw [trackStack_append, trackStack_append] at hall
      simp only [events, ownEvents, ht]
      exact ⟨_, hall⟩
  | .FunctionExpression ps b, s => by
    obtain ⟨r1, h1⟩ := run_eventsList ps s
    obtain ⟨r2, h2⟩ := run_events b (trackStack s (ownEventsList ps))
    have hall := run_append_some h1 h2
    rw [trackStack_append] at hall
    simp only [events, ownEvents]
    exact ⟨_, hall⟩
  | .AssignmentExpression l r, s => by
    have hk : (Event.assignmentEnter l r).keepsFrames = true := rfl
    obtain ⟨r1, h1⟩ := run_events l (trackStack s [Event.assignmentEnter l r])
    obtain ⟨r2, h2⟩ := run_events r
      (trackStack (trackStack s [Event.assignmentEnter l r]) (ownEvents l))
    have hall := run_cons_some (step_keepsFrames_stack s _ hk) (run_append_some h1 h2)
    rw [trackStack_append, trackStack_append] at hall
    simp only [events, ownEvents]
    exact ⟨_, hall⟩
  | .VariableDeclarator i none, s => by
    have hk : (Event.declaratorEnter i none).keepsFrames = true := rfl
    obtain ⟨r1, h1⟩ := run_events i (trackStack s [Event.declaratorEnter i none])
    have hall := run_cons_some (step_keepsFrames_stack s _ hk) h1
    rw [trackStack_append] at hall
    simp only [events, ownEvents]
    exact ⟨_, hall⟩
  | .VariableDeclarator i (some e), s => by
    have hk : (Event.declaratorEnter i (some e)).keepsFrames = true := rfl
    obtain ⟨r1, h1⟩ := run_events i (trackStack s [Event.declaratorEnter i (some e)])
    obtain ⟨r2, h2⟩ := run_events e
      (trackStack (trackStack s [Event.declaratorEnter i (some e)]) (ownEvents i))
    have hall := run_cons_some (step_keepsFrames_stack s _ hk) (run_append_some h1 h2)
    rw [trackStack_append, trackStack_append] at hall
    simp only [events, ownEvents]
    exact ⟨_, hall⟩
  | .Other cs, s => by
    obtain ⟨r1, h1⟩ := run_eventsList cs s
    simp only [events, ownEvents]
    exact ⟨r1, h1⟩
/-- The same for a list of sibling subtrees. -/
theorem run_eventsList : ∀ (ns : List Node) (s : List AsyncState),
    ∃ reps, run s (eventsList ns) = some (trackStack s (ownEventsList ns), reps)
  | [], s => ⟨[], by simp [eventsList, ownEventsList, run, trackStack_nil]⟩
  | n :: ns, s => by
    obtain ⟨r1, h1⟩ := run_events n s
    obtain ⟨r2, h2⟩ := run_eventsList ns (trackStack s (ownEvents n))
    have hall := run_append_some h1 h2
    rw [trackStack_append] at hall
    simp only [eventsList, ownEventsList]
    exact ⟨_, hall⟩
end

/-! ## Objects used as maps -/

theorem hasOwnProperty_iff (obj : JSObject) (k : String) :
    hasOwnProperty obj k = true ↔ k ∈ ownKeys obj := by
  simp only [hasOwnProperty, ownKeys, List.any_eq_true, List.mem_map, beq_iff_eq]

theorem ownKeys_setProperty (obj : JSObject) (k : String) (v : Bool) :
    ownKeys (setProperty obj k v) =
      if k = "__proto__" ∨ k ∈ ownKeys obj then ownKeys obj else ownKeys obj ++ [k] := by
  unfold setProperty
  by_cases hp : k = "__proto__"
  · simp [hp]
  · by_cases ho : hasOwnProperty obj k = true
    · have hk := (hasOwnProperty_iff obj k).1 ho
      simp only [beq_iff_eq, hp, if_false, ho, if_true, false_or, hk]
      simp only [ownKeys, List.map_map]
      apply List.map_congr_left
      intro e _
      by_cases hek : e.1 = k
      · simp [hek]
      · simp [hek]
    · have hk : k ∉ ownKeys obj := fun h => ho ((hasOwnProperty_iff obj k).2 h)
      have hc : ¬ (k = "__proto__" ∨ k ∈ ownKeys obj) := by
        rintro (h | h)
        · exact hp h
        · exact hk h
      rw [if_neg hc]
      simp [hp, ho, ownKeys]

theorem wellFormed_nil : WellFormed [] := by
  simp [WellFormed, ownKeys]

theorem wellFormed_setProperty {obj : JSObject} (h : WellFormed obj) (k : String) (v : Bool) :
    WellFormed (setProperty obj k v) := by
  unfold WellFormed
  rw [ownKeys_setProperty]
  by_cases hc : k = "__proto__" ∨ k ∈ ownKeys obj
  · simpa [hc] using h
  · simp only [hc, if_false]
    push_neg at hc
    obtain ⟨hp, hk⟩ := hc
    refine ⟨?_, ?_⟩
    · rw [List.nodup_append]
      refine ⟨h.1, List.nodup_singleton k, ?_⟩
      intro x hx hx2
      simp only [List.mem_singleton] at hx2
      subst hx2
      exact hk hx
    · simp only [List.mem_append, List.mem_singleton, not_or]
      exact ⟨h.2, fun e => hp e.symm⟩

/-- An assignment to one key leaves the entries of every other key alone. -/
theorem mem_setProperty_of_ne {obj : JSObject} {k k1 : String} {v b : Bool} (hne : k1 ≠ k) :
    (k1, b) ∈ setProperty obj k v ↔ (k1, b) ∈ obj := by
  unfold setProperty
  by_cases hp : k = "__proto__"
  · simp [hp]
  · by_cases ho : hasOwnProperty obj k = true
    · simp only [beq_iff_eq, hp, if_false, ho, if_true, List.mem_map]
      constructor
      · rintro ⟨e, he, heq⟩
        by_cases hek : e.1 = k
        · simp only [hek, if_true, Prod.mk.injEq] at heq
          exact absurd heq.1.symm hne
        · simp only [hek, if_false] at heq
          rw [← heq]; exact he
      · intro h
        exact ⟨(k1, b), h, by simp [hne]⟩
    · simp only [beq_iff_eq, hp, if_false, ho, Bool.false_eq_true, List.mem_append,
        List.mem_singleton, Prod.mk.injEq]
      constructor
      · rintro (h | ⟨h, _⟩)
        · exact h
        · exact absurd h hne
      · exact fun h => Or.inl h

/-- After `obj[k] = v` the entry of `k` holds `v`, unless `k` is `__proto__`. -/
theorem mem_setProperty_self {obj : JSObject} {k : String} (v : Bool) (hp : k ≠ "__proto__") :
    (k, v) ∈ setProperty obj k v := by
  unfold setProperty
  by_cases ho : hasOwnProperty obj k = true
  · simp only [beq_iff_eq, hp, if_false, ho, if_true, List.mem_map]
    obtain ⟨e, he, hek⟩ := List.any_eq_true.1 ho
    exact ⟨e, he, by simp [beq_iff_eq.1 hek]⟩
  · simp [hp, ho]

/-- An entry of the assigned key with another value is an old entry of a
`__proto__` key. -/
theorem mem_setProperty_self_other {obj : JSObject} {k : String} {v b : Bool}
    (h : (k, b) ∈ setProperty obj k v) (hb : b ≠ v) : k = "__proto__" ∧ (k, b) ∈ obj := by
  unfold setProperty at h
  by_cases hp : k = "__proto__"
  · simp only [hp, beq_self_eq_true, if_true] at h
    exact ⟨hp, by rw [hp]; exact h⟩
  · exfalso
    by_cases ho : hasOwnProperty obj k = true
    · simp only [beq_iff_eq, hp, if_false, ho, if_true, List.mem_map] at h
      obtain ⟨e, he, heq⟩ := h
      by_cases hek : e.1 = k
      · simp only [hek, if_true, Prod.mk.injEq] at heq
        exact hb heq.2.symm
      · simp only [hek, if_false] at heq
        exact hek (by rw [heq])
    · simp only [beq_iff_eq, hp, if_false, ho, Bool.false_eq_true, List.mem_append,
        List.mem_singleton, Prod.mk.injEq] at h
      rcases h with h | ⟨_, h⟩
      · apply ho
        rw [hasOwnProperty_iff]
        exact List.mem_map.2 ⟨(k, b), h, rfl⟩
      · exact hb h

/-- Entries of any key with a value other than the assigned one are old. -/
theorem mem_of_mem_setProperty {obj : JSObject} {k k1 : String} {v b : Bool}
    (h : (k1, b) ∈ setProperty obj k v) (hb : b ≠ v) : (k1, b) ∈ obj := by
  by_cases hne : k1 = k
  · subst hne
    exact (mem_setProperty_self_other h hb).2
  · exact (mem_setProperty_of_ne hne).1 h

theorem mem_ownKeys_of_mem {obj : JSObject} {k : String} {b : Bool} (h : (k, b) ∈ obj) :
    k ∈ ownKeys obj :=
  List.mem_map.2 ⟨(k, b), h, rfl⟩
/-! ## Verification of a popped frame -/

theorem foldl_reports (node : Node) (vars : JSObject) (acc : List Report) :
    vars.foldl
      (fun reported entry =>
        if entry.2 == false then reported ++ [Report.ASYNC_VAR_MESSAGE node entry.1]
        else reported) acc =
    acc ++ (vars.filter (fun entry => entry.2 == false)).map
      (fun entry => Report.ASYNC_VAR_MESSAGE node entry.1) := by
  induction vars generalizing acc with
  | nil => simp
  | cons e es ih =>
    rw [List.foldl_cons, ih]
    by_cases h : e.2 = false
    · simp [h, List.filter_cons]
    · simp [h, List.filter_cons]

theorem verifyAsyncState_eq_specReports (asyncState : AsyncState) (node : Node) :
    verifyAsyncState asyncState node = specReports asyncState node := by
  unfold verifyAsyncState specReports
  rw [foldl_reports]
  by_cases h : asyncState.stopSemaphoreCount > 0
  · by_cases h1 : asyncState.stopSemaphoreCount = 1
    · simp [h, h1]
    · simp [h, h1]
  · simp [h]
/-! ## The effect of one event on the innermost frame -/

theorem isStop_eq_true (c : Node) :
    isStop c = true ↔
      c = .Identifier "stop" ∨ c = .MemberExpression (.Identifier "QUnit") (.Identifier "stop") := by
  cases c with
  | Identifier n => simp [isStop]
  | MemberExpression o p => cases o <;> cases p <;> simp [isStop]
  | _ => simp [isStop]

theorem isStart_eq_true (c : Node) :
    isStart c = true ↔
      c = .Identifier "start" ∨
        c = .MemberExpression (.Identifier "QUnit") (.Identifier "start") := by
  cases c with
  | Identifier n => simp [isStart]
  | MemberExpression o p => cases o <;> cases p <;> simp [isStart]
  | _ => simp [isStart]

theorem isTest_eq_true (c : Node) :
    isTest c = true ↔
      c = .Identifier "test" ∨ c = .Identifier "asyncTest" ∨
        c = .MemberExpression (.Identifier "QUnit") (.Identifier "test") ∨
        c = .MemberExpression (.Identifier "QUnit") (.Identifier "asyncTest") := by
  cases c with
  | Identifier n => simp [isTest, SUPPORTED_IDENTIFIERS]
  | MemberExpression o p =>
    cases o <;> cases p <;> simp [isTest, SUPPORTED_IDENTIFIERS, and_or_left]
  | _ => simp [isTest]

theorem not_isStop_and_isStart (c : Node) : ¬ (isStop c = true ∧ isStart c = true) := by
  rw [isStop_eq_true, isStart_eq_true]
  rintro ⟨h1 | h1, h2 | h2⟩ <;> subst h1 <;> simp at h2

theorem frameStep_callEnter (f : AsyncState) (c : Node) (a : List Node)
    (h : isTest c = false) :
    frameStep f (Event.callEnter c a) =
      if isAsyncCallbackVar [f] c then
        { f with asyncCallbackVars := setProperty f.asyncCallbackVars (propertyKey c.name) true }
      else if isStop c then { f with stopSemaphoreCount := f.stopSemaphoreCount + 1 }
      else if isStart c then { f with stopSemaphoreCount := f.stopSemaphoreCount + (-1) }
      else f := by
  simp only [frameStep, step, onCallExpression, h]
  by_cases h1 : isAsyncCallbackVar [f] c = true
  · simp [h1, markAsyncCallbackVarCalled]
  · by_cases h2 : isStop c = true
    · simp [h1, h2, incrementSemaphoreCount]
    · by_cases h3 : isStart c = true
      · simp [h1, h2, h3, incrementSemaphoreCount]
      · simp [h1, h2, h3]

theorem frameStep_callExit (f : AsyncState) (c : Node) (a : List Node)
    (h : isTest c = false) : frameStep f (Event.callExit c a) = f := by
  simp [frameStep, step, onCallExpressionExit, h]

theorem frameStep_assignmentEnter (f : AsyncState) (l r : Node) :
    frameStep f (Event.assignmentEnter l r) =
      match (Event.assignmentEnter l r).registers f.assertContextVar with
      | some k => { f with asyncCallbackVars := setProperty f.asyncCallbackVars k false }
      | none => f := by
  have hx : isAsyncCallExpression [f] (some r) =
      isAsyncCallExpression [⟨0, [], f.assertContextVar⟩] (some r) := rfl
  simp only [frameStep, step, onAssignmentExpression, Event.registers, ← hx]
  by_cases h1 : isAsyncCallExpression [f] (some r) = true
  · simp [h1, addAsyncCallbackVar]
  · simp [h1]

theorem frameStep_declaratorEnter (f : AsyncState) (i : Node) (init : Option Node) :
    frameStep f (Event.declaratorEnter i init) =
      match (Event.declaratorEnter i init).registers f.assertContextVar with
      | some k => { f with asyncCallbackVars := setProperty f.asyncCallbackVars k false }
      | none => f := by
  have hx : isAsyncCallExpression [f] init =
      isAsyncCallExpression [⟨0, [], f.assertContextVar⟩] init := rfl
  simp only [frameStep, step, onVariableDeclarator, Event.registers, ← hx]
  by_cases h1 : isAsyncCallExpression [f] init = true
  · simp [h1, addAsyncCallbackVar]
  · simp [h1]

/-- What one frame-keeping event does to the innermost frame, in three cases:
it registers a key (entry set to `false`), it marks a key that is a property of
the mapping (entry set to `true`), or it leaves the mapping alone and adds
`+1`, `-1` or `0` to the count. -/
theorem frameStep_cases (f : AsyncState) (e : Event) (h : e.keepsFrames = true) :
    (∃ k, e.registers f.assertContextVar = some k ∧
      frameStep f e = { f with asyncCallbackVars := setProperty f.asyncCallbackVars k false }) ∨
    (∃ k, e.callsBare k = true ∧ hasProperty f.asyncCallbackVars k = true ∧
      e.registers f.assertContextVar = none ∧
      frameStep f e = { f with asyncCallbackVars := setProperty f.asyncCallbackVars k true }) ∨
    (e.registers f.assertContextVar = none ∧
      (∀ k, e.callsBare k = true → hasProperty f.asyncCallbackVars k = false) ∧
      ∃ d : Int, frameStep f e = { f with stopSemaphoreCount := f.stopSemaphoreCount + d } ∧
        d = (if e.isStopCall then 1 else 0) - (if e.isStartCall then 1 else 0)) := by
  cases e with
  | callEnter c a =>
    simp only [Event.keepsFrames, Bool.not_eq_true'] at h
    rw [frameStep_callEnter f c a h]
    by_cases h1 : isAsyncCallbackVar [f] c = true
    · right; left
      cases c with
      | Identifier name =>
        refine ⟨name, by simp [Event.callsBare], ?_, rfl, ?_⟩
        · simpa [isAsyncCallbackVar] using h1
        · simp [h1, propertyKey, Node.name]
      | _ => simp [isAsyncCallbackVar] at h1
    · right; right
      refine ⟨rfl, ?_, ?_⟩
      · intro k hk
        cases c with
        | Identifier name =>
          simp only [Event.callsBare, beq_iff_eq] at hk
          subst hk
          simpa [isAsyncCallbackVar] using h1
        | _ => simp [Event.callsBare] at hk
      · have hss := not_isStop_and_isStart c
        by_cases h2 : isStop c = true
        · have h3 : isStart c = false := by
            cases hst : isStart c with
            | true => exact absurd ⟨h2, hst⟩ hss
            | false => rfl
          exact ⟨1, by simp [h1, h2], by simp [Event.isStopCall, Event.isStartCall, h2, h3]⟩
        · by_cases h3 : isStart c = true
          · exact ⟨-1, by simp [h1, h2, h3], by simp [Event.isStopCall, Event.isStartCall, h2, h3]⟩
          · exact ⟨0, by simp [h1, h2, h3], by simp [Event.isStopCall, Event.isStartCall, h2, h3]⟩
  | callExit c a =>
    simp only [Event.keepsFrames, Bool.not_eq_true'] at h
    right; right
    rw [frameStep_callExit f c a h]
    exact ⟨rfl, by simp [Event.callsBare], 0, by simp, by simp [Event.isStopCall, Event.isStartCall]⟩
  | assignmentEnter l r =>
    rw [frameStep_assignmentEnter]
    cases hr : (Event.assignmentEnter l r).registers f.assertContextVar with
    | some k => left; exact ⟨k, rfl, rfl⟩
    | none =>
      right; right
      exact ⟨rfl, by simp [Event.callsBare], 0, by simp, by simp [Event.isStopCall, Event.isStartCall]⟩
  | declaratorEnter i init =>
    rw [frameStep_declaratorEnter]
    cases hr : (Event.declaratorEnter i init).registers f.assertContextVar with
    | some k => left; exact ⟨k, rfl, rfl⟩
    | none =>
      right; right
      exact ⟨rfl, by simp [Event.callsBare], 0, by simp, by simp [Event.isStopCall, Event.isStartCall]⟩
/-! ## Invariants of a tracked frame -/

theorem trackFrame_cons (f : AsyncState) (e : Event) (es : List Event) :
    trackFrame f (e :: es) = trackFrame (frameStep f e) es := rfl

theorem trackFrame_append (f : AsyncState) (xs ys : List Event) :
    trackFrame f (xs ++ ys) = trackFrame (trackFrame f xs) ys := by
  simp [trackFrame, List.foldl_append]

theorem frameStep_context (f : AsyncState) (e : Event) (h : e.keepsFrames = true) :
    (frameStep f e).assertContextVar = f.assertContextVar := by
  rcases frameStep_cases f e h with ⟨k, _, hf⟩ | ⟨k, _, _, _, hf⟩ | ⟨_, _, d, hf, _⟩ <;> rw [hf]

theorem frameStep_wellFormed (f : AsyncState) (e : Event) (h : e.keepsFrames = true)
    (hw : WellFormed f.asyncCallbackVars) : WellFormed (frameStep f e).asyncCallbackVars := by
  rcases frameStep_cases f e h with ⟨k, _, hf⟩ | ⟨k, _, _, _, hf⟩ | ⟨_, _, d, hf, _⟩ <;> rw [hf]
  · exact wellFormed_setProperty hw k false
  · exact wellFormed_setProperty hw k true
  · exact hw

theorem trackFrame_context (evs : List Event) (f : AsyncState)
    (h : ∀ e ∈ evs, e.keepsFrames = true) :
    (trackFrame f evs).assertContextVar = f.assertContextVar := by
  induction evs generalizing f with
  | nil => rfl
  | cons e es ih =>
    rw [trackFrame_cons, ih _ (fun x hx => h x (List.mem_cons_of_mem _ hx)),
      frameStep_context f e (h e (List.mem_cons_self _ _))]

theorem trackFrame_wellFormed (evs : List Event) (f : AsyncState)
    (h : ∀ e ∈ evs, e.keepsFrames = true) (hw : WellFormed f.asyncCallbackVars) :
    WellFormed (trackFrame f evs).asyncCallbackVars := by
  induction evs generalizing f with
  | nil => exact hw
  | cons e es ih =>
    rw [trackFrame_cons]
    exact ih _ (fun x hx => h x (List.mem_cons_of_mem _ hx))
      (frameStep_wellFormed f e (h e (List.mem_cons_self _ _)) hw)

mutual
/-- Frame-local events never push or pop a frame. -/
theorem ownEvents_keepsFrames : ∀ (n : Node), ∀ e ∈ ownEvents n, e.keepsFrames = true
  | .Identifier _ => by simp [ownEvents]
  | .MemberExpression o p => by
    intro e he
    simp only [ownEvents, List.mem_append] at he
    rcases he with he | he
    · exact ownEvents_keepsFrames o e he
    · exact ownEvents_keepsFrames p e he
  | .CallExpression c a => by
    intro e he
    by_cases ht : isTest c = true
    · simp [ownEvents, ht] at he
    · simp only [ownEvents, ht, Bool.false_eq_true, if_false, List.mem_cons,
        List.mem_append] at he
      rcases he with he | he | he
      · rw [he]; simp [Event.keepsFrames, ht]
      · exact ownEvents_keepsFrames c e he
      · exact ownEventsList_keepsFrames a e he
  | .FunctionExpression ps b => by
    intro e he
    simp only [ownEvents, List.mem_append] at he
    rcases he with he | he
    · exact ownEventsList_keepsFrames ps e he
    · exact ownEvents_keepsFrames b e he
  | .AssignmentExpression l r => by
    intro e he
    simp only [ownEvents, List.mem_cons, List.mem_append] at he
    rcases he with he | he | he
    · rw [he]; rfl
    · exact ownEvents_keepsFrames l e he
    · exact ownEvents_keepsFrames r e he
  | .VariableDeclarator i none => by
    intro e he
    simp only [ownEvents, List.mem_cons] at he
    rcases he with he | he
    · rw [he]; rfl
    · exact ownEvents_keepsFrames i e he
  | .VariableDeclarator i (some x) => by
    intro e he
    simp only [ownEvents, List.mem_cons, List.mem_append] at he
    rcases he with he | he | he
    · rw [he]; rfl
    · exact ownEvents_keepsFrames i e he
    · exact ownEvents_keepsFrames x e he
  | .Other cs => by
    intro e he
    simp only [ownEvents] at he
    exact ownEventsList_keepsFrames cs e he
/-- The same for a list of sibling subtrees. -/
theorem ownEventsList_keepsFrames : ∀ (ns : List Node), ∀ e ∈ ownEventsList ns,
    e.keepsFrames = true
  | [] => by simp [ownEventsList]
  | n :: ns => by
    intro e he
    simp only [ownEventsList, List.mem_append] at he
    rcases he with he | he
    · exact ownEvents_keepsFrames n e he
    · exact ownEventsList_keepsFrames ns e he
end

theorem frameEvents_keepsFrames (c : Node) (a : List Node) :
    ∀ e ∈ frameEvents c a, e.keepsFrames = true := by
  intro e he
  simp only [frameEvents, List.mem_append] at he
  rcases he with he | he
  · exact ownEvents_keepsFrames c e he
  · exact ownEventsList_keepsFrames a e he

/-- The callee of a test declaration has no events of its own. -/
theorem events_of_isTest (c : Node) (h : isTest c = true) : events c = [] := by
  rw [isTest_eq_true] at h
  rcases h with h | h | h | h <;> subst h <;> simp [events]

/-- The exit of a test-declaration call reports the verification of the frame
the call pushed, as its frame-local events have left it. -/
theorem exitReports_eq (s : List AsyncState) (c : Node) (a : List Node)
    (h : isTest c = true) :
    exitReports s c a =
      some (verifyAsyncState (trackFrame (initialFrame c a) (frameEvents c a))
        (Node.CallExpression c a)) := by
  obtain ⟨r1, h1⟩ := run_events c (initialFrame c a :: s)
  obtain ⟨r2, h2⟩ := run_eventsList a (trackStack (initialFrame c a :: s) (ownEvents c))
  have hbody := run_append_some h1 h2
  rw [trackStack_append] at hbody
  have hall := run_cons_some (step_callEnter_test s c a h) hbody
  simp only [exitReports, exitReportsAfter, bodyEvents]
  rw [hall]
  simp [trackStack, onCallExpressionExit, h, frameEvents]
/-! ## The semaphore count of a tracked frame -/

theorem registers_some_not_call {X : Option String} {e : Event} {k : String}
    (h : e.registers X = some k) :
    e.isStopCall = false ∧ e.isStartCall = false ∧ ∀ v, e.callsBare v = false := by
  cases e <;> simp [Event.registers] at h <;>
    simp [Event.isStopCall, Event.isStartCall, Event.callsBare]

theorem callsBare_of_isStopCall {e : Event} {k : String} (h : e.isStopCall = true)
    (hk : e.callsBare k = true) : k = "stop" := by
  cases e with
  | callEnter c a =>
    cases c with
    | Identifier n =>
      simp only [Event.isStopCall, isStop, beq_iff_eq] at h
      simp only [Event.callsBare, beq_iff_eq] at hk
      rw [← hk, h]
    | _ => simp [Event.callsBare] at hk
  | _ => simp [Event.callsBare] at hk

theorem callsBare_of_isStartCall {e : Event} {k : String} (h : e.isStartCall = true)
    (hk : e.callsBare k = true) : k = "start" := by
  cases e with
  | callEnter c a =>
    cases c with
    | Identifier n =>
      simp only [Event.isStartCall, isStart, beq_iff_eq] at h
      simp only [Event.callsBare, beq_iff_eq] at hk
      rw [← hk, h]
    | _ => simp [Event.callsBare] at hk
  | _ => simp [Event.callsBare] at hk

theorem hasProperty_iff (obj : JSObject) (k : String) :
    hasProperty obj k = true ↔ k ∈ ownKeys obj ∨ k ∈ objectPrototypeKeys := by
  unfold hasProperty
  rw [Bool.or_eq_true, hasOwnProperty_iff]
  simp

theorem mem_ownKeys_setProperty {obj : JSObject} {k x : String} {v : Bool}
    (h : x ∈ ownKeys (setProperty obj k v)) : x ∈ ownKeys obj ∨ x = k := by
  rw [ownKeys_setProperty] at h
  by_cases hc : k = "__proto__" ∨ k ∈ ownKeys obj
  · rw [if_pos hc] at h; exact Or.inl h
  · rw [if_neg hc] at h
    simpa using h

/-- A name that is not inherited and not yet an own key stays out of the
mapping unless an event registers it. -/
theorem not_mem_ownKeys_frameStep {f : AsyncState} {e : Event} {name : String}
    (hk : e.keepsFrames = true) (hnp : name ∉ objectPrototypeKeys)
    (hn : name ∉ ownKeys f.asyncCallbackVars)
    (hreg : e.registers f.assertContextVar ≠ some name) :
    name ∉ ownKeys (frameStep f e).asyncCallbackVars := by
  rcases frameStep_cases f e hk with ⟨k, hr, hf⟩ | ⟨k, _, hp, _, hf⟩ | ⟨_, _, d, hf, _⟩ <;>
    rw [hf] <;> simp only []
  · intro hx
    rcases mem_ownKeys_setProperty hx with hx | hx
    · exact hn hx
    · exact hreg (by rw [hr, hx])
  · intro hx
    rcases mem_ownKeys_setProperty hx with hx | hx
    · exact hn hx
    · subst hx
      rw [hasProperty_iff] at hp
      rcases hp with hp | hp
      · exact hn hp
      · exact hnp hp
  · exact hn

theorem countStopCalls_cons (e : Event) (es : List Event) :
    countStopCalls (e :: es) = (if e.isStopCall then 1 else 0) + countStopCalls es := by
  simp only [countStopCalls, List.countP_cons]
  by_cases h : e.isStopCall = true
  · simp [h]; ring
  · simp [h]

theorem countStartCalls_cons (e : Event) (es : List Event) :
    countStartCalls (e :: es) = (if e.isStartCall then 1 else 0) + countStartCalls es := by
  simp only [countStartCalls, List.countP_cons]
  by_cases h : e.isStartCall = true
  · simp [h]; ring
  · simp [h]

theorem stop_not_inherited : "stop" ∉ objectPrototypeKeys := by decide

theorem start_not_inherited : "start" ∉ objectPrototypeKeys := by decide

theorem not_hasProperty_of {obj : JSObject} {name : String}
    (hnp : name ∉ objectPrototypeKeys) (hn : name ∉ ownKeys obj) :
    hasProperty obj name = false := by
  cases h : hasProperty obj name with
  | false => rfl
  | true =>
    rw [hasProperty_iff] at h
    rcases h with h | h
    · exact absurd h hn
    · exact absurd h hnp

/-- One event raises the count by at most its contribution as a stop call
minus its contribution as a start call, when `start` is not an own key. -/
theorem frameStep_count_le (f : AsyncState) (e : Event) (hk : e.keepsFrames = true)
    (hstart : "start" ∉ ownKeys f.asyncCallbackVars) :
    (frameStep f e).stopSemaphoreCount ≤
      f.stopSemaphoreCount + (if e.isStopCall then 1 else 0) -
        (if e.isStartCall then 1 else 0) := by
  rcases frameStep_cases f e hk with ⟨k, hr, hf⟩ | ⟨k, hc, hp, _, hf⟩ | ⟨_, _, d, hf, hd⟩ <;>
    rw [hf] <;> simp only []
  · obtain ⟨h1, h2, _⟩ := registers_some_not_call hr
    simp [h1, h2]
  · have h2 : e.isStartCall = false := by
      cases hs : e.isStartCall with
      | false => rfl
      | true =>
        have := callsBare_of_isStartCall hs hc
        subst this
        rw [not_hasProperty_of start_not_inherited hstart] at hp
        exact absurd hp (by decide)
    by_cases h1 : e.isStopCall = true
    · simp [h1, h2]
    · simp [h1, h2]
  · rw [hd]; omega

/-- One event changes the count by exactly its contribution as a stop call
minus its contribution as a start call, when neither `stop` nor `start` is an
own key. -/
theorem frameStep_count_eq (f : AsyncState) (e : Event) (hk : e.keepsFrames = true)
    (hstop : "stop" ∉ ownKeys f.asyncCallbackVars)
    (hstart : "start" ∉ ownKeys f.asyncCallbackVars) :
    (frameStep f e).stopSemaphoreCount =
      f.stopSemaphoreCount + (if e.isStopCall then 1 else 0) -
        (if e.isStartCall then 1 else 0) := by
  rcases frameStep_cases f e hk with ⟨k, hr, hf⟩ | ⟨k, hc, hp, _, hf⟩ | ⟨_, _, d, hf, hd⟩ <;>
    rw [hf] <;> simp only []
  · obtain ⟨h1, h2, _⟩ := registers_some_not_call hr
    simp [h1, h2]
  · have h2 : e.isStartCall = false := by
      cases hs : e.isStartCall with
      | false => rfl
      | true =>
        have := callsBare_of_isStartCall hs hc
        subst this
        rw [not_hasProperty_of start_not_inherited hstart] at hp
        exact absurd hp (by decide)
    have h1 : e.isStopCall = false := by
      cases hs : e.isStopCall with
      | false => rfl
      | true =>
        have := callsBare_of_isStopCall hs hc
        subst this
        rw [not_hasProperty_of stop_not_inherited hstop] at hp
        exact absurd hp (by decide)
    simp [h1, h2]
  · rw [hd]; omega

theorem trackFrame_count_le (evs : List Event) (f : AsyncState)
    (hk : ∀ e ∈ evs, e.keepsFrames = true)
    (hstart : "start" ∉ ownKeys f.asyncCallbackVars)
    (hreg : ∀ e ∈ evs, e.registers f.assertContextVar ≠ some "start") :
    (trackFrame f evs).stopSemaphoreCount ≤
      f.stopSemaphoreCount + countStopCalls evs - countStartCalls evs := by
  induction evs generalizing f with
  | nil => simp [trackFrame, countStopCalls, countStartCalls]
  | cons e es ih =>
    have hke := hk e (List.mem_cons_self _ _)
    have hctx := frameStep_context f e hke
    have h1 := frameStep_count_le f e hke hstart
    have h2 := ih (frameStep f e) (fun x hx => hk x (List.mem_cons_of_mem _ hx))
      (not_mem_ownKeys_frameStep hke start_not_inherited hstart
        (hreg e (List.mem_cons_self _ _)))
      (fun x hx => by rw [hctx]; exact hreg x (List.mem_cons_of_mem _ hx))
    rw [trackFrame_cons, countStopCalls_cons, countStartCalls_cons]
    omega

theorem trackFrame_count_eq (evs : List Event) (f : AsyncState)
    (hk : ∀ e ∈ evs, e.keepsFrames = true)
    (hstop : "stop" ∉ ownKeys f.asyncCallbackVars)
    (hstart : "start" ∉ ownKeys f.asyncCallbackVars)
    (hreg : ∀ e ∈ evs, e.registers f.assertContextVar ≠ some "stop" ∧
      e.registers f.assertContextVar ≠ some "start") :
    (trackFrame f evs).stopSemaphoreCount =
      f.stopSemaphoreCount + countStopCalls evs - countStartCalls evs := by
  induction evs generalizing f with
  | nil => simp [trackFrame, countStopCalls, countStartCalls]
  | cons e es ih =>
    have hke := hk e (List.mem_cons_self _ _)
    have hctx := frameStep_context f e hke
    have h1 := frameStep_count_eq f e hke hstop hstart
    have h2 := ih (frameStep f e) (fun x hx => hk x (List.mem_cons_of_mem _ hx))
      (not_mem_ownKeys_frameStep hke stop_not_inherited hstop
        (hreg e (List.mem_cons_self _ _)).1)
      (not_mem_ownKeys_frameStep hke start_not_inherited hstart
        (hreg e (List.mem_cons_self _ _)).2)
      (fun x hx => by rw [hctx]; exact hreg x (List.mem_cons_of_mem _ hx))
    rw [trackFrame_cons, countStopCalls_cons, countStartCalls_cons]
    omega
/-! ## The callback variables of a tracked frame -/

theorem callsBare_unique {e : Event} {k v : String} (hk : e.callsBare k = true)
    (hv : e.callsBare v = true) : k = v := by
  cases e with
  | callEnter c a =>
    cases c with
    | Identifier n =>
      simp only [Event.callsBare, beq_iff_eq] at hk hv
      rw [← hk, ← hv]
    | _ => simp [Event.callsBare] at hk
  | _ => simp [Event.callsBare] at hk

theorem mem_setProperty_of_mem {obj : JSObject} {k x : String} {b : Bool}
    (h : (x, b) ∈ obj) : (x, b) ∈ setProperty obj k b := by
  by_cases hne : x = k
  · subst hne
    by_cases hp : x = "__proto__"
    · unfold setProperty
      simpa [hp] using h
    · exact mem_setProperty_self b hp
  · exact (mem_setProperty_of_ne hne).2 h

/-- An unresolved entry stays unresolved across an event that is not a call
of that bare name. -/
theorem frameStep_keeps_false {f : AsyncState} {e : Event} {v : String}
    (hk : e.keepsFrames = true) (hv : (v, false) ∈ f.asyncCallbackVars)
    (hc : e.callsBare v = false) : (v, false) ∈ (frameStep f e).asyncCallbackVars := by
  rcases frameStep_cases f e hk with ⟨k, _, hf⟩ | ⟨k, hck, _, _, hf⟩ | ⟨_, _, d, hf, _⟩ <;>
    rw [hf] <;> simp only []
  · exact mem_setProperty_of_mem hv
  · have hne : v ≠ k := by
      intro h
      rw [h, hck] at hc
      exact absurd hc (by decide)
    exact (mem_setProperty_of_ne hne).2 hv
  · exact hv

/-- An unresolved entry after an event was unresolved before it or is
registered by it. -/
theorem frameStep_false_origin {f : AsyncState} {e : Event} {v : String}
    (hk : e.keepsFrames = true) (hv : (v, false) ∈ (frameStep f e).asyncCallbackVars) :
    (v, false) ∈ f.asyncCallbackVars ∨ e.registers f.assertContextVar = some v := by
  rcases frameStep_cases f e hk with ⟨k, hr, hf⟩ | ⟨k, _, _, _, hf⟩ | ⟨_, _, d, hf, _⟩ <;>
    rw [hf] at hv <;> simp only [] at hv
  · by_cases hne : v = k
    · right; rw [hr, hne]
    · left; exact (mem_setProperty_of_ne hne).1 hv
  · left; exact mem_of_mem_setProperty hv (by decide)
  · left; exact hv

/-- A call of a bare name, handled while the frame is innermost, leaves no
unresolved entry of that name. -/
theorem frameStep_call_resolves {f : AsyncState} {e : Event} {v : String}
    (hk : e.keepsFrames = true) (hw : WellFormed f.asyncCallbackVars)
    (hc : e.callsBare v = true) : (v, false) ∉ (frameStep f e).asyncCallbackVars := by
  rcases frameStep_cases f e hk with ⟨k, hr, hf⟩ | ⟨k, hck, _, _, hf⟩ | ⟨_, hnp, d, hf, _⟩ <;>
    rw [hf] <;> simp only []
  · have := (registers_some_not_call hr).2.2 v
    rw [this] at hc
    exact absurd hc (by decide)
  · have hkv := callsBare_unique hck hc
    subst hkv
    intro hv
    obtain ⟨hp, hmem⟩ := mem_setProperty_self_other hv (by decide)
    exact hw.2 (by rw [← hp]; exact mem_ownKeys_of_mem hmem)
  · intro hv
    have h1 := hnp v hc
    have h2 : hasProperty f.asyncCallbackVars v = true := by
      rw [hasProperty_iff]
      exact Or.inl (mem_ownKeys_of_mem hv)
    rw [h1] at h2
    exact absurd h2 (by decide)

/-- A registration leaves an unresolved entry of the registered name, unless
the name is `__proto__`. -/
theorem frameStep_registers {f : AsyncState} {e : Event} {v : String}
    (hk : e.keepsFrames = true) (hr : e.registers f.assertContextVar = some v)
    (hp : v ≠ "__proto__") : (v, false) ∈ (frameStep f e).asyncCallbackVars := by
  rcases frameStep_cases f e hk with ⟨k, hr2, hf⟩ | ⟨k, _, _, hr2, hf⟩ | ⟨hr2, _, d, hf, _⟩ <;>
    rw [hf] <;> simp only []
  · rw [hr] at hr2
    simp only [Option.some.injEq] at hr2
    subst hr2
    exact mem_setProperty_self false hp
  · rw [hr] at hr2; exact absurd hr2 (by simp)
  · rw [hr] at hr2; exact absurd hr2 (by simp)

theorem trackFrame_keeps_false (evs : List Event) (f : AsyncState) (v : String)
    (hk : ∀ e ∈ evs, e.keepsFrames = true) (hv : (v, false) ∈ f.asyncCallbackVars)
    (hc : ∀ e ∈ evs, e.callsBare v = false) :
    (v, false) ∈ (trackFrame f evs).asyncCallbackVars := by
  induction evs generalizing f with
  | nil => exact hv
  | cons e es ih =>
    rw [trackFrame_cons]
    exact ih _ (fun x hx => hk x (List.mem_cons_of_mem _ hx))
      (frameStep_keeps_false (hk e (List.mem_cons_self _ _)) hv (hc e (List.mem_cons_self _ _)))
      (fun x hx => hc x (List.mem_cons_of_mem _ hx))

theorem trackFrame_false_origin (evs : List Event) (f : AsyncState) (v : String)
    (hk : ∀ e ∈ evs, e.keepsFrames = true)
    (hv : (v, false) ∈ (trackFrame f evs).asyncCallbackVars) :
    (v, false) ∈ f.asyncCallbackVars ∨ ∃ e ∈ evs, e.registers f.assertContextVar = some v := by
  induction evs generalizing f with
  | nil => exact Or.inl hv
  | cons e es ih =>
    have hke := hk e (List.mem_cons_self _ _)
    rw [trackFrame_cons] at hv
    rcases ih _ (fun x hx => hk x (List.mem_cons_of_mem _ hx)) hv with h | ⟨x, hx, hr⟩
    · rcases frameStep_false_origin hke h with h | h
      · exact Or.inl h
      · exact Or.inr ⟨e, List.mem_cons_self _ _, h⟩
    · rw [frameStep_context f e hke] at hr
      exact Or.inr ⟨x, List.mem_cons_of_mem _ hx, hr⟩

theorem trackFrame_no_new_false (evs : List Event) (f : AsyncState) (v : String)
    (hk : ∀ e ∈ evs, e.keepsFrames = true) (hv : (v, false) ∉ f.asyncCallbackVars)
    (hr : ∀ e ∈ evs, e.registers f.assertContextVar ≠ some v) :
    (v, false) ∉ (trackFrame f evs).asyncCallbackVars := by
  intro h
  rcases trackFrame_false_origin evs f v hk h with h | ⟨e, he, h⟩
  · exact hv h
  · exact hr e he h

/-- When every registration is followed by a call of the registered name, and
every entry that is unresolved at the start is called too, no entry is
unresolved at the end. -/
theorem trackFrame_resolved (evs : List Event) (f : AsyncState)
    (hk : ∀ e ∈ evs, e.keepsFrames = true) (hw : WellFormed f.asyncCallbackVars)
    (hres : registrationsResolved f.assertContextVar evs = true)
    (hpend : ∀ v, (v, false) ∈ f.asyncCallbackVars → ∃ e ∈ evs, e.callsBare v = true) :
    ∀ v, (v, false) ∉ (trackFrame f evs).asyncCallbackVars := by
  induction evs generalizing f with
  | nil =>
    intro v hv
    obtain ⟨e, he, _⟩ := hpend v hv
    exact absurd he (List.not_mem_nil e)
  | cons e es ih =>
    have hke := hk e (List.mem_cons_self _ _)
    simp only [registrationsResolved, Bool.and_eq_true] at hres
    rw [trackFrame_cons]
    apply ih _ (fun x hx => hk x (List.mem_cons_of_mem _ hx)) (frameStep_wellFormed f e hke hw)
    · rw [frameStep_context f e hke]; exact hres.2
    · intro v hv
      rcases frameStep_false_origin hke hv with h | h
      · obtain ⟨x, hx, hxc⟩ := hpend v h
        rcases List.mem_cons.1 hx with hx | hx
        · subst hx
          exact absurd hv (frameStep_call_resolves hke hw hxc)
        · exact ⟨x, hx, hxc⟩
      · have h1 := hres.1
        rw [h] at h1
        simp only [List.any_eq_true] at h1
        exact h1
/-! ## Further bounds on the count -/

theorem frameStep_count_le_stop (f : AsyncState) (e : Event) (hk : e.keepsFrames = true) :
    (frameStep f e).stopSemaphoreCount ≤
      f.stopSemaphoreCount + (if e.isStopCall then 1 else 0) := by
  rcases frameStep_cases f e hk with ⟨k, hr, hf⟩ | ⟨k, hc, hp, _, hf⟩ | ⟨_, _, d, hf, hd⟩ <;>
    rw [hf] <;> simp only []
  · by_cases h1 : e.isStopCall = true <;> simp [h1]
  · by_cases h1 : e.isStopCall = true <;> simp [h1]
  · rw [hd]
    by_cases h1 : e.isStopCall = true <;> by_cases h2 : e.isStartCall = true <;> simp [h1, h2]

theorem frameStep_count_ge (f : AsyncState) (e : Event) (hk : e.keepsFrames = true)
    (hstop : "stop" ∉ ownKeys f.asyncCallbackVars) :
    f.stopSemaphoreCount + (if e.isStopCall then 1 else 0) -
        (if e.isStartCall then 1 else 0) ≤ (frameStep f e).stopSemaphoreCount := by
  rcases frameStep_cases f e hk with ⟨k, hr, hf⟩ | ⟨k, hc, hp, _, hf⟩ | ⟨_, _, d, hf, hd⟩ <;>
    rw [hf] <;> simp only []
  · obtain ⟨h1, h2, _⟩ := registers_some_not_call hr
    simp [h1, h2]
  · have h1 : e.isStopCall = false := by
      cases hs : e.isStopCall with
      | false => rfl
      | true =>
        have := callsBare_of_isStopCall hs hc
        subst this
        rw [not_hasProperty_of stop_not_inherited hstop] at hp
        exact absurd hp (by decide)
    by_cases h2 : e.isStartCall = true
    · simp [h1, h2]
    · simp [h1, h2]
  · rw [hd]; omega

theorem trackFrame_count_le_stops (evs : List Event) (f : AsyncState)
    (hk : ∀ e ∈ evs, e.keepsFrames = true) :
    (trackFrame f evs).stopSemaphoreCount ≤ f.stopSemaphoreCount + countStopCalls evs := by
  induction evs generalizing f with
  | nil => simp [trackFrame, countStopCalls]
  | cons e es ih =>
    have hke := hk e (List.mem_cons_self _ _)
    have h1 := frameStep_count_le_stop f e hke
    have h2 := ih (frameStep f e) (fun x hx => hk x (List.mem_cons_of_mem _ hx))
    rw [trackFrame_cons, countStopCalls_cons]
    omega

theorem trackFrame_count_ge (evs : List Event) (f : AsyncState)
    (hk : ∀ e ∈ evs, e.keepsFrames = true)
    (hstop : "stop" ∉ ownKeys f.asyncCallbackVars)
    (hreg : ∀ e ∈ evs, e.registers f.assertContextVar ≠ some "stop") :
    f.stopSemaphoreCount + countStopCalls evs - countStartCalls evs ≤
      (trackFrame f evs).stopSemaphoreCount := by
  induction evs generalizing f with
  | nil => simp [trackFrame, countStopCalls, countStartCalls]
  | cons e es ih =>
    have hke := hk e (List.mem_cons_self _ _)
    have hctx := frameStep_context f e hke
    have h1 := frameStep_count_ge f e hke hstop
    have h2 := ih (frameStep f e) (fun x hx => hk x (List.mem_cons_of_mem _ hx))
      (not_mem_ownKeys_frameStep hke stop_not_inherited hstop
        (hreg e (List.mem_cons_self _ _)))
      (fun x hx => by rw [hctx]; exact hreg x (List.mem_cons_of_mem _ hx))
    rw [trackFrame_cons, countStopCalls_cons, countStartCalls_cons]
    omega

theorem countStartCalls_nonneg (evs : List Event) : 0 ≤ countStartCalls evs := by
  simp [countStartCalls]

theorem countStopCalls_eq_zero {evs : List Event} (h : ∀ e ∈ evs, e.isStopCall = false) :
    countStopCalls evs = 0 := by
  simp only [countStopCalls, Nat.cast_eq_zero, List.countP_eq_zero]
  intro e he
  simp [h e he]

theorem countStartCalls_eq_zero {evs : List Event} (h : ∀ e ∈ evs, e.isStartCall = false) :
    countStartCalls evs = 0 := by
  simp only [countStartCalls, Nat.cast_eq_zero, List.countP_eq_zero]
  intro e he
  simp [h e he]

theorem trackFrame_count_unchanged (evs : List Event) (f : AsyncState)
    (hk : ∀ e ∈ evs, e.keepsFrames = true)
    (hnone : ∀ e ∈ evs, e.isStopCall = false ∧ e.isStartCall = false) :
    (trackFrame f evs).stopSemaphoreCount = f.stopSemaphoreCount := by
  induction evs generalizing f with
  | nil => rfl
  | cons e es ih =>
    have hke := hk e (List.mem_cons_self _ _)
    obtain ⟨h1, h2⟩ := hnone e (List.mem_cons_self _ _)
    rw [trackFrame_cons, ih (frameStep f e) (fun x hx => hk x (List.mem_cons_of_mem _ hx))
      (fun x hx => hnone x (List.mem_cons_of_mem _ hx))]
    rcases frameStep_cases f e hke with ⟨k, hr, hf⟩ | ⟨k, hc, hp, _, hf⟩ | ⟨_, _, d, hf, hd⟩
    · rw [hf]
    · rw [hf]
    · rw [hf, hd]; simp [h1, h2]

/-- The reports of a frame whose count is positive: the semaphore report and
then callback-variable reports only. -/
theorem specReports_of_pos (f : AsyncState) (node : Node) (h : 0 < f.stopSemaphoreCount) :
    ∃ rest, specReports f node =
        Report.STOP_MESSAGE node f.stopSemaphoreCount
          (if f.stopSemaphoreCount = 1 then "call" else "calls") :: rest ∧
      ∀ r ∈ rest, r.isStop = false := by
  refine ⟨(f.asyncCallbackVars.filter (fun entry => entry.2 == false)).map
    (fun entry => Report.ASYNC_VAR_MESSAGE node entry.1), ?_, ?_⟩
  · have h2 : f.stopSemaphoreCount > 0 := h
    simp [specReports, h2]
  · intro r hr
    obtain ⟨x, _, rfl⟩ := List.mem_map.1 hr
    rfl

theorem isAsyncTest_eq_true (c : Node) :
    isAsyncTest c = true ↔
      c = .Identifier "asyncTest" ∨
        c = .MemberExpression (.Identifier "QUnit") (.Identifier "asyncTest") := by
  cases c with
  | Identifier n => simp [isAsyncTest]
  | MemberExpression o p => cases o <;> cases p <;> simp [isAsyncTest]
  | _ => simp [isAsyncTest]

theorem isTest_of_isAsyncTest {c : Node} (h : isAsyncTest c = true) : isTest c = true := by
  rw [isAsyncTest_eq_true] at h
  rcases h with h | h <;> subst h <;> rfl

theorem initialFrame_count (c : Node) (a : List Node) :
    (initialFrame c a).stopSemaphoreCount = if isAsyncTest c then 1 else 0 := rfl

theorem initialFrame_vars (c : Node) (a : List Node) :
    (initialFrame c a).asyncCallbackVars = [] := rfl

theorem initialFrame_context (c : Node) (a : List Node) :
    (initialFrame c a).assertContextVar = getAssertContextNameForTest a := rfl

theorem not_mem_ownKeys_initialFrame (c : Node) (a : List Node) (k : String) :
    k ∉ ownKeys (initialFrame c a).asyncCallbackVars := by
  simp [initialFrame, ownKeys]
/-! ## Reports that name a variable -/

theorem filter_key_of_nodup (vars : JSObject) (v : String) (b : Bool)
    (hnd : (ownKeys vars).Nodup) (hmem : (v, b) ∈ vars) :
    vars.filter (fun entry => entry.1 == v) = [(v, b)] := by
  induction vars with
  | nil => exact absurd hmem (List.not_mem_nil _)
  | cons x xs ih =>
    simp only [ownKeys, List.map_cons, List.nodup_cons] at hnd
    rcases List.mem_cons.1 hmem with h | h
    · subst h
      have hrest : xs.filter (fun entry => entry.1 == v) = [] := by
        rw [List.filter_eq_nil_iff]
        intro y hy hyv
        simp only [beq_iff_eq] at hyv
        exact hnd.1 (List.mem_map.2 ⟨y, hy, hyv⟩)
      simp [List.filter_cons, hrest]
    · have hx : x.1 ≠ v := by
        intro hxv
        exact hnd.1 (List.mem_map.2 ⟨(v, b), h, hxv.symm⟩)
      have := ih hnd.2 h
      simp [List.filter_cons, hx, this]

/-- With an unresolved entry of `v` in a well-formed mapping, exactly one
report names `v`. -/
theorem specReports_names_once (f : AsyncState) (node : Node) (v : String)
    (hw : WellFormed f.asyncCallbackVars) (hv : (v, false) ∈ f.asyncCallbackVars) :
    (specReports f node).filter (Report.namesVar v) = [Report.ASYNC_VAR_MESSAGE node v] := by
  have hsem : (if f.stopSemaphoreCount > 0 then
      [Report.STOP_MESSAGE node f.stopSemaphoreCount
        (if f.stopSemaphoreCount = 1 then "call" else "calls")]
      else []).filter (Report.namesVar v) = [] := by
    by_cases h : f.stopSemaphoreCount > 0
    · simp [h, Report.namesVar]
    · simp [h]
  have hfun : (Report.namesVar v ∘ fun entry : String × Bool =>
      Report.ASYNC_VAR_MESSAGE node entry.1) = fun entry => entry.1 == v := by
    funext entry
    rfl
  unfold specReports
  rw [List.filter_append, hsem, List.nil_append, List.filter_map, hfun, List.filter_filter]
  have hcomm : (f.asyncCallbackVars.filter
      (fun entry => (entry.1 == v && entry.2 == false))) =
      (f.asyncCallbackVars.filter (fun entry => entry.1 == v)).filter
        (fun entry => entry.2 == false) := by
    rw [List.filter_filter]
    congr 1
    funext entry
    exact Bool.and_comm _ _
  rw [hcomm, filter_key_of_nodup f.asyncCallbackVars v false hw.1 hv]
  simp

/-- Without an unresolved entry of `v`, no report names `v`. -/
theorem specReports_names_none (f : AsyncState) (node : Node) (v : String)
    (hv : (v, false) ∉ f.asyncCallbackVars) :
    ∀ r ∈ specReports f node, r.namesVar v = false := by
  intro r hr
  unfold specReports at hr
  rcases List.mem_append.1 hr with h | h
  · by_cases hp : f.stopSemaphoreCount > 0
    · simp only [hp, if_true, List.mem_singleton] at h
      subst h; rfl
    · simp [hp] at h
  · obtain ⟨⟨k, b⟩, hk, rfl⟩ := List.mem_map.1 h
    simp only [List.mem_filter, beq_iff_eq] at hk
    obtain ⟨hk1, hk2⟩ := hk
    subst hk2
    simp only [Report.namesVar]
    cases hkv : (k == v) with
    | false => rfl
    | true =>
      rw [beq_iff_eq] at hkv
      subst hkv
      exact absurd hk1 hv

theorem filter_false_singleton (vars : JSObject) (v : String)
    (hnd : (ownKeys vars).Nodup) (hmem : (v, false) ∈ vars)
    (honly : ∀ k, (k, false) ∈ vars → k = v) :
    vars.filter (fun entry => entry.2 == false) = [(v, false)] := by
  induction vars with
  | nil => exact absurd hmem (List.not_mem_nil _)
  | cons x xs ih =>
    obtain ⟨k, b⟩ := x
    simp only [ownKeys, List.map_cons, List.nodup_cons] at hnd
    cases b with
    | false =>
      have hk : k = v := honly k (List.mem_cons_self _ _)
      subst hk
      have hrest : xs.filter (fun entry => entry.2 == false) = [] := by
        rw [List.filter_eq_nil_iff]
        rintro ⟨k1, b1⟩ hy hb
        simp only [beq_iff_eq] at hb
        subst hb
        have := honly k1 (List.mem_cons_of_mem _ hy)
        subst this
        exact hnd.1 (List.mem_map.2 ⟨(k1, false), hy, rfl⟩)
      rw [List.filter_cons, hrest]
      rfl
    | true =>
      have hmem2 : (v, false) ∈ xs := by
        rcases List.mem_cons.1 hmem with h | h
        · simp at h
        · exact h
      have := ih hnd.2 hmem2 (fun k1 hk1 => honly k1 (List.mem_cons_of_mem _ hk1))
      rw [List.filter_cons, this]
      rfl

/-- When `v` is the only unresolved entry of a well-formed mapping, the
reports are the semaphore report, if any, followed by the one naming `v`. -/
theorem specReports_single (f : AsyncState) (node : Node) (v : String)
    (hw : WellFormed f.asyncCallbackVars) (hv : (v, false) ∈ f.asyncCallbackVars)
    (honly : ∀ k, (k, false) ∈ f.asyncCallbackVars → k = v) :
    ∃ sem, specReports f node = sem ++ [Report.ASYNC_VAR_MESSAGE node v] ∧
      sem.length ≤ 1 ∧ ∀ r ∈ sem, r.isStop = true := by
  refine ⟨if f.stopSemaphoreCount > 0 then
      [Report.STOP_MESSAGE node f.stopSemaphoreCount
        (if f.stopSemaphoreCount = 1 then "call" else "calls")]
      else [], ?_, ?_, ?_⟩
  · unfold specReports
    rw [filter_false_singleton f.asyncCallbackVars v hw.1 hv honly]
    rfl
  · by_cases h : f.stopSemaphoreCount > 0 <;> simp [h]
  · intro r hr
    by_cases h : f.stopSemaphoreCount > 0
    · simp only [h, if_true, List.mem_singleton] at hr
      subst hr; rfl
    · simp [h] at hr
/-! ## Splitting the events of a frame -/

theorem trackFrame_split (f : AsyncState) (pre post : List Event) (e : Event) :
    trackFrame f (pre ++ e :: post) = trackFrame (frameStep (trackFrame f pre) e) post := by
  rw [trackFrame_append, trackFrame_cons]

/-- An event that registers `v`, followed by no call of the bare `v`, leaves
an unresolved entry of `v` in a frame tracked from a well-formed start. -/
theorem trackFrame_unresolved (f : AsyncState) (pre post : List Event) (d : Event)
    (v : String) (hk : ∀ e ∈ pre ++ d :: post, e.keepsFrames = true)
    (hr : d.registers f.assertContextVar = some v) (hp : v ≠ "__proto__")
    (hc : ∀ e ∈ post, e.callsBare v = false) :
    (v, false) ∈ (trackFrame f (pre ++ d :: post)).asyncCallbackVars := by
  have hkpre : ∀ e ∈ pre, e.keepsFrames = true :=
    fun e he => hk e (List.mem_append_left _ he)
  have hkd : d.keepsFrames = true :=
    hk d (List.mem_append_right _ (List.mem_cons_self _ _))
  have hkpost : ∀ e ∈ post, e.keepsFrames = true :=
    fun e he => hk e (List.mem_append_right _ (List.mem_cons_of_mem _ he))
  rw [trackFrame_split]
  apply trackFrame_keeps_false post _ v hkpost _ hc
  apply frameStep_registers hkd _ hp
  rw [trackFrame_context pre f hkpre]
  exact hr

/-- A call of the bare `v`, followed by no event that registers `v`, leaves no
unresolved entry of `v` in a frame tracked from a well-formed start. -/
theorem trackFrame_called (f : AsyncState) (pre post : List Event) (k : Event)
    (v : String) (hk : ∀ e ∈ pre ++ k :: post, e.keepsFrames = true)
    (hw : WellFormed f.asyncCallbackVars) (hc : k.callsBare v = true)
    (hr : ∀ e ∈ post, e.registers f.assertContextVar ≠ some v) :
    (v, false) ∉ (trackFrame f (pre ++ k :: post)).asyncCallbackVars := by
  have hkpre : ∀ e ∈ pre, e.keepsFrames = true :=
    fun e he => hk e (List.mem_append_left _ he)
  have hkk : k.keepsFrames = true :=
    hk k (List.mem_append_right _ (List.mem_cons_self _ _))
  have hkpost : ∀ e ∈ post, e.keepsFrames = true :=
    fun e he => hk e (List.mem_append_right _ (List.mem_cons_of_mem _ he))
  rw [trackFrame_split]
  apply trackFrame_no_new_false post _ v hkpost
  · exact frameStep_call_resolves hkk (trackFrame_wellFormed pre f hkpre hw) hc
  · intro e he
    rw [frameStep_context _ k hkk, trackFrame_context pre f hkpre]
    exact hr e he
/-! ## Exit events and their enter events -/

theorem run_test_body (s : List AsyncState) (c : Node) (a : List Node)
    (h : isTest c = true) :
    ∃ r, run s (Event.callEnter c a :: bodyEvents c a) =
      some (trackFrame (initialFrame c a) (frameEvents c a) :: s, r) := by
  obtain ⟨r1, h1⟩ := run_events c (initialFrame c a :: s)
  obtain ⟨r2, h2⟩ := run_eventsList a (trackStack (initialFrame c a :: s) (ownEvents c))
  have hbody := run_append_some h1 h2
  rw [trackStack_append] at hbody
  exact ⟨_, run_cons_some (step_callEnter_test s c a h) hbody⟩

theorem append_eq_split {xs ys pre post : List Event} {e : Event}
    (h : xs ++ ys = pre ++ e :: post) :
    (∃ t, xs = pre ++ e :: t ∧ post = t ++ ys) ∨ (∃ t, pre = xs ++ t ∧ ys = t ++ e :: post) := by
  rcases List.append_eq_append_iff.1 h with ⟨t, h1, h2⟩ | ⟨t, h1, h2⟩
  · exact Or.inr ⟨t, h1, h2⟩
  · cases t with
    | nil =>
      right
      refine ⟨[], by simpa using h1.symm, by simpa using h2.symm⟩
    | cons x t =>
      left
      simp only [List.cons_append, List.cons.injEq] at h2
      obtain ⟨rfl, rfl⟩ := h2
      exact ⟨t, h1, rfl⟩

theorem exitsMatched_nil : ExitsMatched [] := by
  intro pre c a post h
  exact absurd h (by simp)

theorem exitsMatched_append {xs ys : List Event} (hx : ExitsMatched xs)
    (hy : ExitsMatched ys) : ExitsMatched (xs ++ ys) := by
  intro pre c a post h
  rcases append_eq_split h with ⟨t, h1, _⟩ | ⟨t, h1, h2⟩
  · exact hx pre c a t h1
  · obtain ⟨before, hb⟩ := hy t c a post h2
    exact ⟨xs ++ before, by rw [h1, hb, List.append_assoc]⟩

theorem exitsMatched_cons {e : Event} {xs : List Event}
    (he : ∀ c a, e ≠ Event.callExit c a) (hx : ExitsMatched xs) : ExitsMatched (e :: xs) := by
  intro pre c a post h
  cases pre with
  | nil =>
    simp only [List.nil_append, List.cons.injEq] at h
    exact absurd h.1 (he c a)
  | cons p pre1 =>
    simp only [List.cons_append, List.cons.injEq] at h
    obtain ⟨rfl, h⟩ := h
    obtain ⟨before, hb⟩ := hx pre1 c a post h
    exact ⟨e :: before, by rw [hb, List.cons_append]⟩

theorem exitsMatched_call (c : Node) (a : List Node) (h : ExitsMatched (bodyEvents c a)) :
    ExitsMatched (Event.callEnter c a :: (bodyEvents c a ++ [Event.callExit c a])) := by
  intro pre c1 a1 post hsplit
  have hfront : ExitsMatched (Event.callEnter c a :: bodyEvents c a) :=
    exitsMatched_cons (by intro _ _ hh; cases hh) h
  rw [← List.cons_append] at hsplit
  rcases append_eq_split hsplit with ⟨t, h1, _⟩ | ⟨t, h1, h2⟩
  · exact hfront pre c1 a1 t h1
  · cases t with
    | nil =>
      simp only [List.nil_append, List.cons.injEq, Event.callExit.injEq] at h2
      obtain ⟨⟨rfl, rfl⟩, _⟩ := h2
      exact ⟨[], by simpa using h1⟩
    | cons x t =>
      simp only [List.cons_append, List.cons.injEq] at h2
      exact absurd h2.2 (by simp)

mutual
/-- In the traversal of a subtree every exit event follows its own enter event
and the events of the descendants of its call. -/
theorem events_exitsMatched : ∀ (n : Node), ExitsMatched (events n)
  | .Identifier _ => by simp only [events]; exact exitsMatched_nil
  | .MemberExpression o p => by
    simp only [events]
    exact exitsMatched_append (events_exitsMatched o) (events_exitsMatched p)
  | .CallExpression c a => by
    simp only [events]
    exact exitsMatched_call c a
      (exitsMatched_append (events_exitsMatched c) (eventsList_exitsMatched a))
  | .FunctionExpression ps b => by
    simp only [events]
    exact exitsMatched_append (eventsList_exitsMatched ps) (events_exitsMatched b)
  | .AssignmentExpression l r => by
    simp only [events]
    exact exitsMatched_cons (by intro _ _ hh; cases hh)
      (exitsMatched_append (events_exitsMatched l) (events_exitsMatched r))
  | .VariableDeclarator i none => by
    simp only [events]
    exact exitsMatched_cons (by intro _ _ hh; cases hh) (events_exitsMatched i)
  | .VariableDeclarator i (some x) => by
    simp only [events]
    exact exitsMatched_cons (by intro _ _ hh; cases hh)
      (exitsMatched_append (events_exitsMatched i) (events_exitsMatched x))
  | .Other cs => by
    simp only [events]
    exact eventsList_exitsMatched cs
/-- The same for a list of sibling subtrees. -/
theorem eventsList_exitsMatched : ∀ (ns : List Node), ExitsMatched (eventsList ns)
  | [] => by simp only [eventsList]; exact exitsMatched_nil
  | n :: ns => by
    simp only [eventsList]
    exact exitsMatched_append (events_exitsMatched n) (eventsList_exitsMatched ns)
end

/-! ## The final stack of a run -/

theorem run_map_fst_append (s : List AsyncState) (xs ys : List Event) :
    (run s (xs ++ ys)).map Prod.fst =
      ((run s xs).map Prod.fst).bind (fun s1 => (run s1 ys).map Prod.fst) := by
  induction xs generalizing s with
  | nil => simp [run]
  | cons e es ih =>
    rw [List.cons_append, run_cons, run_cons]
    cases hs : step s e with
    | none => rfl
    | some p =>
      obtain ⟨sa, ra⟩ := p
      simp only []
      have h1 : (match run sa (es ++ ys) with
          | none => none
          | some (stack2, reports2) => some (stack2, ra ++ reports2)).map Prod.fst =
          (run sa (es ++ ys)).map Prod.fst := by
        cases run sa (es ++ ys) with
        | none => rfl
        | some q => rfl
      have h2 : (match run sa es with
          | none => none
          | some (stack2, reports2) => some (stack2, ra ++ reports2)).map Prod.fst =
          (run sa es).map Prod.fst := by
        cases run sa es with
        | none => rfl
        | some q => rfl
      rw [h1, h2, ih]

theorem exitReportsAfter_eq (s : List AsyncState) (c : Node) (a : List Node)
    (between : List Event) :
    exitReportsAfter s c a between =
      ((run s (Event.callEnter c a :: between)).map Prod.fst).bind
        (fun st => (onCallExpressionExit st c a).map Prod.snd) := by
  unfold exitReportsAfter
  cases run s (Event.callEnter c a :: between) with
  | none => rfl
  | some p =>
    obtain ⟨st, r⟩ := p
    simp only [Option.map_some', Option.some_bind]
    cases onCallExpressionExit st c a with
    | none => rfl
    | some q => rfl

/-- The final stack of a run does not depend on what a nested test-declaration
call contains. -/
theorem run_map_fst_nested (s : List AsyncState) (pre post : List Event) (c1 : Node)
    (a1 : List Node) (h : isTest c1 = true) :
    (run s (pre ++ events (Node.CallExpression c1 a1) ++ post)).map Prod.fst =
      (run s (pre ++ [Event.callEnter c1 a1, Event.callExit c1 a1] ++ post)).map Prod.fst := by
  have hfull : ∀ s1, (run s1 (events (Node.CallExpression c1 a1))).map Prod.fst = some s1 := by
    intro s1
    obtain ⟨r, hr⟩ := run_events (Node.CallExpression c1 a1) s1
    rw [hr]
    simp [ownEvents, h, trackStack_nil]
  have hempty : ∀ s1, (run s1 [Event.callEnter c1 a1, Event.callExit c1 a1]).map Prod.fst =
      some s1 := by
    intro s1
    rw [run_cons_some (step_callEnter_test s1 c1 a1 h)
      (run_singleton (step_callExit_test (initialFrame c1 a1) s1 c1 a1 h))]
    rfl
  rw [run_map_fst_append, run_map_fst_append, run_map_fst_append s (pre ++ _),
    run_map_fst_append s pre]
  cases (run s pre).map Prod.fst with
  | none => rfl
  | some s1 => simp only [Option.some_bind, hfull, hempty]
/-! ## The reports of a whole traversal -/

mutual
/-- The run over the traversal of a subtree makes exactly the verifications of
the subtree: one `verifyAsyncState` for each test-declaration call, in exit
order. -/
theorem run_events_reports : ∀ (n : Node) (s : List AsyncState),
    run s (events n) = some (trackStack s (ownEvents n), treeReports n)
  | .Identifier _, s => by simp [events, ownEvents, treeReports, run, trackStack_nil]
  | .MemberExpression o p, s => by
    have h1 := run_events_reports o s
    have h2 := run_events_reports p (trackStack s (ownEvents o))
    have hall := run_append_some h1 h2
    rw [trackStack_append] at hall
    simp only [events, ownEvents, treeReports]
    exact hall
  | .CallExpression c a, s => by
    by_cases ht : isTest c = true
    · have h1 := run_events_reports c (initialFrame c a :: s)
      have h2 := run_eventsList_reports a (trackStack (initialFrame c a :: s) (ownEvents c))
      have hbody := run_append_some h1 h2
      rw [trackStack_append] at hbody
      have hexit := run_singleton (step_callExit_test
        (trackFrame (initialFrame c a) (ownEvents c ++ ownEventsList a)) s c a ht)
      have hall := run_cons_some (step_callEnter_test s c a ht) (run_append_some hbody hexit)
      simp only [events, ownEvents, treeReports, ht, if_true, trackStack_nil, frameEvents]
      rw [hall]
      simp
    · have hk : (Event.callEnter c a).keepsFrames = true := by simp [Event.keepsFrames, ht]
      have h1 := run_events_reports c (trackStack s [Event.callEnter c a])
      have h2 := run_eventsList_reports a
        (trackStack (trackStack s [Event.callEnter c a]) (ownEvents c))
      have hbody := run_append_some h1 h2
      have hexit : run (trackStack (trackStack (trackStack s [Event.callEnter c a])
          (ownEvents c)) (ownEventsList a)) [Event.callExit c a] =
          some (trackStack (trackStack (trackStack s [Event.callEnter c a])
          (ownEvents c)) (ownEventsList a), []) := by
        apply run_singleton
        simp [step, onCallExpressionExit, ht]
      have hall := run_cons_some (step_keepsFrames_stack s _ hk) (run_append_some hbody hexit)
      rw [trackStack_append, trackStack_append] at hall
      simp only [events, ownEvents, treeReports, ht]
      rw [hall]
      simp
  | .FunctionExpression ps b, s => by
    have h1 := run_eventsList_reports ps s
    have h2 := run_events_reports b (trackStack s (ownEventsList ps))
    have hall := run_append_some h1 h2
    rw [trackStack_append] at hall
    simp only [events, ownEvents, treeReports]
    exact hall
  | .AssignmentExpression l r, s => by
    have hk : (Event.assignmentEnter l r).keepsFrames = true := rfl
    have h1 := run_events_reports l (trackStack s [Event.assignmentEnter l r])
    have h2 := run_events_reports r
      (trackStack (trackStack s [Event.assignmentEnter l r]) (ownEvents l))
    have hall := run_cons_some (step_keepsFrames_stack s _ hk) (run_append_some h1 h2)
    rw [trackStack_append, trackStack_append] at hall
    simp only [events, ownEvents, treeReports]
    rw [hall]
    simp
  | .VariableDeclarator i none, s => by
    have hk : (Event.declaratorEnter i none).keepsFrames = true := rfl
    have h1 := run_events_reports i (trackStack s [Event.declaratorEnter i none])
    have hall := run_cons_some (step_keepsFrames_stack s _ hk) h1
    rw [trackStack_append] at hall
    simp only [events, ownEvents, treeReports]
    rw [hall]
    simp
  | .VariableDeclarator i (some e), s => by
    have hk : (Event.declaratorEnter i (some e)).keepsFrames = true := rfl
    have h1 := run_events_reports i (trackStack s [Event.declaratorEnter i (some e)])
    have h2 := run_events_reports e
      (trackStack (trackStack s [Event.declaratorEnter i (some e)]) (ownEvents i))
    have hall := run_cons_some (step_keepsFrames_stack s _ hk) (run_append_some h1 h2)
    rw [trackStack_append, trackStack_append] at hall
    simp only [events, ownEvents, treeReports]
    rw [hall]
    simp
  | .Other cs, s => by
    have h1 := run_eventsList_reports cs s
    simp only [events, ownEvents, treeReports]
    exact h1
/-- The same for a list of sibling subtrees. -/
theorem run_eventsList_reports : ∀ (ns : List Node) (s : List AsyncState),
    run s (eventsList ns) = some (trackStack s (ownEventsList ns), treeReportsList ns)
  | [], s => by simp [eventsList, ownEventsList, treeReportsList, run, trackStack_nil]
  | n :: ns, s => by
    have h1 := run_events_reports n s
    have h2 := run_eventsList_reports ns (trackStack s (ownEvents n))
    have hall := run_append_some h1 h2
    rw [trackStack_append] at hall
    simp only [eventsList, ownEventsList, treeReportsList]
    exact hall
end

theorem countP_isTestExit_append (xs ys : List Event) :
    (xs ++ ys).countP Event.isTestExit =
      xs.countP Event.isTestExit + ys.countP Event.isTestExit :=
  List.countP_append _ _ _

mutual
/-- The traversal of a subtree contains exactly one exit event of a
test-declaration call for each such call in the subtree. -/
theorem countP_isTestExit_events : ∀ (n : Node),
    (events n).countP Event.isTestExit = countTestCalls n
  | .Identifier _ => by simp [events, countTestCalls]
  | .MemberExpression o p => by
    simp only [events, countTestCalls, countP_isTestExit_append,
      countP_isTestExit_events o, countP_isTestExit_events p]
  | .CallExpression c a => by
    simp only [events, countTestCalls, List.countP_cons, countP_isTestExit_append,
      countP_isTestExit_events c, countP_isTestExit_eventsList a, List.countP_nil,
      Event.isTestExit]
    simp
  | .FunctionExpression ps b => by
    simp only [events, countTestCalls, countP_isTestExit_append,
      countP_isTestExit_eventsList ps, countP_isTestExit_events b]
  | .AssignmentExpression l r => by
    simp only [events, countTestCalls, List.countP_cons, countP_isTestExit_append,
      countP_isTestExit_events l, countP_isTestExit_events r, Event.isTestExit]
    simp
  | .VariableDeclarator i none => by
    simp only [events, countTestCalls, List.countP_cons, countP_isTestExit_events i,
      Event.isTestExit]
    simp
  | .VariableDeclarator i (some e) => by
    simp only [events, countTestCalls, List.countP_cons, countP_isTestExit_append,
      countP_isTestExit_events i, countP_isTestExit_events e, Event.isTestExit]
    simp
  | .Other cs => by
    simp only [events, countTestCalls, countP_isTestExit_eventsList cs]
/-- The same for a list of sibling subtrees. -/
theorem countP_isTestExit_eventsList : ∀ (ns : List Node),
    (eventsList ns).countP Event.isTestExit = countTestCallsList ns
  | [] => by simp [eventsList, countTestCallsList]
  | n :: ns => by
    simp only [eventsList, countTestCallsList, countP_isTestExit_append,
      countP_isTestExit_events n, countP_isTestExit_eventsList ns]
end

/-- Every report of a verification is anchored at the node given to it. -/
theorem verifyAsyncState_node (f : AsyncState) (node : Node) :
    ∀ rep ∈ verifyAsyncState f node, rep.node = node := by
  intro rep hrep
  rw [verifyAsyncState_eq_specReports] at hrep
  unfold specReports at hrep
  rcases List.mem_append.1 hrep with h | h
  · by_cases hp : f.stopSemaphoreCount > 0
    · simp only [hp, if_true, List.mem_singleton] at h
      subst h; rfl
    · simp [hp] at h
  · obtain ⟨x, _, rfl⟩ := List.mem_map.1 h
    rfl

/-- Only the exit of a test-declaration call reports anything: its reports are
the verification of the popped frame at the node of the call. -/
theorem step_reports {s st : List AsyncState} {e : Event} {r : List Report}
    (h : step s e = some (st, r)) (hr : r ≠ []) :
    ∃ c a f, e = Event.callExit c a ∧ isTest c = true ∧ s = f :: st ∧
      r = verifyAsyncState f (Node.CallExpression c a) := by
  cases e with
  | callEnter c a =>
    simp only [step, Option.some.injEq, Prod.mk.injEq] at h
    exact absurd h.2.symm hr
  | callExit c a =>
    by_cases ht : isTest c = true
    · cases s with
      | nil => simp [step, onCallExpressionExit, ht] at h
      | cons f below =>
        rw [step_callExit_test f below c a ht] at h
        simp only [Option.some.injEq, Prod.mk.injEq] at h
        obtain ⟨rfl, rfl⟩ := h
        exact ⟨c, a, f, rfl, ht, rfl, rfl⟩
    · simp only [step, onCallExpressionExit, ht, Bool.false_eq_true, if_false,
        Option.some.injEq, Prod.mk.injEq] at h
      exact absurd h.2.symm hr
  | assignmentEnter l r1 =>
    simp only [step, Option.some.injEq, Prod.mk.injEq] at h
    exact absurd h.2.symm hr
  | declaratorEnter i init =>
    simp only [step, Option.some.injEq, Prod.mk.injEq] at h
    exact absurd h.2.symm hr

mutual
/-- Every verification report of a subtree is anchored at a test-declaration
call. -/
theorem treeReports_anchored : ∀ (n : Node), ∀ rep ∈ treeReports n,
    ∃ c a, isTest c = true ∧ rep.node = Node.CallExpression c a
  | .Identifier _ => by simp [treeReports]
  | .MemberExpression o p => by
    intro rep h
    simp only [treeReports, List.mem_append] at h
    rcases h with h | h
    · exact treeReports_anchored o rep h
    · exact treeReports_anchored p rep h
  | .CallExpression c a => by
    intro rep h
    simp only [treeReports, List.mem_append] at h
    rcases h with (h | h) | h
    · exact treeReports_anchored c rep h
    · exact treeReportsList_anchored a rep h
    · by_cases ht : isTest c = true
      · simp only [ht, if_true] at h
        exact ⟨c, a, ht, verifyAsyncState_node _ _ rep h⟩
      · simp [ht] at h
  | .FunctionExpression ps b => by
    intro rep h
    simp only [treeReports, List.mem_append] at h
    rcases h with h | h
    · exact treeReportsList_anchored ps rep h
    · exact treeReports_anchored b rep h
  | .AssignmentExpression l r => by
    intro rep h
    simp only [treeReports, List.mem_append] at h
    rcases h with h | h
    · exact treeReports_anchored l rep h
    · exact treeReports_anchored r rep h
  | .VariableDeclarator i none => by
    intro rep h
    simp only [treeReports] at h
    exact treeReports_anchored i rep h
  | .VariableDeclarator i (some e) => by
    intro rep h
    simp only [treeReports, List.mem_append] at h
    rcases h with h | h
    · exact treeReports_anchored i rep h
    · exact treeReports_anchored e rep h
  | .Other cs => by
    intro rep h
    simp only [treeReports] at h
    exact treeReportsList_anchored cs rep h
/-- The same for a list of sibling subtrees. -/
theorem treeReportsList_anchored : ∀ (ns : List Node), ∀ rep ∈ treeReportsList ns,
    ∃ c a, isTest c = true ∧ rep.node = Node.CallExpression c a
  | [] => by simp [treeReportsList]
  | n :: ns => by
    intro rep h
    simp only [treeReportsList, List.mem_append] at h
    rcases h with h | h
    · exact treeReports_anchored n rep h
    · exact treeReportsList_anchored ns rep h
end

/-! ## Frames without a context name, effective calls, repeated registration -/

theorem registers_none_context (e : Event) : e.registers none = none := by
  cases e <;> simp [Event.registers, isAsyncCallExpression, truthy]

theorem frameStep_count_effective (f : AsyncState) (e : Event) (hk : e.keepsFrames = true) :
    (frameStep f e).stopSemaphoreCount =
      f.stopSemaphoreCount + effectiveStopCalls f [e] - effectiveStartCalls f [e] := by
  cases e with
  | callEnter c a =>
    simp only [Event.keepsFrames, Bool.not_eq_true'] at hk
    rw [frameStep_callEnter f c a hk]
    simp only [effectiveStopCalls, effectiveStartCalls]
    have hss := not_isStop_and_isStart c
    by_cases h1 : isAsyncCallbackVar [f] c = true
    · simp [h1]
    · by_cases h2 : isStop c = true
      · have h3 : isStart c = false := by
          cases hst : isStart c with
          | true => exact absurd ⟨h2, hst⟩ hss
          | false => rfl
        simp [h1, h2, h3]
      · by_cases h3 : isStart c = true
        · simp [h1, h2, h3]
          omega
        · simp [h1, h2, h3]
  | callExit c a =>
    simp only [Event.keepsFrames, Bool.not_eq_true'] at hk
    rw [frameStep_callExit f c a hk]
    simp [effectiveStopCalls, effectiveStartCalls]
  | assignmentEnter l r =>
    rw [frameStep_assignmentEnter]
    cases (Event.assignmentEnter l r).registers f.assertContextVar <;>
      simp [effectiveStopCalls, effectiveStartCalls]
  | declaratorEnter i init =>
    rw [frameStep_declaratorEnter]
    cases (Event.declaratorEnter i init).registers f.assertContextVar <;>
      simp [effectiveStopCalls, effectiveStartCalls]

theorem effectiveStopCalls_cons (f : AsyncState) (e : Event) (es : List Event) :
    effectiveStopCalls f (e :: es) =
      effectiveStopCalls f [e] + effectiveStopCalls (frameStep f e) es := by
  simp [effectiveStopCalls]

theorem effectiveStartCalls_cons (f : AsyncState) (e : Event) (es : List Event) :
    effectiveStartCalls f (e :: es) =
      effectiveStartCalls f [e] + effectiveStartCalls (frameStep f e) es := by
  simp [effectiveStartCalls]

/-- The count of a tracked frame is its initial count plus the effective stop
calls minus the effective start calls. -/
theorem trackFrame_count_effective (evs : List Event) (f : AsyncState)
    (hk : ∀ e ∈ evs, e.keepsFrames = true) :
    (trackFrame f evs).stopSemaphoreCount =
      f.stopSemaphoreCount + effectiveStopCalls f evs - effectiveStartCalls f evs := by
  induction evs generalizing f with
  | nil => simp [trackFrame, effectiveStopCalls, effectiveStartCalls]
  | cons e es ih =>
    have hke := hk e (List.mem_cons_self _ _)
    have h1 := frameStep_count_effective f e hke
    have h2 := ih (frameStep f e) (fun x hx => hk x (List.mem_cons_of_mem _ hx))
    rw [trackFrame_cons, effectiveStopCalls_cons, effectiveStartCalls_cons]
    omega

theorem value_unique_of_nodup {vars : JSObject} {v : String} {b1 b2 : Bool}
    (hnd : (ownKeys vars).Nodup) (h1 : (v, b1) ∈ vars) (h2 : (v, b2) ∈ vars) : b1 = b2 := by
  have hf := filter_key_of_nodup vars v b1 hnd h1
  have hm : (v, b2) ∈ vars.filter (fun entry => entry.1 == v) := by
    rw [List.mem_filter]
    exact ⟨h2, by simp⟩
  rw [hf] at hm
  simp only [List.mem_singleton, Prod.mk.injEq] at hm
  exact hm.2.symm

/-- Marking a variable whose entry is already `true` leaves a well-formed
mapping as it is. -/
theorem setProperty_true_of_mem {vars : JSObject} {v : String} (hw : WellFormed vars)
    (hv : (v, true) ∈ vars) : setProperty vars v true = vars := by
  have hown : hasOwnProperty vars v = true :=
    (hasOwnProperty_iff vars v).2 (mem_ownKeys_of_mem hv)
  have hp : v ≠ "__proto__" := by
    intro h
    exact hw.2 (by rw [← h]; exact mem_ownKeys_of_mem hv)
  unfold setProperty
  simp only [beq_iff_eq, hp, if_false, hown, if_true]
  conv_rhs => rw [← List.map_id vars]
  apply List.map_congr_left
  rintro ⟨k, b⟩ hkb
  by_cases hk : k = v
  · subst hk
    have := value_unique_of_nodup hw.1 hkb hv
    subst this
    simp
  · simp [hk]

/-- Registering a key that is an own key other than `__proto__` rewrites its
entry in place. -/
theorem setProperty_false_of_own {vars : JSObject} {v : String}
    (hown : hasOwnProperty vars v = true) (hp : v ≠ "__proto__") :
    setProperty vars v false =
      vars.map (fun entry => if entry.1 == v then (v, false) else entry) := by
  unfold setProperty
  simp [hp, hown]

/-- An entry that is `true` after an event was `true` before it, or the event
is a call of that bare name. -/
theorem frameStep_true_origin {f : AsyncState} {e : Event} {v : String}
    (hk : e.keepsFrames = true) (hv : (v, true) ∈ (frameStep f e).asyncCallbackVars) :
    (v, true) ∈ f.asyncCallbackVars ∨ e.callsBare v = true := by
  rcases frameStep_cases f e hk with ⟨k, _, hf⟩ | ⟨k, hck, _, _, hf⟩ | ⟨_, _, d, hf, _⟩ <;>
    rw [hf] at hv <;> simp only [] at hv
  · left; exact mem_of_mem_setProperty hv (by decide)
  · by_cases hne : v = k
    · right; rw [hne]; exact hck
    · left; exact (mem_setProperty_of_ne hne).1 hv
  · left; exact hv

theorem isTest_false_of_callsBare {e : Event} {v : String} (hk : e.keepsFrames = true)
    (hc : e.callsBare v = true) : isTest (Node.Identifier v) = false := by
  cases e with
  | callEnter c a =>
    cases c with
    | Identifier name =>
      simp only [Event.callsBare, beq_iff_eq] at hc
      subst hc
      simpa [Event.keepsFrames] using hk
    | _ => simp [Event.callsBare] at hc
  | _ => simp [Event.callsBare] at hc

/-- In a frame tracked from an empty mapping, a variable whose entry is `true`
is never named `test` or `asyncTest`. -/
theorem trackFrame_true_not_test (evs : List Event) (f : AsyncState) (v : String)
    (hk : ∀ e ∈ evs, e.keepsFrames = true)
    (hf : ∀ k, (k, true) ∈ f.asyncCallbackVars → isTest (Node.Identifier k) = false)
    (hv : (v, true) ∈ (trackFrame f evs).asyncCallbackVars) :
    isTest (Node.Identifier v) = false := by
  induction evs generalizing f with
  | nil => exact hf v hv
  | cons e es ih =>
    have hke := hk e (List.mem_cons_self _ _)
    rw [trackFrame_cons] at hv
    apply ih (frameStep f e) (fun x hx => hk x (List.mem_cons_of_mem _ hx)) _ hv
    intro k hkt
    rcases frameStep_true_origin hke hkt with h | h
    · exact hf k h
    · exact isTest_false_of_callsBare hke h

/-! ## The order of the entries and the order of registration -/

theorem foldl_insertKey (ks acc : List String) :
    ks.foldl insertKey acc = acc ++ (firstOccurrences ks).filter (fun x => decide (x ∉ acc)) := by
  induction ks generalizing acc with
  | nil => simp [firstOccurrences]
  | cons k ks ih =>
    by_cases hk : k ∈ acc
    · have hins : insertKey acc k = acc := by simp [insertKey, hk]
      rw [List.foldl_cons, hins, ih]
      simp only [firstOccurrences]
      rw [List.filter_cons]
      simp only [hk, not_true_eq_false, decide_False, Bool.false_eq_true, if_false,
        List.filter_filter]
      congr 1
      apply List.filter_congr
      intro x _
      by_cases hx : x ∈ acc
      · simp [hx]
      · have : x ≠ k := fun h => hx (h ▸ hk)
        simp [hx, this]
    · have hins : insertKey acc k = acc ++ [k] := by simp [insertKey, hk]
      rw [List.foldl_cons, hins, ih]
      simp only [firstOccurrences]
      rw [List.filter_cons]
      simp only [hk, not_false_eq_true, decide_True, if_true, List.filter_filter,
        List.append_assoc, List.singleton_append]
      congr 2
      apply List.filter_congr
      intro x _
      by_cases hx : x ∈ acc
      · simp [hx]
      · by_cases hxk : x = k
        · simp [hxk]
        · simp [hx, hxk]

theorem foldl_insertKey_nil (ks : List String) :
    ks.foldl insertKey [] = firstOccurrences ks := by
  rw [foldl_insertKey]
  simp

theorem ownKeys_setProperty_insertKey (obj : JSObject) (k : String) (v : Bool)
    (hp : k ≠ "__proto__") : ownKeys (setProperty obj k v) = insertKey (ownKeys obj) k := by
  rw [ownKeys_setProperty]
  unfold insertKey
  by_cases hk : k ∈ ownKeys obj
  · rw [if_pos (Or.inr hk), if_pos hk]
  · rw [if_neg (by rintro (h | h); exact hp h; exact hk h), if_neg hk]

/-- When no event calls a bare inherited name and none registers `__proto__`,
the keys of a tracked frame are its initial keys followed by the new names in
the order of their first registration. -/
theorem ownKeys_trackFrame (evs : List Event) (f : AsyncState)
    (hk : ∀ e ∈ evs, e.keepsFrames = true)
    (hcalls : ∀ e ∈ evs, ∀ k ∈ objectPrototypeKeys, e.callsBare k = false)
    (hproto : ∀ e ∈ evs, e.registers f.assertContextVar ≠ some "__proto__") :
    ownKeys (trackFrame f evs).asyncCallbackVars =
      (evs.filterMap (Event.registers f.assertContextVar)).foldl insertKey
        (ownKeys f.asyncCallbackVars) := by
  induction evs generalizing f with
  | nil => rfl
  | cons e es ih =>
    have hke := hk e (List.mem_cons_self _ _)
    have hctx := frameStep_context f e hke
    rw [trackFrame_cons, ih (frameStep f e) (fun x hx => hk x (List.mem_cons_of_mem _ hx))
      (fun x hx => hcalls x (List.mem_cons_of_mem _ hx))
      (fun x hx => by rw [hctx]; exact hproto x (List.mem_cons_of_mem _ hx)), hctx]
    rcases frameStep_cases f e hke with ⟨k, hr, hf⟩ | ⟨k, hck, hp, hr, hf⟩ | ⟨hr, _, d, hf, _⟩
    · have hkp : k ≠ "__proto__" := by
        intro h
        exact hproto e (List.mem_cons_self _ _) (by rw [hr, h])
      rw [List.filterMap_cons, hr, hf]
      simp only [List.foldl_cons]
      rw [ownKeys_setProperty_insertKey _ k false hkp]
    · have hown : k ∈ ownKeys f.asyncCallbackVars := by
        rcases (hasProperty_iff _ k).1 hp with h | h
        · exact h
        · have := hcalls e (List.mem_cons_self _ _) k h
          rw [hck] at this
          exact absurd this (by decide)
      rw [List.filterMap_cons, hr, hf]
      simp only []
      rw [ownKeys_setProperty, if_pos (Or.inr hown)]
    · rw [List.filterMap_cons, hr, hf]

/-- The names reported for a well-formed mapping are its keys with an
unresolved entry, in the order of the keys. -/
theorem filter_false_map_fst (vars : JSObject) (hnd : (ownKeys vars).Nodup) :
    (vars.filter (fun entry => entry.2 == false)).map Prod.fst =
      (ownKeys vars).filter (fun k => decide ((k, false) ∈ vars)) := by
  induction vars with
  | nil => rfl
  | cons x xs ih =>
    obtain ⟨k, b⟩ := x
    simp only [ownKeys, List.map_cons, List.nodup_cons] at hnd
    have hrest : (List.map Prod.fst xs).filter (fun y => decide ((y, false) ∈ (k, b) :: xs)) =
        (List.map Prod.fst xs).filter (fun y => decide ((y, false) ∈ xs)) := by
      apply List.filter_congr
      intro y hy
      have hyk : y ≠ k := fun h => hnd.1 (h ▸ hy)
      simp [hyk]
    have hkx : (k, false) ∉ xs := fun h => hnd.1 (List.mem_map.2 ⟨(k, false), h, rfl⟩)
    have ih2 := ih hnd.2
    simp only [ownKeys] at ih2
    cases b with
    | false =>
      have h1 : ((k, false) :: xs).filter (fun entry => entry.2 == false) =
          (k, false) :: xs.filter (fun entry => entry.2 == false) :=
        List.filter_cons_of_pos rfl
      have h2 : (k :: List.map Prod.fst xs).filter
          (fun y => decide ((y, false) ∈ (k, false) :: xs)) =
          k :: (List.map Prod.fst xs).filter
            (fun y => decide ((y, false) ∈ (k, false) :: xs)) :=
        List.filter_cons_of_pos (by simp)
      simp only [ownKeys, List.map_cons]
      rw [h1, h2, hrest, List.map_cons, ih2]
    | true =>
      have h1 : ((k, true) :: xs).filter (fun entry => entry.2 == false) =
          xs.filter (fun entry => entry.2 == false) :=
        List.filter_cons_of_neg (by simp)
      have h2 : (k :: List.map Prod.fst xs).filter
          (fun y => decide ((y, false) ∈ (k, true) :: xs)) =
          (List.map Prod.fst xs).filter
            (fun y => decide ((y, false) ∈ (k, true) :: xs)) :=
        List.filter_cons_of_neg (by simp [hkx])
      simp only [ownKeys, List.map_cons]
      rw [h1, h2, hrest, ih2]

/-! ## The claims -/

/-- C6 (counterexample): in
`test("name", function (assert) { toString(); var a = assert.async(); var toString = assert.async(); })`
the names are first registered in the order `a`, `toString` and neither is
called after its registration, yet the frame that is popped holds the entry of
`toString` before the entry of `a`, and the exit reports the violation naming
`toString` before the one naming `a`: the call `toString()` finds the name in
the mapping through `Object.prototype` and inserts the key before `a` is
registered. -/
theorem registration_order_counterexample :
    registrationOrder
        (getAssertContextNameForTest
          (testArguments ["assert"]
            [callStatement "toString", asyncDeclaration "a" "assert",
              asyncDeclaration "toString" "assert"]))
        (frameEvents (Node.Identifier "test")
          (testArguments ["assert"]
            [callStatement "toString", asyncDeclaration "a" "assert",
              asyncDeclaration "toString" "assert"])) = ["a", "toString"] ∧
    trackFrame
        (initialFrame (Node.Identifier "test")
          (testArguments ["assert"]
            [callStatement "toString", asyncDeclaration "a" "assert",
              asyncDeclaration "toString" "assert"]))
        (frameEvents (Node.Identifier "test")
          (testArguments ["assert"]
            [callStatement "toString", asyncDeclaration "a" "assert",
              asyncDeclaration "toString" "assert"])) =
      ⟨0, [("toString", false), ("a", false)], some "assert"⟩ ∧
    verifyAsyncState ⟨0, [("toString", false), ("a", false)], some "assert"⟩
        (Node.CallExpression (Node.Identifier "test")
          (testArguments ["assert"]
            [callStatement "toString", asyncDeclaration "a" "assert",
              asyncDeclaration "toString" "assert"])) =
      [Report.ASYNC_VAR_MESSAGE
          (Node.CallExpression (Node.Identifier "test")
            (testArguments ["assert"]
              [callStatement "toString", asyncDeclaration "a" "assert",
                asyncDeclaration "toString" "assert"])) "toString",
        Report.ASYNC_VAR_MESSAGE
          (Node.CallExpression (Node.Identifier "test")
            (testArguments ["assert"]
              [callStatement "toString", asyncDeclaration "a" "assert",
                asyncDeclaration "toString" "assert"])) "a"] ∧
    exitReports [] (Node.Identifier "test")
        (testArguments ["assert"]
          [callStatement "toString", asyncDeclaration "a" "assert",
            asyncDeclaration "toString" "assert"]) =
      some [Report.ASYNC_VAR_MESSAGE
          (Node.CallExpression (Node.Identifier "test")
            (testArguments ["assert"]
              [callStatement "toString", asyncDeclaration "a" "assert",
                asyncDeclaration "toString" "assert"])) "toString",
        Report.ASYNC_VAR_MESSAGE
          (Node.CallExpression (Node.Identifier "test")
            (testArguments ["assert"]
              [callStatement "toString", asyncDeclaration "a" "assert",
                asyncDeclaration "toString" "assert"])) "a"] :=
  ⟨by decide, rfl, rfl, rfl⟩

/-- C6 (amended): for every frame and every node, `verifyAsyncState` makes
exactly this list of reports, all anchored at the node: first the semaphore
report, present exactly when the count is positive, then one callback-variable
report for each entry of the mapping whose value is `false`, in the order of
the entries of the mapping (the order in which its keys were inserted), each
naming its variable; their number is one or zero for the semaphore plus the
number of `false` entries.  When the frame is the one the tracker has built
from the push of a test declaration through events handled while it is
innermost, none of which calls a bare name inherited from `Object.prototype`
or registers `__proto__`, the keys of the mapping are the registered names in
the order of their first registration, so the callback-variable reports come
in that order. -/
theorem verifyAsyncState_reports (asyncState : AsyncState) (node : Node) :
    verifyAsyncState asyncState node =
      (if asyncState.stopSemaphoreCount > 0 then
          [Report.STOP_MESSAGE node asyncState.stopSemaphoreCount
            (if asyncState.stopSemaphoreCount = 1 then "call" else "calls")]
        else []) ++
      (asyncState.asyncCallbackVars.filter (fun entry => entry.2 == false)).map
        (fun entry => Report.ASYNC_VAR_MESSAGE node entry.1) ∧
    (verifyAsyncState asyncState node).length =
      (if asyncState.stopSemaphoreCount > 0 then 1 else 0) +
        asyncState.asyncCallbackVars.countP (fun entry => entry.2 == false) ∧
    ∀ (c : Node) (a : List Node) (evs : List Event),
      (∀ e ∈ evs, e.keepsFrames = true) →
      (∀ e ∈ evs, ∀ k ∈ objectPrototypeKeys, e.callsBare k = false) →
      (∀ e ∈ evs, e.registers (getAssertContextNameForTest a) ≠ some "__proto__") →
      asyncState = trackFrame (initialFrame c a) evs →
      ownKeys asyncState.asyncCallbackVars =
          registrationOrder (getAssertContextNameForTest a) evs ∧
        verifyAsyncState asyncState node =
          (if asyncState.stopSemaphoreCount > 0 then
              [Report.STOP_MESSAGE node asyncState.stopSemaphoreCount
                (if asyncState.stopSemaphoreCount = 1 then "call" else "calls")]
            else []) ++
          ((registrationOrder (getAssertContextNameForTest a) evs).filter
              (fun k => decide ((k, false) ∈ asyncState.asyncCallbackVars))).map
            (fun k => Report.ASYNC_VAR_MESSAGE node k) := by
  rw [verifyAsyncState_eq_specReports]
  refine ⟨rfl, ?_, ?_⟩
  · unfold specReports
    rw [List.length_append, List.length_map, List.countP_eq_length_filter]
    by_cases h : asyncState.stopSemaphoreCount > 0
    · simp [h]
    · simp [h]
  · intro c a evs hk hcalls hproto hframe
    have hkeys : ownKeys asyncState.asyncCallbackVars =
        registrationOrder (getAssertContextNameForTest a) evs := by
      rw [hframe, ownKeys_trackFrame evs (initialFrame c a) hk hcalls
        (by rw [initialFrame_context]; exact hproto), initialFrame_context, initialFrame_vars]
      exact foldl_insertKey_nil _
    have hnd : (ownKeys asyncState.asyncCallbackVars).Nodup := by
      rw [hframe]
      exact (trackFrame_wellFormed evs (initialFrame c a) hk
        (by rw [initialFrame_vars]; exact wellFormed_nil)).1
    refine ⟨hkeys, ?_⟩
    rw [← hkeys, ← filter_false_map_fst asyncState.asyncCallbackVars hnd, List.map_map]
    rfl

/-- C6 (witness): in
`var b = assert.async(); var a = assert.async(); var c = assert.async(); b = assert.async(); a();`
as the body of `test("name", function (assert) { ... })`, no event calls a bare
inherited name or registers `__proto__`, so the keys of the popped frame are
the registered names in the order of their first registration, `b`, `a`, `c`,
and the callback-variable reports, for `b` and `c`, follow that order. -/
theorem verifyAsyncState_reports_witness :
    (∀ e ∈ frameEvents (Node.Identifier "test")
        (testArguments ["assert"]
          [asyncDeclaration "b" "assert", asyncDeclaration "a" "assert",
            asyncDeclaration "c" "assert", asyncAssignment "b" "assert", callStatement "a"]),
      e.keepsFrames = true) ∧
    (∀ e ∈ frameEvents (Node.Identifier "test")
        (testArguments ["assert"]
          [asyncDeclaration "b" "assert", asyncDeclaration "a" "assert",
            asyncDeclaration "c" "assert", asyncAssignment "b" "assert", callStatement "a"]),
      ∀ k ∈ objectPrototypeKeys, e.callsBare k = false) ∧
    (∀ e ∈ frameEvents (Node.Identifier "test")
        (testArguments ["assert"]
          [asyncDeclaration "b" "assert", asyncDeclaration "a" "assert",
            asyncDeclaration "c" "assert", asyncAssignment "b" "assert", callStatement "a"]),
      e.registers
        (getAssertContextNameForTest
          (testArguments ["assert"]
            [asyncDeclaration "b" "assert", asyncDeclaration "a" "assert",
              asyncDeclaration "c" "assert", asyncAssignment "b" "assert", callStatement "a"])) ≠ some "__proto__") ∧
    registrationOrder
        (getAssertContextNameForTest
          (testArguments ["assert"]
            [asyncDeclaration "b" "assert", asyncDeclaration "a" "assert",
              asyncDeclaration "c" "assert", asyncAssignment "b" "assert", callStatement "a"]))
        (frameEvents (Node.Identifier "test")
          (testArguments ["assert"]
            [asyncDeclaration "b" "assert", asyncDeclaration "a" "assert",
              asyncDeclaration "c" "assert", asyncAssignment "b" "assert", callStatement "a"])) = ["b", "a", "c"] ∧
    ownKeys
        (trackFrame
          (initialFrame (Node.Identifier "test")
            (testArguments ["assert"]
              [asyncDeclaration "b" "assert", asyncDeclaration "a" "assert",
                asyncDeclaration "c" "assert", asyncAssignment "b" "assert", callStatement "a"]))
          (frameEvents (Node.Identifier "test")
            (testArguments ["assert"]
              [asyncDeclaration "b" "assert", asyncDeclaration "a" "assert",
                asyncDeclaration "c" "assert", asyncAssignment "b" "assert", callStatement "a"]))).asyncCallbackVars =
      registrationOrder
        (getAssertContextNameForTest
          (testArguments ["assert"]
            [asyncDeclaration "b" "assert", asyncDeclaration "a" "assert",
              asyncDeclaration "c" "assert", asyncAssignment "b" "assert", callStatement "a"]))
        (frameEvents (Node.Identifier "test")
          (testArguments ["assert"]
            [asyncDeclaration "b" "assert", asyncDeclaration "a" "assert",
              asyncDeclaration "c" "assert", asyncAssignment "b" "assert", callStatement "a"])) ∧
    verifyAsyncState
        (trackFrame
          (initialFrame (Node.Identifier "test")
            (testArguments ["assert"]
              [asyncDeclaration "b" "assert", asyncDeclaration "a" "assert",
                asyncDeclaration "c" "assert", asyncAssignment "b" "assert", callStatement "a"]))
          (frameEvents (Node.Identifier "test")
            (testArguments ["assert"]
              [asyncDeclaration "b" "assert", asyncDeclaration "a" "assert",
                asyncDeclaration "c" "assert", asyncAssignment "b" "assert", callStatement "a"])))
        literal =
      [Report.ASYNC_VAR_MESSAGE literal "b", Report.ASYNC_VAR_MESSAGE literal "c"] :=
  ⟨by decide, by decide, by decide, by decide,
    ((verifyAsyncState_reports _ literal).2.2 (Node.Identifier "test")
      (testArguments ["assert"]
        [asyncDeclaration "b" "assert", asyncDeclaration "a" "assert",
          asyncDeclaration "c" "assert", asyncAssignment "b" "assert", callStatement "a"])
      (frameEvents (Node.Identifier "test")
        (testArguments ["assert"]
          [asyncDeclaration "b" "assert", asyncDeclaration "a" "assert",
            asyncDeclaration "c" "assert", asyncAssignment "b" "assert", callStatement "a"]))
      (by decide) (by decide) (by decide) rfl).1,
    ((verifyAsyncState_reports _ literal).2.2 (Node.Identifier "test")
      (testArguments ["assert"]
        [asyncDeclaration "b" "assert", asyncDeclaration "a" "assert",
          asyncDeclaration "c" "assert", asyncAssignment "b" "assert", callStatement "a"])
      (frameEvents (Node.Identifier "test")
        (testArguments ["assert"]
          [asyncDeclaration "b" "assert", asyncDeclaration "a" "assert",
            asyncDeclaration "c" "assert", asyncAssignment "b" "assert", callStatement "a"]))
      (by decide) (by decide) (by decide) rfl).2⟩

/-- C7: every semaphore report of `verifyAsyncState` is anchored at the node,
carries exactly the count of the frame, which is positive, and says `call`
exactly when the count is 1 and `calls` when it is greater; a frame whose count
is zero or negative gets no semaphore report, and a frame whose count is
positive gets exactly one. -/
theorem verifyAsyncState_semaphore (asyncState : AsyncState) (node : Node) :
    (∀ n sem word, Report.STOP_MESSAGE n sem word ∈ verifyAsyncState asyncState node →
      n = node ∧ sem = asyncState.stopSemaphoreCount ∧ 0 < sem ∧
        (word = "call" ↔ sem = 1) ∧ (1 < sem → word = "calls")) ∧
    (asyncState.stopSemaphoreCount ≤ 0 →
      ∀ r ∈ verifyAsyncState asyncState node, r.isStop = false) ∧
    (0 < asyncState.stopSemaphoreCount →
      (verifyAsyncState asyncState node).filter Report.isStop =
        [Report.STOP_MESSAGE node asyncState.stopSemaphoreCount
          (if asyncState.stopSemaphoreCount = 1 then "call" else "calls")]) := by
  rw [verifyAsyncState_eq_specReports]
  unfold specReports
  refine ⟨?_, ?_, ?_⟩
  · intro n sem word hmem
    by_cases h : asyncState.stopSemaphoreCount > 0
    · simp only [h, if_true, List.mem_append, List.mem_singleton, List.mem_map,
        Report.STOP_MESSAGE.injEq] at hmem
      rcases hmem with ⟨rfl, rfl, rfl⟩ | ⟨x, _, hx⟩
      · refine ⟨rfl, rfl, h, ?_, ?_⟩
        · by_cases h1 : asyncState.stopSemaphoreCount = 1
          · simp [h1]
          · simp [h1]
        · intro h1
          have : asyncState.stopSemaphoreCount ≠ 1 := by omega
          simp [this]
      · exact absurd hx (by simp)
    · simp only [h, if_false, List.nil_append, List.mem_map] at hmem
      obtain ⟨x, _, hx⟩ := hmem
      exact absurd hx (by simp)
  · intro hle r hr
    have h : ¬ asyncState.stopSemaphoreCount > 0 := by omega
    simp only [h, if_false, List.nil_append, List.mem_map] at hr
    obtain ⟨x, _, rfl⟩ := hr
    rfl
  · intro hpos
    have hpos2 : asyncState.stopSemaphoreCount > 0 := hpos
    simp only [hpos2, if_true, List.filter_append, List.filter_map]
    have : List.filter (Report.isStop ∘ fun entry : String × Bool =>
        Report.ASYNC_VAR_MESSAGE node entry.1)
        (List.filter (fun entry => entry.2 == false) asyncState.asyncCallbackVars) = [] := by
      rw [List.filter_eq_nil_iff]
      intro x _
      simp [Report.isStop]
    rw [this]
    simp [Report.isStop]
/-- C10 (counterexample): in the test body `var stop = assert.async(); stop();`
the declarator registers `stop` in the innermost frame, and the following call
of the bare `stop`, although its callee is a semaphore increment, marks that
entry as called and leaves the count at 0 instead of raising it to 1. -/
theorem stop_call_counterexample :
    isStop (Node.Identifier "stop") = true ∧
    run [] [Event.callEnter (Node.Identifier "test")
              (testArguments ["assert"] [asyncDeclaration "stop" "assert", callStatement "stop"]),
            Event.declaratorEnter (Node.Identifier "stop") (some (memberCall "assert" "async"))] =
      some ([⟨0, [("stop", false)], some "assert"⟩], []) ∧
    onCallExpression [⟨0, [("stop", false)], some "assert"⟩] (Node.Identifier "stop") [] =
      [⟨0, [("stop", true)], some "assert"⟩] :=
  ⟨rfl, rfl, rfl⟩

/-- C10 (amended): on a non-empty stack, entering a call whose callee is a
semaphore increment raises the count of the innermost frame by exactly 1, and
one whose callee is a semaphore decrement lowers it by exactly 1, provided the
callee is not a callback variable of the innermost frame (a bare name that is
a property of its mapping); the rest of the frame and the frames below are
unchanged.  A member callee such as `QUnit.stop` is never a callback
variable. -/
theorem semaphore_call_adjusts_count (f : AsyncState) (below : List AsyncState) (c : Node)
    (a : List Node) (hcv : isAsyncCallbackVar (f :: below) c = false) :
    (isStop c = true → onCallExpression (f :: below) c a =
      { f with stopSemaphoreCount := f.stopSemaphoreCount + 1 } :: below) ∧
    (isStart c = true → onCallExpression (f :: below) c a =
      { f with stopSemaphoreCount := f.stopSemaphoreCount - 1 } :: below) ∧
    (∀ o p, isAsyncCallbackVar (f :: below) (Node.MemberExpression o p) = false) := by
  refine ⟨?_, ?_, ?_⟩
  · intro hs
    have ht : isTest c = false := by
      rw [isStop_eq_true] at hs
      rcases hs with hs | hs <;> subst hs <;> rfl
    simp [onCallExpression, ht, hcv, hs, incrementSemaphoreCount]
  · intro hs
    have ht : isTest c = false := by
      rw [isStart_eq_true] at hs
      rcases hs with hs | hs <;> subst hs <;> rfl
    have hstop : isStop c = false := by
      cases h : isStop c with
      | false => rfl
      | true => exact absurd ⟨h, hs⟩ (not_isStop_and_isStart c)
    simp only [onCallExpression, ht, hcv, hs, hstop, incrementSemaphoreCount]
    simp [Int.sub_eq_add_neg]
  · intro o p
    rfl

/-- C10 (witness): in a frame with count 2 that has registered only `done`, a
call of the bare `stop` gives count 3. -/
theorem semaphore_call_adjusts_count_witness :
    isAsyncCallbackVar [⟨2, [("done", false)], some "assert"⟩] (Node.Identifier "stop") = false ∧
    onCallExpression [⟨2, [("done", false)], some "assert"⟩] (Node.Identifier "stop") [] =
      [⟨2 + 1, [("done", false)], some "assert"⟩] :=
  ⟨by decide,
    (semaphore_call_adjusts_count ⟨2, [("done", false)], some "assert"⟩ []
      (Node.Identifier "stop") [] (by decide)).1 (by decide)⟩
/-- C1 (counterexample): in `asyncTest("name", function () { stop(); start(); })`
the one stop call is matched by the one start call and no callback variable is
registered, yet the exit reports a semaphore violation: the implicit stop of
`asyncTest` is not matched. -/
theorem asyncTest_matched_counterexample :
    isTest (Node.Identifier "asyncTest") = true ∧
    countStopCalls (bodyEvents (Node.Identifier "asyncTest")
      (testArguments [] [callStatement "stop", callStatement "start"])) = 1 ∧
    countStartCalls (bodyEvents (Node.Identifier "asyncTest")
      (testArguments [] [callStatement "stop", callStatement "start"])) = 1 ∧
    (∀ e ∈ bodyEvents (Node.Identifier "asyncTest")
        (testArguments [] [callStatement "stop", callStatement "start"]),
      e.registers (getAssertContextNameForTest
        (testArguments [] [callStatement "stop", callStatement "start"])) = none) ∧
    exitReports [] (Node.Identifier "asyncTest")
        (testArguments [] [callStatement "stop", callStatement "start"]) =
      some [Report.STOP_MESSAGE
        (Node.CallExpression (Node.Identifier "asyncTest")
          (testArguments [] [callStatement "stop", callStatement "start"])) 1 "call"] :=
  ⟨rfl, by decide, by decide, by decide, rfl⟩

/-- C1 (amended): for every test-declaration call, traversed depth-first from
any stack (the empty one included): if the initial count (1 for the `asyncTest`
forms, else 0) plus the number of stop calls does not exceed the number of
start calls, if `start` is never registered as a callback variable, and if
every event registering a callback variable is followed by a call of that bare
name, all counted among the events handled while the frame of this call is
innermost, then the exit of the call reports no violation. -/
theorem zero_violations_of_resolved (s : List AsyncState) (c : Node) (a : List Node)
    (hc : isTest c = true)
    (hsem : (if isAsyncTest c then 1 else 0) + countStopCalls (frameEvents c a) ≤
      countStartCalls (frameEvents c a))
    (hstart : ∀ e ∈ frameEvents c a,
      e.registers (getAssertContextNameForTest a) ≠ some "start")
    (hvars : registrationsResolved (getAssertContextNameForTest a) (frameEvents c a) = true) :
    exitReports s c a = some [] := by
  have hk := frameEvents_keepsFrames c a
  have hcount := trackFrame_count_le (frameEvents c a) (initialFrame c a) hk
    (not_mem_ownKeys_initialFrame c a "start") hstart
  rw [initialFrame_count] at hcount
  have hnone := trackFrame_resolved (frameEvents c a) (initialFrame c a) hk
    (by rw [initialFrame_vars]; exact wellFormed_nil) hvars
    (by intro v hv; rw [initialFrame_vars] at hv; exact absurd hv (List.not_mem_nil _))
  rw [exitReports_eq s c a hc, verifyAsyncState_eq_specReports]
  have hle : ¬ (trackFrame (initialFrame c a) (frameEvents c a)).stopSemaphoreCount > 0 := by
    omega
  have hfilter : (trackFrame (initialFrame c a) (frameEvents c a)).asyncCallbackVars.filter
      (fun entry => entry.2 == false) = [] := by
    rw [List.filter_eq_nil_iff]
    rintro ⟨k, b⟩ hmem
    cases b with
    | true => simp
    | false => exact absurd hmem (hnone k)
  unfold specReports
  rw [hfilter, if_neg hle]
  rfl

/-- C1 (witness): the test
`test("name", function (assert) { stop(); var done = assert.async(); done(); start(); })`
reports nothing. -/
theorem zero_violations_of_resolved_witness :
    exitReports [] (Node.Identifier "test")
      (testArguments ["assert"]
        [callStatement "stop", asyncDeclaration "done" "assert", callStatement "done",
          callStatement "start"]) = some [] :=
  zero_violations_of_resolved [] (Node.Identifier "test")
    (testArguments ["assert"]
      [callStatement "stop", asyncDeclaration "done" "assert", callStatement "done",
        callStatement "start"])
    (by decide) (by decide) (by decide) (by decide)

/-- C2 (counterexample): the body of
`asyncTest("name", function () { stop(); })` contains no start call, yet the
exit reports the semaphore violation with `semaphore = 2` and `calls`, not
with 1 and `call`. -/
theorem asyncTest_stop_counterexample :
    isAsyncTest (Node.Identifier "asyncTest") = true ∧
    (∀ e ∈ bodyEvents (Node.Identifier "asyncTest") (testArguments [] [callStatement "stop"]),
      e.isStartCall = false) ∧
    exitReports [] (Node.Identifier "asyncTest") (testArguments [] [callStatement "stop"]) =
      some [Report.STOP_MESSAGE
        (Node.CallExpression (Node.Identifier "asyncTest")
          (testArguments [] [callStatement "stop"])) 2 "calls"] :=
  ⟨rfl, by decide, rfl⟩

/-- C2 (amended): for every implicitly-asynchronous test declaration (callee
`asyncTest` or `QUnit.asyncTest`) such that no stop call and no start call is
handled while its frame is innermost, the exit of the call reports exactly one
semaphore violation, first in the list, with `semaphore = 1` and `call`. -/
theorem asyncTest_without_stop_start (s : List AsyncState) (c : Node) (a : List Node)
    (hc : isAsyncTest c = true)
    (hnone : ∀ e ∈ frameEvents c a, e.isStopCall = false ∧ e.isStartCall = false) :
    ∃ rest, exitReports s c a =
        some (Report.STOP_MESSAGE (Node.CallExpression c a) 1 "call" :: rest) ∧
      ∀ r ∈ rest, r.isStop = false := by
  have hk := frameEvents_keepsFrames c a
  have hcount := trackFrame_count_unchanged (frameEvents c a) (initialFrame c a) hk hnone
  rw [initialFrame_count, hc, if_pos rfl] at hcount
  obtain ⟨rest, h1, h2⟩ := specReports_of_pos (trackFrame (initialFrame c a) (frameEvents c a))
    (Node.CallExpression c a) (by rw [hcount]; decide)
  rw [hcount] at h1
  refine ⟨rest, ?_, h2⟩
  rw [exitReports_eq s c a (isTest_of_isAsyncTest hc), verifyAsyncState_eq_specReports, h1]
  rfl

/-- C2 (witness): `QUnit.asyncTest("name", function (assert) { var done =
assert.async(); })` reports the semaphore violation with 1 and `call`
first. -/
theorem asyncTest_without_stop_start_witness :
    ∃ rest, exitReports []
        (Node.MemberExpression (Node.Identifier "QUnit") (Node.Identifier "asyncTest"))
        (testArguments ["assert"] [asyncDeclaration "done" "assert"]) =
        some (Report.STOP_MESSAGE
          (Node.CallExpression
            (Node.MemberExpression (Node.Identifier "QUnit") (Node.Identifier "asyncTest"))
            (testArguments ["assert"] [asyncDeclaration "done" "assert"])) 1 "call" :: rest) ∧
      ∀ r ∈ rest, r.isStop = false :=
  asyncTest_without_stop_start []
    (Node.MemberExpression (Node.Identifier "QUnit") (Node.Identifier "asyncTest"))
    (testArguments ["assert"] [asyncDeclaration "done" "assert"]) (by decide) (by decide)

/-- C3 (counterexample): the body of
`asyncTest("name", function () { stop(); stop(); })` contains exactly two stop
calls and no start call, yet the exit reports `semaphore = 3`, not 2. -/
theorem asyncTest_two_stops_counterexample :
    isTest (Node.Identifier "asyncTest") = true ∧
    countStopCalls (bodyEvents (Node.Identifier "asyncTest")
      (testArguments [] [callStatement "stop", callStatement "stop"])) = 2 ∧
    countStartCalls (bodyEvents (Node.Identifier "asyncTest")
      (testArguments [] [callStatement "stop", callStatement "stop"])) = 0 ∧
    exitReports [] (Node.Identifier "asyncTest")
      (testArguments [] [callStatement "stop", callStatement "stop"]) =
      some [Report.STOP_MESSAGE
        (Node.CallExpression (Node.Identifier "asyncTest")
          (testArguments [] [callStatement "stop", callStatement "stop"])) 3 "calls"] :=
  ⟨rfl, by decide, by decide, rfl⟩

/-- C3 (amended): for every test declaration such that exactly two stop calls
and no start call are handled while its frame is innermost, and `stop` is never
registered as a callback variable of that frame, the exit of the call reports
exactly one semaphore violation, first in the list, with `calls` and with
`semaphore = 2` for `test` and `QUnit.test`, and `semaphore = 3` for
`asyncTest` and `QUnit.asyncTest`. -/
theorem two_unmatched_stops (s : List AsyncState) (c : Node) (a : List Node)
    (hc : isTest c = true)
    (hstops : countStopCalls (frameEvents c a) = 2)
    (hstarts : countStartCalls (frameEvents c a) = 0)
    (hreg : ∀ e ∈ frameEvents c a,
      e.registers (getAssertContextNameForTest a) ≠ some "stop") :
    ∃ rest, exitReports s c a =
        some (Report.STOP_MESSAGE (Node.CallExpression c a)
          (if isAsyncTest c then 3 else 2) "calls" :: rest) ∧
      ∀ r ∈ rest, r.isStop = false := by
  have hk := frameEvents_keepsFrames c a
  have hge := trackFrame_count_ge (frameEvents c a) (initialFrame c a) hk
    (not_mem_ownKeys_initialFrame c a "stop") hreg
  have hle := trackFrame_count_le_stops (frameEvents c a) (initialFrame c a) hk
  rw [initialFrame_count, hstops] at hle
  rw [initialFrame_count, hstops, hstarts] at hge
  have hcount : (trackFrame (initialFrame c a) (frameEvents c a)).stopSemaphoreCount =
      if isAsyncTest c then 3 else 2 := by
    by_cases h : isAsyncTest c = true
    · rw [if_pos h] at hle hge ⊢; omega
    · rw [if_neg h] at hle hge ⊢; omega
  obtain ⟨rest, h1, h2⟩ := specReports_of_pos (trackFrame (initialFrame c a) (frameEvents c a))
    (Node.CallExpression c a) (by rw [hcount]; by_cases h : isAsyncTest c = true <;> simp [h])
  rw [hcount] at h1
  refine ⟨rest, ?_, h2⟩
  rw [exitReports_eq s c a hc, verifyAsyncState_eq_specReports, h1]
  by_cases h : isAsyncTest c = true <;> simp [h]

/-- C3 (witness): `test("name", function () { QUnit.stop(); stop(); })` reports
the semaphore violation with 2 and `calls` first. -/
theorem two_unmatched_stops_witness :
    ∃ rest, exitReports [] (Node.Identifier "test")
        (testArguments [] [Node.Other [memberCall "QUnit" "stop"], callStatement "stop"]) =
        some (Report.STOP_MESSAGE
          (Node.CallExpression (Node.Identifier "test")
            (testArguments [] [Node.Other [memberCall "QUnit" "stop"], callStatement "stop"]))
          2 "calls" :: rest) ∧
      ∀ r ∈ rest, r.isStop = false :=
  two_unmatched_stops [] (Node.Identifier "test")
    (testArguments [] [Node.Other [memberCall "QUnit" "stop"], callStatement "stop"])
    (by decide) (by decide) (by decide) (by decide)
/-- C4 (counterexample): two tests whose context parameter is `assert`.
In `var done = assert.async(); done(); done = assert.async();` the declarator
of `done` is followed by a call of the bare `done`, yet the exit reports a
callback-variable violation naming `done`: the later assignment registers it
again.  In `var first = assert.async(); var second = assert.async();` the
declarator of `first` is followed by no call of `first`, yet the exit reports
two callback-variable violations, not exactly one. -/
theorem called_variable_counterexample :
    bodyEvents (Node.Identifier "test")
        (testArguments ["assert"]
          [asyncDeclaration "done" "assert", callStatement "done",
            asyncAssignment "done" "assert"]) =
      [Event.declaratorEnter (Node.Identifier "done") (some (memberCall "assert" "async")),
        Event.callEnter (Node.MemberExpression (Node.Identifier "assert")
          (Node.Identifier "async")) [],
        Event.callExit (Node.MemberExpression (Node.Identifier "assert")
          (Node.Identifier "async")) [],
        Event.callEnter (Node.Identifier "done") [],
        Event.callExit (Node.Identifier "done") [],
        Event.assignmentEnter (Node.Identifier "done") (memberCall "assert" "async"),
        Event.callEnter (Node.MemberExpression (Node.Identifier "assert")
          (Node.Identifier "async")) [],
        Event.callExit (Node.MemberExpression (Node.Identifier "assert")
          (Node.Identifier "async")) []] ∧
    exitReports [] (Node.Identifier "test")
        (testArguments ["assert"]
          [asyncDeclaration "done" "assert", callStatement "done",
            asyncAssignment "done" "assert"]) =
      some [Report.ASYNC_VAR_MESSAGE
        (Node.CallExpression (Node.Identifier "test")
          (testArguments ["assert"]
            [asyncDeclaration "done" "assert", callStatement "done",
              asyncAssignment "done" "assert"])) "done"] ∧
    exitReports [] (Node.Identifier "test")
        (testArguments ["assert"]
          [asyncDeclaration "first" "assert", asyncDeclaration "second" "assert"]) =
      some [Report.ASYNC_VAR_MESSAGE
          (Node.CallExpression (Node.Identifier "test")
            (testArguments ["assert"]
              [asyncDeclaration "first" "assert", asyncDeclaration "second" "assert"])) "first",
        Report.ASYNC_VAR_MESSAGE
          (Node.CallExpression (Node.Identifier "test")
            (testArguments ["assert"]
              [asyncDeclaration "first" "assert", asyncDeclaration "second" "assert"]))
          "second"] :=
  ⟨rfl, rfl, rfl⟩

/-- C4 (amended): for every test declaration and every name `v`, with the
events handled while the frame of the test is innermost: if an event registers
`v` (such as the declarator `v = X.async()`, `X` the context name of the
frame) and no later one of these events is a call of the bare `v`, and `v` is
not `__proto__`, then the exit reports exactly one callback-variable violation
naming `v`; if instead one of these events is a call of the bare `v` and no
later one registers `v`, the exit reports no callback-variable violation
naming `v`. -/
theorem callback_variable_tracking (s : List AsyncState) (c : Node) (a : List Node)
    (v : String) (hc : isTest c = true) :
    (∀ pre d post, frameEvents c a = pre ++ d :: post →
      d.registers (getAssertContextNameForTest a) = some v → v ≠ "__proto__" →
      (∀ e ∈ post, e.callsBare v = false) →
      ∃ reports, exitReports s c a = some reports ∧
        reports.filter (Report.namesVar v) =
          [Report.ASYNC_VAR_MESSAGE (Node.CallExpression c a) v]) ∧
    (∀ pre k post, frameEvents c a = pre ++ k :: post → k.callsBare v = true →
      (∀ e ∈ post, e.registers (getAssertContextNameForTest a) ≠ some v) →
      ∃ reports, exitReports s c a = some reports ∧
        ∀ r ∈ reports, r.namesVar v = false) := by
  have hk := frameEvents_keepsFrames c a
  have hw0 : WellFormed (initialFrame c a).asyncCallbackVars := wellFormed_nil
  refine ⟨?_, ?_⟩
  · intro pre d post hsplit hr hp hcalls
    refine ⟨_, exitReports_eq s c a hc, ?_⟩
    rw [verifyAsyncState_eq_specReports]
    apply specReports_names_once _ _ _ (trackFrame_wellFormed _ _ hk hw0)
    rw [hsplit] at hk ⊢
    exact trackFrame_unresolved _ pre post d v hk hr hp hcalls
  · intro pre k post hsplit hcall hregs
    refine ⟨_, exitReports_eq s c a hc, ?_⟩
    rw [verifyAsyncState_eq_specReports]
    apply specReports_names_none
    rw [hsplit] at hk ⊢
    exact trackFrame_called _ pre post k v hk hw0 hcall hregs

/-- C4 (witness): `test("name", function (assert) { var done = assert.async(); })`
reports exactly one violation naming `done`, and the same test with `done();`
added reports none. -/
theorem callback_variable_tracking_witness :
    (∃ reports, exitReports [] (Node.Identifier "test")
        (testArguments ["assert"] [asyncDeclaration "done" "assert"]) = some reports ∧
      reports.filter (Report.namesVar "done") =
        [Report.ASYNC_VAR_MESSAGE
          (Node.CallExpression (Node.Identifier "test")
            (testArguments ["assert"] [asyncDeclaration "done" "assert"])) "done"]) ∧
    (∃ reports, exitReports [] (Node.Identifier "test")
        (testArguments ["assert"] [asyncDeclaration "done" "assert", callStatement "done"]) =
          some reports ∧
      ∀ r ∈ reports, r.namesVar "done" = false) :=
  ⟨(callback_variable_tracking [] (Node.Identifier "test")
      (testArguments ["assert"] [asyncDeclaration "done" "assert"]) "done" (by decide)).1
      []
      (Event.declaratorEnter (Node.Identifier "done") (some (memberCall "assert" "async")))
      [Event.callEnter (Node.MemberExpression (Node.Identifier "assert")
        (Node.Identifier "async")) []]
      rfl rfl (by decide) (by decide),
   (callback_variable_tracking [] (Node.Identifier "test")
      (testArguments ["assert"] [asyncDeclaration "done" "assert", callStatement "done"])
      "done" (by decide)).2
      [Event.declaratorEnter (Node.Identifier "done") (some (memberCall "assert" "async")),
        Event.callEnter (Node.MemberExpression (Node.Identifier "assert")
          (Node.Identifier "async")) []]
      (Event.callEnter (Node.Identifier "done") [])
      []
      rfl rfl (by decide)⟩

/-- C5 (counterexample): in
`var a = assert.async(); var b = assert.async(); a(); a = assert.async();`
exactly the two variables `a` and `b` are registered and only `a` is called,
yet the exit reports two callback-variable violations, naming `a` and `b`. -/
theorem two_variables_counterexample :
    exitReports [] (Node.Identifier "test")
        (testArguments ["assert"]
          [asyncDeclaration "a" "assert", asyncDeclaration "b" "assert", callStatement "a",
            asyncAssignment "a" "assert"]) =
      some [Report.ASYNC_VAR_MESSAGE
          (Node.CallExpression (Node.Identifier "test")
            (testArguments ["assert"]
              [asyncDeclaration "a" "assert", asyncDeclaration "b" "assert", callStatement "a",
                asyncAssignment "a" "assert"])) "a",
        Report.ASYNC_VAR_MESSAGE
          (Node.CallExpression (Node.Identifier "test")
            (testArguments ["assert"]
              [asyncDeclaration "a" "assert", asyncDeclaration "b" "assert", callStatement "a",
                asyncAssignment "a" "assert"])) "b"] :=
  rfl

/-- C5 (amended): for every test declaration and distinct names `va` and `vb`,
`vb` not `__proto__`, with the events handled while the frame of the test is
innermost: if every registration registers `va` or `vb`, if `va` is called
after its last registration, and if `vb` is registered and not called
afterwards, then the exit reports exactly one callback-variable violation,
naming `vb`, and it comes last, after the semaphore violation if there is
one. -/
theorem two_variables_one_called (s : List AsyncState) (c : Node) (a : List Node)
    (va vb : String) (pre post pre2 post2 : List Event) (k d : Event)
    (hc : isTest c = true) (hne : va ≠ vb) (hp : vb ≠ "__proto__")
    (honly : ∀ e ∈ frameEvents c a,
      e.registers (getAssertContextNameForTest a) = none ∨
      e.registers (getAssertContextNameForTest a) = some va ∨
      e.registers (getAssertContextNameForTest a) = some vb)
    (hsplit : frameEvents c a = pre ++ k :: post) (hcall : k.callsBare va = true)
    (hlast : ∀ e ∈ post, e.registers (getAssertContextNameForTest a) ≠ some va)
    (hsplit2 : frameEvents c a = pre2 ++ d :: post2)
    (hreg : d.registers (getAssertContextNameForTest a) = some vb)
    (hnocall : ∀ e ∈ post2, e.callsBare vb = false) :
    ∃ sem, exitReports s c a =
        some (sem ++ [Report.ASYNC_VAR_MESSAGE (Node.CallExpression c a) vb]) ∧
      sem.length ≤ 1 ∧ ∀ r ∈ sem, r.isStop = true := by
  have hk := frameEvents_keepsFrames c a
  have hw0 : WellFormed (initialFrame c a).asyncCallbackVars := wellFormed_nil
  have hw := trackFrame_wellFormed _ _ hk hw0
  have hb : (vb, false) ∈ (trackFrame (initialFrame c a) (frameEvents c a)).asyncCallbackVars := by
    have hk2 := hk
    rw [hsplit2] at hk2 ⊢
    exact trackFrame_unresolved _ pre2 post2 d vb hk2 hreg hp hnocall
  have ha : (va, false) ∉ (trackFrame (initialFrame c a) (frameEvents c a)).asyncCallbackVars := by
    have hk2 := hk
    rw [hsplit] at hk2 ⊢
    exact trackFrame_called _ pre post k va hk2 hw0 hcall hlast
  have honly2 : ∀ x, (x, false) ∈
      (trackFrame (initialFrame c a) (frameEvents c a)).asyncCallbackVars → x = vb := by
    intro x hx
    rcases trackFrame_false_origin _ _ x hk hx with h | ⟨e, he, h⟩
    · exact absurd h (List.not_mem_nil _)
    · rw [initialFrame_context] at h
      rcases honly e he with h1 | h1 | h1
      · rw [h] at h1; exact absurd h1 (by simp)
      · rw [h, Option.some.injEq] at h1
        subst h1
        exact absurd hx ha
      · rw [h, Option.some.injEq] at h1
        exact h1
  obtain ⟨sem, h1, h2, h3⟩ := specReports_single _ (Node.CallExpression c a) vb hw hb honly2
  exact ⟨sem, by rw [exitReports_eq s c a hc, verifyAsyncState_eq_specReports, h1], h2, h3⟩

/-- C5 (witness): the test
`test("name", function (assert) { stop(); var a = assert.async(); var b = assert.async(); a(); })`
reports the semaphore violation and then exactly one callback-variable
violation, naming `b`. -/
theorem two_variables_one_called_witness :
    ∃ sem, exitReports [] (Node.Identifier "test")
        (testArguments ["assert"]
          [callStatement "stop", asyncDeclaration "a" "assert", asyncDeclaration "b" "assert",
            callStatement "a"]) =
        some (sem ++ [Report.ASYNC_VAR_MESSAGE
          (Node.CallExpression (Node.Identifier "test")
            (testArguments ["assert"]
              [callStatement "stop", asyncDeclaration "a" "assert",
                asyncDeclaration "b" "assert", callStatement "a"])) "b"]) ∧
      sem.length ≤ 1 ∧ ∀ r ∈ sem, r.isStop = true :=
  two_variables_one_called [] (Node.Identifier "test")
    (testArguments ["assert"]
      [callStatement "stop", asyncDeclaration "a" "assert", asyncDeclaration "b" "assert",
        callStatement "a"])
    "a" "b"
    [Event.callEnter (Node.Identifier "stop") [],
      Event.declaratorEnter (Node.Identifier "a") (some (memberCall "assert" "async")),
      Event.callEnter (Node.MemberExpression (Node.Identifier "assert")
        (Node.Identifier "async")) [],
      Event.declaratorEnter (Node.Identifier "b") (some (memberCall "assert" "async")),
      Event.callEnter (Node.MemberExpression (Node.Identifier "assert")
        (Node.Identifier "async")) []]
    []
    [Event.callEnter (Node.Identifier "stop") [],
      Event.declaratorEnter (Node.Identifier "a") (some (memberCall "assert" "async")),
      Event.callEnter (Node.MemberExpression (Node.Identifier "assert")
        (Node.Identifier "async")) []]
    [Event.callEnter (Node.MemberExpression (Node.Identifier "assert")
        (Node.Identifier "async")) [],
      Event.callEnter (Node.Identifier "a") []]
    (Event.callEnter (Node.Identifier "a") [])
    (Event.declaratorEnter (Node.Identifier "b") (some (memberCall "assert" "async")))
    (by decide) (by decide) (by decide) (by decide) rfl rfl (by decide) rfl rfl (by decide)
/-- C8: an event that neither pushes nor pops a frame (the enter of a call
that is not a test declaration, an assignment, a declarator) reports nothing
and leaves every frame below the innermost one exactly as it was; and the
reports made at the exit of an outer call are the same whether the events
between the enter and the exit of a nested test-declaration call are handled
or removed. -/
theorem frames_below_unchanged :
    (∀ (f : AsyncState) (below : List AsyncState) (e : Event), e.keepsFrames = true →
      ∃ f1, step (f :: below) e = some (f1 :: below, [])) ∧
    (∀ (s : List AsyncState) (c : Node) (a : List Node) (pre post : List Event)
      (c1 : Node) (a1 : List Node), isTest c1 = true →
      exitReportsAfter s c a (pre ++ events (Node.CallExpression c1 a1) ++ post) =
        exitReportsAfter s c a
          (pre ++ [Event.callEnter c1 a1, Event.callExit c1 a1] ++ post)) := by
  refine ⟨?_, ?_⟩
  · intro f below e h
    exact ⟨frameStep f e, step_keepsFrames f below e h⟩
  · intro s c a pre post c1 a1 h
    rw [exitReportsAfter_eq, exitReportsAfter_eq]
    have := run_map_fst_nested s (Event.callEnter c a :: pre) post c1 a1 h
    simp only [List.cons_append] at this ⊢
    rw [this]

/-- C8 (witness): below a frame that registers `done`, a frame with count 1
and an entry of its own is untouched; and the outer test
`test("outer", function (assert) { var done = assert.async(); test("inner",
function () { stop(); done(); }); })` reports `done` as not called, with the
body of the inner test handled or removed. -/
theorem frames_below_unchanged_witness :
    (∃ f1, step [⟨0, [], some "assert"⟩, ⟨1, [("other", false)], some "t"⟩]
        (Event.declaratorEnter (Node.Identifier "done")
          (some (memberCall "assert" "async"))) =
      some ([f1, ⟨1, [("other", false)], some "t"⟩], [])) ∧
    exitReportsAfter [] (Node.Identifier "test")
        (testArguments ["assert"]
          [asyncDeclaration "done" "assert",
            testStatement "test" [] [callStatement "stop", callStatement "done"]])
        ([Event.declaratorEnter (Node.Identifier "done") (some (memberCall "assert" "async"))] ++
          [Event.callEnter (Node.Identifier "test")
              (testArguments [] [callStatement "stop", callStatement "done"]),
            Event.callExit (Node.Identifier "test")
              (testArguments [] [callStatement "stop", callStatement "done"])] ++ []) =
      some [Report.ASYNC_VAR_MESSAGE
        (Node.CallExpression (Node.Identifier "test")
          (testArguments ["assert"]
            [asyncDeclaration "done" "assert",
              testStatement "test" [] [callStatement "stop", callStatement "done"]])) "done"] :=
  ⟨frames_below_unchanged.1 ⟨0, [], some "assert"⟩ [⟨1, [("other", false)], some "t"⟩]
      (Event.declaratorEnter (Node.Identifier "done") (some (memberCall "assert" "async")))
      rfl,
    (frames_below_unchanged.2 [] (Node.Identifier "test")
      (testArguments ["assert"]
        [asyncDeclaration "done" "assert",
          testStatement "test" [] [callStatement "stop", callStatement "done"]])
      [Event.declaratorEnter (Node.Identifier "done") (some (memberCall "assert" "async"))]
      []
      (Node.Identifier "test")
      (testArguments [] [callStatement "stop", callStatement "done"])
      rfl).symm.trans rfl⟩

/-- C9: the run over the depth-first traversal of any tree, started from the
empty stack, never throws and ends with the empty stack; and at every exit
event of a test-declaration call in that traversal, the events before it end
with the enter event of the same call and the events of its descendants, the
stack is not empty, its frames below the innermost one are the stack on which
that enter event pushed the frame of the call, and the innermost frame, which
the exit pops and verifies at the node of the call, is that pushed frame as
the events handled while it was innermost have left it. -/
theorem traversal_never_fails (n : Node) :
    (∃ reports, run [] (events n) = some ([], reports)) ∧
    (∀ pre c a post, events n = pre ++ Event.callExit c a :: post → isTest c = true →
      ∃ before below f r0 r1,
        pre = before ++ Event.callEnter c a :: bodyEvents c a ∧
        run [] before = some (below, r0) ∧
        step below (Event.callEnter c a) = some (initialFrame c a :: below, []) ∧
        run [] pre = some (f :: below, r1) ∧
        f = trackFrame (initialFrame c a) (frameEvents c a) ∧
        step (f :: below) (Event.callExit c a) =
          some (below, verifyAsyncState f (Node.CallExpression c a))) := by
  obtain ⟨reports, hrun⟩ := run_events n []
  refine ⟨⟨reports, hrun⟩, ?_⟩
  intro pre c a post hsplit ht
  obtain ⟨before, hbefore⟩ := events_exitsMatched n pre c a post hsplit
  rw [hsplit] at hrun
  obtain ⟨st, r1, _, hpre, _, _⟩ := run_append_inv hrun
  have hpre2 := hpre
  rw [hbefore] at hpre2
  obtain ⟨below, r0, r2, hb, hbody, _⟩ := run_append_inv hpre2
  obtain ⟨r3, hbody2⟩ := run_test_body below c a ht
  rw [hbody2] at hbody
  simp only [Option.some.injEq, Prod.mk.injEq] at hbody
  obtain ⟨hst, _⟩ := hbody
  refine ⟨before, below, trackFrame (initialFrame c a) (frameEvents c a), r0, r1, hbefore, hb,
    step_callEnter_test below c a ht, ?_, rfl, step_callExit_test _ below c a ht⟩
  rw [hpre, hst]

/-- C9 (witness): in the traversal of
`test("name", function () { stop(); })` the exit of the test call finds the
frame pushed at its enter, with count 1, on the otherwise empty stack. -/
theorem traversal_never_fails_witness :
    ∃ before below f r0 r1,
      [Event.callEnter (Node.Identifier "test") (testArguments [] [callStatement "stop"]),
        Event.callEnter (Node.Identifier "stop") [],
        Event.callExit (Node.Identifier "stop") []] =
        before ++ Event.callEnter (Node.Identifier "test")
          (testArguments [] [callStatement "stop"]) ::
          bodyEvents (Node.Identifier "test") (testArguments [] [callStatement "stop"]) ∧
      run [] before = some (below, r0) ∧
      step below (Event.callEnter (Node.Identifier "test")
          (testArguments [] [callStatement "stop"])) =
        some (initialFrame (Node.Identifier "test")
          (testArguments [] [callStatement "stop"]) :: below, []) ∧
      run [] [Event.callEnter (Node.Identifier "test") (testArguments [] [callStatement "stop"]),
        Event.callEnter (Node.Identifier "stop") [],
        Event.callExit (Node.Identifier "stop") []] = some (f :: below, r1) ∧
      f = trackFrame (initialFrame (Node.Identifier "test")
          (testArguments [] [callStatement "stop"]))
        (frameEvents (Node.Identifier "test") (testArguments [] [callStatement "stop"])) ∧
      step (f :: below) (Event.callExit (Node.Identifier "test")
          (testArguments [] [callStatement "stop"])) =
        some (below, verifyAsyncState f
          (Node.CallExpression (Node.Identifier "test")
            (testArguments [] [callStatement "stop"]))) :=
  (traversal_never_fails
    (Node.CallExpression (Node.Identifier "test") (testArguments [] [callStatement "stop"]))).2
    [Event.callEnter (Node.Identifier "test") (testArguments [] [callStatement "stop"]),
      Event.callEnter (Node.Identifier "stop") [],
      Event.callExit (Node.Identifier "stop") []]
    (Node.Identifier "test") (testArguments [] [callStatement "stop"]) [] rfl rfl
/-- C11: entering a call whose callee is a test declaration reports nothing
and puts exactly one new frame on top of the unchanged stack; the count of the
new frame is 1 exactly when the callee is `asyncTest` or `QUnit.asyncTest` and
0 otherwise, its callback-variable mapping is empty, and its assertion-context
name is the result of `getAssertContextNameForTest` on the arguments. -/
theorem test_enter_pushes_frame (s : List AsyncState) (c : Node) (a : List Node)
    (hc : isTest c = true) :
    ∃ f, step s (Event.callEnter c a) = some (f :: s, []) ∧
      onCallExpression s c a = f :: s ∧
      (c = Node.Identifier "asyncTest" ∨
          c = Node.MemberExpression (Node.Identifier "QUnit") (Node.Identifier "asyncTest") →
        f.stopSemaphoreCount = 1) ∧
      (¬ (c = Node.Identifier "asyncTest" ∨
          c = Node.MemberExpression (Node.Identifier "QUnit") (Node.Identifier "asyncTest")) →
        f.stopSemaphoreCount = 0) ∧
      f.asyncCallbackVars = [] ∧
      f.assertContextVar = getAssertContextNameForTest a := by
  refine ⟨initialFrame c a, step_callEnter_test s c a hc, ?_, ?_, ?_, rfl, rfl⟩
  · simp [onCallExpression, hc, initialFrame]
  · intro h
    have := (isAsyncTest_eq_true c).2 h
    simp [initialFrame, this]
  · intro h
    have : isAsyncTest c = false := by
      cases hh : isAsyncTest c with
      | false => rfl
      | true => exact absurd ((isAsyncTest_eq_true c).1 hh) h
    simp [initialFrame, this]

/-- C11 (witness): entering `QUnit.asyncTest("name", function (assert) {})`
below a frame with count 2 pushes the frame with count 1, no entries and the
context name `assert`. -/
theorem test_enter_pushes_frame_witness :
    ∃ f, step [⟨2, [("done", false)], none⟩]
        (Event.callEnter
          (Node.MemberExpression (Node.Identifier "QUnit") (Node.Identifier "asyncTest"))
          (testArguments ["assert"] [])) = some ([f, ⟨2, [("done", false)], none⟩], []) ∧
      f.stopSemaphoreCount = 1 ∧ f.asyncCallbackVars = [] ∧
      f.assertContextVar = some "assert" := by
  obtain ⟨f, h1, _, h3, _, h5, h6⟩ := test_enter_pushes_frame [⟨2, [("done", false)], none⟩]
    (Node.MemberExpression (Node.Identifier "QUnit") (Node.Identifier "asyncTest"))
    (testArguments ["assert"] []) rfl
  exact ⟨f, h1, h3 (Or.inr rfl), h5, h6⟩

/-- C12: `isTest` is true exactly on the identifiers `test` and `asyncTest`
and on the member expressions whose object is the identifier `QUnit` and whose
property is the identifier `test` or `asyncTest`; `isAsyncTest` is true exactly
on the identifier `asyncTest` and on `QUnit.asyncTest`; and `isAsyncTest`
implies `isTest`. -/
theorem isTest_isAsyncTest_shapes (callee : Node) :
    (isTest callee = true ↔
      (∃ name, callee = Node.Identifier name ∧ (name = "test" ∨ name = "asyncTest")) ∨
      (∃ name, callee = Node.MemberExpression (Node.Identifier "QUnit") (Node.Identifier name) ∧
        (name = "test" ∨ name = "asyncTest"))) ∧
    (isAsyncTest callee = true ↔
      callee = Node.Identifier "asyncTest" ∨
      callee = Node.MemberExpression (Node.Identifier "QUnit") (Node.Identifier "asyncTest")) ∧
    (isAsyncTest callee = true → isTest callee = true) := by
  refine ⟨?_, isAsyncTest_eq_true callee, isTest_of_isAsyncTest⟩
  rw [isTest_eq_true]
  constructor
  · rintro (h | h | h | h)
    · exact Or.inl ⟨"test", h, Or.inl rfl⟩
    · exact Or.inl ⟨"asyncTest", h, Or.inr rfl⟩
    · exact Or.inr ⟨"test", h, Or.inl rfl⟩
    · exact Or.inr ⟨"asyncTest", h, Or.inr rfl⟩
  · rintro (⟨name, h, hn | hn⟩ | ⟨name, h, hn | hn⟩) <;> subst hn
    · exact Or.inl h
    · exact Or.inr (Or.inl h)
    · exact Or.inr (Or.inr (Or.inl h))
    · exact Or.inr (Or.inr (Or.inr h))
/-- C13: among the arguments, the first function expression decides the
result of `getAssertContextNameForTest`: when it has a parameter, the result
is the `name` of its first parameter (the name itself when that parameter is
an identifier); when it has no parameter the result is absent, whatever
follows it; and a list without function expression gives absent. -/
theorem getAssertContextNameForTest_first_function (pre post : List Node)
    (hpre : ∀ x ∈ pre, x.isFunctionExpression = false) :
    (∀ param params body,
      getAssertContextNameForTest
        (pre ++ Node.FunctionExpression (param :: params) body :: post) = param.name) ∧
    (∀ x params body,
      getAssertContextNameForTest
        (pre ++ Node.FunctionExpression (Node.Identifier x :: params) body :: post) = some x) ∧
    (∀ body,
      getAssertContextNameForTest (pre ++ Node.FunctionExpression [] body :: post) = none) ∧
    getAssertContextNameForTest pre = none := by
  have hfilter : pre.filter Node.isFunctionExpression = [] := by
    rw [List.filter_eq_nil_iff]
    intro x hx
    simp [hpre x hx]
  have hsplit : ∀ params body,
      (pre ++ Node.FunctionExpression params body :: post).filter Node.isFunctionExpression =
        Node.FunctionExpression params body :: post.filter Node.isFunctionExpression := by
    intro params body
    rw [List.filter_append, hfilter, List.nil_append, List.filter_cons]
    simp [Node.isFunctionExpression]
  refine ⟨?_, ?_, ?_, ?_⟩
  · intro param params body
    simp only [getAssertContextNameForTest, hsplit, List.head?_cons]
  · intro x params body
    simp only [getAssertContextNameForTest, hsplit, List.head?_cons, Node.name]
  · intro body
    simp only [getAssertContextNameForTest, hsplit, List.head?_cons]
  · simp only [getAssertContextNameForTest, hfilter, List.head?_nil]

/-- C13 (witness): in `("name", function () {}, function (assert) {})` the
first function expression has no parameter, so the result is absent; in
`("name", function (assert, extra) {})` it is `assert`. -/
theorem getAssertContextNameForTest_first_function_witness :
    getAssertContextNameForTest
        ([literal] ++ Node.FunctionExpression [] (Node.Other []) ::
          [Node.FunctionExpression [Node.Identifier "assert"] (Node.Other [])]) = none ∧
    getAssertContextNameForTest
        ([literal] ++ Node.FunctionExpression
          (Node.Identifier "assert" :: [Node.Identifier "extra"]) (Node.Other []) :: []) =
      some "assert" :=
  ⟨(getAssertContextNameForTest_first_function [literal]
      [Node.FunctionExpression [Node.Identifier "assert"] (Node.Other [])]
      (by decide)).2.2.1 (Node.Other []),
    (getAssertContextNameForTest_first_function [literal] [] (by decide)).2.1
      "assert" [Node.Identifier "extra"] (Node.Other [])⟩

/-- C14: `isAsyncCallExpression` is true exactly when the stack is not empty,
the innermost frame records a context name `N` (a non-empty string, as every
identifier name is), and the node is a call expression whose callee is the
member expression with object identifier `N` and property identifier `async`.
It is false for an absent node, for the empty stack, and whenever the
innermost frame does not record `N`, whatever the frames below record. -/
theorem isAsyncCallExpression_iff (stack : List AsyncState) (e : Option Node) :
    (isAsyncCallExpression stack e = true ↔
      ∃ f below N args, stack = f :: below ∧ f.assertContextVar = some N ∧ N ≠ "" ∧
        e = some (Node.CallExpression
          (Node.MemberExpression (Node.Identifier N) (Node.Identifier "async")) args)) ∧
    isAsyncCallExpression stack none = false ∧
    isAsyncCallExpression [] e = false ∧
    (∀ f below N args, f.assertContextVar ≠ some N →
      isAsyncCallExpression (f :: below)
        (some (Node.CallExpression
          (Node.MemberExpression (Node.Identifier N) (Node.Identifier "async")) args)) =
        false) := by
  have hnone : ∀ st, isAsyncCallExpression st none = false := by
    intro st
    simp [isAsyncCallExpression]
  have hnil : ∀ x, isAsyncCallExpression [] x = false := by
    intro x
    simp [isAsyncCallExpression, truthy]
  have hiff : ∀ st x, isAsyncCallExpression st x = true ↔
      ∃ f below N args, st = f :: below ∧ f.assertContextVar = some N ∧ N ≠ "" ∧
        x = some (Node.CallExpression
          (Node.MemberExpression (Node.Identifier N) (Node.Identifier "async")) args) := by
    intro st x
    constructor
    · intro h
      cases st with
      | nil => rw [hnil] at h; exact absurd h (by decide)
      | cons f below =>
        cases hctx : f.assertContextVar with
        | none => simp [isAsyncCallExpression, hctx, truthy] at h
        | some N =>
          have hN : N ≠ "" := by
            intro hN
            simp [isAsyncCallExpression, hctx, truthy, hN] at h
          cases x with
          | none => rw [hnone] at h; exact absurd h (by decide)
          | some n =>
            cases n with
            | CallExpression callee args =>
              cases callee with
              | MemberExpression o p =>
                cases o with
                | Identifier oname =>
                  cases p with
                  | Identifier pname =>
                    simp only [isAsyncCallExpression, hctx, truthy, bne_iff_ne, ne_eq, hN,
                      not_false_eq_true, if_true, Bool.and_eq_true, beq_iff_eq,
                      Option.some.injEq] at h
                    obtain ⟨h1, h2⟩ := h
                    subst h1 h2
                    exact ⟨f, below, oname, args, rfl, hctx, hN, rfl⟩
                  | _ => simp [isAsyncCallExpression] at h
                | _ => simp [isAsyncCallExpression] at h
              | _ => simp [isAsyncCallExpression] at h
            | _ => simp [isAsyncCallExpression] at h
    · rintro ⟨f, below, N, args, rfl, hctx, hN, rfl⟩
      simp [isAsyncCallExpression, hctx, truthy, hN]
  refine ⟨hiff stack e, hnone stack, hnil e, ?_⟩
  intro f below N args hne
  cases h : isAsyncCallExpression (f :: below)
      (some (Node.CallExpression
        (Node.MemberExpression (Node.Identifier N) (Node.Identifier "async")) args)) with
  | false => rfl
  | true =>
    obtain ⟨f1, below1, N1, args1, hst, hctx, _, he⟩ := (hiff _ _).1 h
    simp only [List.cons.injEq] at hst
    simp only [Option.some.injEq, Node.CallExpression.injEq, Node.MemberExpression.injEq,
      Node.Identifier.injEq] at he
    obtain ⟨rfl, _⟩ := hst
    obtain ⟨⟨⟨rfl, _⟩, _⟩, _⟩ := he
    exact absurd hctx hne

/-- C14 (witness): with the context name `assert` recorded only in the frame
below the innermost one, `assert.async()` is not an async call expression; with
it recorded in the innermost frame, it is. -/
theorem isAsyncCallExpression_iff_witness :
    isAsyncCallExpression [⟨0, [], none⟩, ⟨0, [], some "assert"⟩]
        (some (Node.CallExpression
          (Node.MemberExpression (Node.Identifier "assert") (Node.Identifier "async")) [])) =
      false ∧
    isAsyncCallExpression [⟨0, [], some "assert"⟩]
        (some (Node.CallExpression
          (Node.MemberExpression (Node.Identifier "assert") (Node.Identifier "async")) [])) =
      true :=
  ⟨(isAsyncCallExpression_iff [] none).2.2.2 ⟨0, [], none⟩ [⟨0, [], some "assert"⟩] "assert" []
      (by decide),
    (isAsyncCallExpression_iff [⟨0, [], some "assert"⟩]
      (some (Node.CallExpression
        (Node.MemberExpression (Node.Identifier "assert") (Node.Identifier "async")) []))).1.2
      ⟨⟨0, [], some "assert"⟩, [], "assert", [], rfl, rfl, by decide, rfl⟩⟩
/-- C16: the run over the complete depth-first traversal of any tree, started
from the empty stack, ends with the empty stack; so a second run of the same
sequence, from the stack the first run has left or from a fresh empty stack,
makes the identical list of reports, in the same order. -/
theorem rerun_same_violations (n : Node) :
    ∃ reports, run [] (events n) = some ([], reports) ∧
      (∀ st r, run [] (events n) = some (st, r) →
        st = [] ∧ run st (events n) = some ([], reports)) ∧
      run [] (events n ++ events n) = some ([], reports ++ reports) := by
  have h := run_events_reports n []
  have h0 : trackStack [] (ownEvents n) = [] := rfl
  rw [h0] at h
  refine ⟨treeReports n, h, ?_, run_append_some h h⟩
  intro st r hrun
  rw [h] at hrun
  simp only [Option.some.injEq, Prod.mk.injEq] at hrun
  obtain ⟨rfl, _⟩ := hrun
  exact ⟨rfl, h⟩

/-- C17: a step reports something only when its event is the exit of a
test-declaration call, and then the reports are one verification of the popped
frame, all anchored at the node of that call; the enter events of calls,
assignments and declarators report nothing.  The run over the traversal of a
tree from the empty stack makes exactly the verifications of the tree, one for
each test-declaration call, each anchored at such a call, and the traversal
has exactly one test-exit event for each test-declaration call of the tree. -/
theorem reports_only_at_test_exit (n : Node) :
    (∀ s e st r, step s e = some (st, r) → r ≠ [] →
      ∃ c a f, e = Event.callExit c a ∧ isTest c = true ∧ s = f :: st ∧
        r = verifyAsyncState f (Node.CallExpression c a) ∧
        ∀ rep ∈ r, rep.node = Node.CallExpression c a) ∧
    (∀ f s c a, isTest c = true →
      step (f :: s) (Event.callExit c a) =
        some (s, verifyAsyncState f (Node.CallExpression c a))) ∧
    (∀ s c a, ∃ st, step s (Event.callEnter c a) = some (st, [])) ∧
    (∀ s l r, ∃ st, step s (Event.assignmentEnter l r) = some (st, [])) ∧
    (∀ s i init, ∃ st, step s (Event.declaratorEnter i init) = some (st, [])) ∧
    run [] (events n) = some ([], treeReports n) ∧
    (∀ rep ∈ treeReports n, ∃ c a, isTest c = true ∧ rep.node = Node.CallExpression c a) ∧
    (events n).countP Event.isTestExit = countTestCalls n := by
  refine ⟨?_, ?_, ?_, ?_, ?_, run_events_reports n [], treeReports_anchored n,
    countP_isTestExit_events n⟩
  · intro s e st r h hr
    obtain ⟨c, a, f, he, ht, hs, hrep⟩ := step_reports h hr
    refine ⟨c, a, f, he, ht, hs, hrep, ?_⟩
    rw [hrep]
    exact verifyAsyncState_node f _
  · intro f s c a ht
    exact step_callExit_test f s c a ht
  · intro s c a
    exact ⟨_, rfl⟩
  · intro s l r
    exact ⟨_, rfl⟩
  · intro s i init
    exact ⟨_, rfl⟩

/-- C17 (witness): the traversal of the two statements
`asyncTest("first", function () {}); test("second", function (assert) { var done = assert.async(); });`
makes two verifications, one at each test call, and nothing else. -/
theorem reports_only_at_test_exit_witness :
    run [] (events (Node.Other
        [testStatement "asyncTest" [] [],
          testStatement "test" ["assert"] [asyncDeclaration "done" "assert"]])) =
      some ([],
        [Report.STOP_MESSAGE
            (Node.CallExpression (Node.Identifier "asyncTest") (testArguments [] [])) 1 "call",
          Report.ASYNC_VAR_MESSAGE
            (Node.CallExpression (Node.Identifier "test")
              (testArguments ["assert"] [asyncDeclaration "done" "assert"])) "done"]) ∧
    countTestCalls (Node.Other
        [testStatement "asyncTest" [] [],
          testStatement "test" ["assert"] [asyncDeclaration "done" "assert"]]) = 2 :=
  ⟨(reports_only_at_test_exit (Node.Other
      [testStatement "asyncTest" [] [],
        testStatement "test" ["assert"] [asyncDeclaration "done" "assert"]])).2.2.2.2.2.1.trans
      rfl,
    by decide⟩
/-- C15: for every test declaration whose frame has no assertion-context name,
the mapping of the frame holds no `false` entry after any number of the events
handled while it is innermost, so its exit reports no callback-variable
violation; the count is still the initial count plus the stop calls minus the
start calls, and the exit reports exactly the semaphore violation for that
count when it is positive, and nothing otherwise. -/
theorem no_context_name_inert (s : List AsyncState) (c : Node) (a : List Node)
    (hc : isTest c = true) (hctx : getAssertContextNameForTest a = none) :
    (∀ pre post, frameEvents c a = pre ++ post →
      ∀ k, (k, false) ∉ (trackFrame (initialFrame c a) pre).asyncCallbackVars) ∧
    (trackFrame (initialFrame c a) (frameEvents c a)).stopSemaphoreCount =
      (if isAsyncTest c then 1 else 0) + countStopCalls (frameEvents c a) -
        countStartCalls (frameEvents c a) ∧
    exitReports s c a =
      some (if 0 < (trackFrame (initialFrame c a) (frameEvents c a)).stopSemaphoreCount then
        [Report.STOP_MESSAGE (Node.CallExpression c a)
          (trackFrame (initialFrame c a) (frameEvents c a)).stopSemaphoreCount
          (if (trackFrame (initialFrame c a) (frameEvents c a)).stopSemaphoreCount = 1
            then "call" else "calls")]
        else []) ∧
    (∀ reports, exitReports s c a = some reports → ∀ r ∈ reports, r.isAsyncVar = false) := by
  have hk := frameEvents_keepsFrames c a
  have hnone : ∀ pre, (∀ e ∈ pre, e.keepsFrames = true) →
      ∀ k, (k, false) ∉ (trackFrame (initialFrame c a) pre).asyncCallbackVars := by
    intro pre hpre k hmem
    rcases trackFrame_false_origin pre (initialFrame c a) k hpre hmem with h | ⟨e, _, h⟩
    · exact absurd h (List.not_mem_nil _)
    · rw [initialFrame_context, hctx, registers_none_context] at h
      exact absurd h (by simp)
  have hfilter : (trackFrame (initialFrame c a) (frameEvents c a)).asyncCallbackVars.filter
      (fun entry => entry.2 == false) = [] := by
    rw [List.filter_eq_nil_iff]
    rintro ⟨k, b⟩ hmem
    cases b with
    | true => simp
    | false => exact absurd hmem (hnone _ hk k)
  have hrep : exitReports s c a =
      some (if 0 < (trackFrame (initialFrame c a) (frameEvents c a)).stopSemaphoreCount then
        [Report.STOP_MESSAGE (Node.CallExpression c a)
          (trackFrame (initialFrame c a) (frameEvents c a)).stopSemaphoreCount
          (if (trackFrame (initialFrame c a) (frameEvents c a)).stopSemaphoreCount = 1
            then "call" else "calls")]
        else []) := by
    rw [exitReports_eq s c a hc, verifyAsyncState_eq_specReports]
    unfold specReports
    rw [hfilter]
    simp
  refine ⟨?_, ?_, hrep, ?_⟩
  · intro pre post hsplit
    apply hnone
    intro e he
    exact hk e (by rw [hsplit]; exact List.mem_append_left _ he)
  · have := trackFrame_count_eq (frameEvents c a) (initialFrame c a) hk
      (not_mem_ownKeys_initialFrame c a "stop") (not_mem_ownKeys_initialFrame c a "start")
      (by
        intro e _
        rw [initialFrame_context, hctx, registers_none_context]
        exact ⟨by simp, by simp⟩)
    rw [initialFrame_count] at this
    exact this
  · intro reports hreports r hr
    rw [hrep] at hreports
    simp only [Option.some.injEq] at hreports
    subst hreports
    by_cases hpos : 0 < (trackFrame (initialFrame c a) (frameEvents c a)).stopSemaphoreCount
    · simp only [hpos, if_true, List.mem_singleton] at hr
      subst hr; rfl
    · simp [hpos] at hr

/-- C15 (witness): the test
`test("name", function () { var done = assert.async(); stop(); stop(); start(); })`
has no context name; it reports the semaphore violation for count 1 and no
callback-variable violation. -/
theorem no_context_name_inert_witness :
    exitReports [] (Node.Identifier "test")
        (testArguments []
          [asyncDeclaration "done" "assert", callStatement "stop", callStatement "stop",
            callStatement "start"]) =
      some [Report.STOP_MESSAGE
        (Node.CallExpression (Node.Identifier "test")
          (testArguments []
            [asyncDeclaration "done" "assert", callStatement "stop", callStatement "stop",
              callStatement "start"])) 1 "call"] :=
  (no_context_name_inert [] (Node.Identifier "test")
    (testArguments []
      [asyncDeclaration "done" "assert", callStatement "stop", callStatement "stop",
        callStatement "start"]) rfl rfl).2.2.1.trans rfl

/-- C18: when a test-declaration call is traversed depth-first from any stack,
the frame its exit pops has as count the initial count (1 for the `asyncTest`
forms, else 0) plus the number of stop calls minus the number of start calls,
counted among the events handled while the frame was innermost whose callee
was not, when handled, a callback variable of the frame. -/
theorem popped_count (s : List AsyncState) (c : Node) (a : List Node)
    (hc : isTest c = true) :
    ∃ f r, run s (Event.callEnter c a :: bodyEvents c a) = some (f :: s, r) ∧
      step (f :: s) (Event.callExit c a) =
        some (s, verifyAsyncState f (Node.CallExpression c a)) ∧
      f.stopSemaphoreCount =
        (if isAsyncTest c then 1 else 0) +
          effectiveStopCalls (initialFrame c a) (frameEvents c a) -
          effectiveStartCalls (initialFrame c a) (frameEvents c a) := by
  obtain ⟨r, hr⟩ := run_test_body s c a hc
  refine ⟨_, r, hr, step_callExit_test _ s c a hc, ?_⟩
  have := trackFrame_count_effective (frameEvents c a) (initialFrame c a)
    (frameEvents_keepsFrames c a)
  rw [initialFrame_count] at this
  exact this

/-- C18 (witness): in
`asyncTest("name", function (assert) { var stop = assert.async(); stop(); QUnit.stop(); start(); })`
the bare `stop` is a callback variable when it is called, so one stop call and
one start call count, and the popped frame has count 1. -/
theorem popped_count_witness :
    effectiveStopCalls
        (initialFrame (Node.Identifier "asyncTest")
          (testArguments ["assert"]
            [asyncDeclaration "stop" "assert", callStatement "stop",
              Node.Other [memberCall "QUnit" "stop"], callStatement "start"]))
        (frameEvents (Node.Identifier "asyncTest")
          (testArguments ["assert"]
            [asyncDeclaration "stop" "assert", callStatement "stop",
              Node.Other [memberCall "QUnit" "stop"], callStatement "start"])) = 1 ∧
    ∃ f r, run [] (Event.callEnter (Node.Identifier "asyncTest")
          (testArguments ["assert"]
            [asyncDeclaration "stop" "assert", callStatement "stop",
              Node.Other [memberCall "QUnit" "stop"], callStatement "start"]) ::
        bodyEvents (Node.Identifier "asyncTest")
          (testArguments ["assert"]
            [asyncDeclaration "stop" "assert", callStatement "stop",
              Node.Other [memberCall "QUnit" "stop"], callStatement "start"])) =
        some (f :: [], r) ∧
      f.stopSemaphoreCount = 1 := by
  refine ⟨by decide, ?_⟩
  obtain ⟨f, r, h1, _, h3⟩ := popped_count [] (Node.Identifier "asyncTest")
    (testArguments ["assert"]
      [asyncDeclaration "stop" "assert", callStatement "stop",
        Node.Other [memberCall "QUnit" "stop"], callStatement "start"]) rfl
  exact ⟨f, r, h1, h3.trans (by decide)⟩
/-- C19: the enter handler of a call applies one effect, chosen in this
order: the callee is a test declaration (a frame is pushed); else it is a
callback variable of the innermost frame (its entry is marked); else it is a
stop call (count plus 1); else it is a start call (count minus 1); else
nothing changes.  So in a frame whose mapping has `stop` (or `start`) as own
key, a call of the bare `stop` (or `start`) sets that entry to `true` and
leaves the count and everything else alone; and a call of the bare `test` or
`asyncTest` pushes a new frame above the unchanged frame, whatever that frame
has registered. -/
theorem call_enter_priority (s : List AsyncState) (c : Node) (a : List Node) :
    (isTest c = true → onCallExpression s c a = initialFrame c a :: s) ∧
    (isTest c = false → isAsyncCallbackVar s c = true →
      onCallExpression s c a = markAsyncCallbackVarCalled s c) ∧
    (isTest c = false → isAsyncCallbackVar s c = false → isStop c = true →
      onCallExpression s c a = incrementSemaphoreCount s 1) ∧
    (isTest c = false → isAsyncCallbackVar s c = false → isStop c = false →
      isStart c = true → onCallExpression s c a = incrementSemaphoreCount s (-1)) ∧
    (isTest c = false → isAsyncCallbackVar s c = false → isStop c = false →
      isStart c = false → onCallExpression s c a = s) ∧
    (∀ f below name, name = "stop" ∨ name = "start" →
      hasOwnProperty f.asyncCallbackVars name = true →
      onCallExpression (f :: below) (Node.Identifier name) a =
        { f with asyncCallbackVars := setProperty f.asyncCallbackVars name true } :: below ∧
      (name, true) ∈ setProperty f.asyncCallbackVars name true ∧
      (name, false) ∉ setProperty f.asyncCallbackVars name true) ∧
    (∀ f below name, name = "test" ∨ name = "asyncTest" →
      onCallExpression (f :: below) (Node.Identifier name) a =
        initialFrame (Node.Identifier name) a :: f :: below) := by
  refine ⟨?_, ?_, ?_, ?_, ?_, ?_, ?_⟩
  · intro h
    simp [onCallExpression, h, initialFrame]
  · intro h1 h2
    simp [onCallExpression, h1, h2]
  · intro h1 h2 h3
    simp [onCallExpression, h1, h2, h3]
  · intro h1 h2 h3 h4
    simp [onCallExpression, h1, h2, h3, h4]
  · intro h1 h2 h3 h4
    simp [onCallExpression, h1, h2, h3, h4]
  · intro f below name hname hown
    have hp : name ≠ "__proto__" := by
      rcases hname with h | h <;> subst h <;> decide
    have ht : isTest (Node.Identifier name) = false := by
      rcases hname with h | h <;> subst h <;> rfl
    have hcv : isAsyncCallbackVar (f :: below) (Node.Identifier name) = true := by
      simp [isAsyncCallbackVar, hasProperty, hown]
    refine ⟨?_, mem_setProperty_self true hp, ?_⟩
    · simp [onCallExpression, ht, hcv, markAsyncCallbackVarCalled, propertyKey, Node.name]
    · intro hmem
      exact hp (mem_setProperty_self_other hmem (by decide)).1
  · intro f below name hname
    have ht : isTest (Node.Identifier name) = true := by
      rcases hname with h | h <;> subst h <;> rfl
    simp [onCallExpression, ht, initialFrame]

/-- C19 (witness): in a frame with count 1 that has registered `start` and
`test`, the call `start()` marks `start` and keeps the count at 1, and the call
`test()` pushes a frame and leaves the entry of `test` unmarked. -/
theorem call_enter_priority_witness :
    onCallExpression [⟨1, [("start", false), ("test", false)], some "assert"⟩]
        (Node.Identifier "start") [] =
      [⟨1, [("start", true), ("test", false)], some "assert"⟩] ∧
    onCallExpression [⟨1, [("start", false), ("test", false)], some "assert"⟩]
        (Node.Identifier "test") [] =
      [⟨0, [], none⟩, ⟨1, [("start", false), ("test", false)], some "assert"⟩] :=
  ⟨((call_enter_priority [] (Node.Identifier "start") []).2.2.2.2.2.1
      ⟨1, [("start", false), ("test", false)], some "assert"⟩ [] "start" (Or.inr rfl)
      (by decide)).1.trans rfl,
    ((call_enter_priority [] (Node.Identifier "test") []).2.2.2.2.2.2
      ⟨1, [("start", false), ("test", false)], some "assert"⟩ [] "test" (Or.inl rfl)).trans
      rfl⟩

/-- C20: let a frame be tracked from the push of a test declaration through
events handled while it is innermost, and let the entry of `v` in its mapping
be `true`.  Then registering `v` again rewrites that entry to `false` in
place, every key keeping its position; if the registration is one of the
events of the frame and no later one is a call of the bare `v`, the exit
reports exactly one callback-variable violation naming `v`; and entering a
call of the bare `v` instead leaves the frame, the stack and the reports as
they are. -/
theorem reregistration_resets (s : List AsyncState) (c : Node) (a : List Node)
    (pre : List Event) (v : String) (hc : isTest c = true)
    (hpre : ∀ e ∈ pre, e.keepsFrames = true)
    (hv : (v, true) ∈ (trackFrame (initialFrame c a) pre).asyncCallbackVars) :
    (∀ below, addAsyncCallbackVar (trackFrame (initialFrame c a) pre :: below)
        (Node.Identifier v) =
      { trackFrame (initialFrame c a) pre with
        asyncCallbackVars := (trackFrame (initialFrame c a) pre).asyncCallbackVars.map
          (fun entry => if entry.1 == v then (v, false) else entry) } :: below) ∧
    ownKeys (setProperty (trackFrame (initialFrame c a) pre).asyncCallbackVars v false) =
      ownKeys (trackFrame (initialFrame c a) pre).asyncCallbackVars ∧
    (∀ d post, frameEvents c a = pre ++ d :: post →
      d.registers (getAssertContextNameForTest a) = some v →
      (∀ e ∈ post, e.callsBare v = false) →
      ∃ reports, exitReports s c a = some reports ∧
        reports.filter (Report.namesVar v) =
          [Report.ASYNC_VAR_MESSAGE (Node.CallExpression c a) v]) ∧
    (∀ below args,
      step (trackFrame (initialFrame c a) pre :: below)
          (Event.callEnter (Node.Identifier v) args) =
        some (trackFrame (initialFrame c a) pre :: below, [])) := by
  have hw : WellFormed (trackFrame (initialFrame c a) pre).asyncCallbackVars :=
    trackFrame_wellFormed pre _ hpre wellFormed_nil
  have hkey : v ∈ ownKeys (trackFrame (initialFrame c a) pre).asyncCallbackVars :=
    mem_ownKeys_of_mem hv
  have hown : hasOwnProperty (trackFrame (initialFrame c a) pre).asyncCallbackVars v = true :=
    (hasOwnProperty_iff _ v).2 hkey
  have hp : v ≠ "__proto__" := by
    intro h
    exact hw.2 (by rw [← h]; exact hkey)
  refine ⟨?_, ?_, ?_, ?_⟩
  · intro below
    simp only [addAsyncCallbackVar, propertyKey, Node.name]
    rw [setProperty_false_of_own hown hp]
  · rw [ownKeys_setProperty, if_pos (Or.inr hkey)]
  · intro d post hsplit hreg hcalls
    have hk := frameEvents_keepsFrames c a
    refine ⟨_, exitReports_eq s c a hc, ?_⟩
    rw [verifyAsyncState_eq_specReports]
    apply specReports_names_once _ _ _ (trackFrame_wellFormed _ _ hk wellFormed_nil)
    rw [hsplit] at hk ⊢
    exact trackFrame_unresolved _ pre post d v hk hreg hp hcalls
  · intro below args
    have ht : isTest (Node.Identifier v) = false :=
      trackFrame_true_not_test pre (initialFrame c a) v hpre
        (by intro k hk; exact absurd hk (List.not_mem_nil _)) hv
    have hcv : isAsyncCallbackVar (trackFrame (initialFrame c a) pre :: below)
        (Node.Identifier v) = true := by
      simp [isAsyncCallbackVar, hasProperty, hown]
    simp only [step, onCallExpression, ht, hcv, Bool.false_eq_true, if_false, if_true,
      markAsyncCallbackVarCalled, propertyKey, Node.name]
    rw [setProperty_true_of_mem hw hv]

/-- C20 (witness): in
`test("name", function (assert) { var done = assert.async(); done(); done = assert.async(); })`
the entry of `done` is `true` after the call, the assignment resets it, and
the exit reports `done`. -/
theorem reregistration_resets_witness :
    ∃ reports, exitReports [] (Node.Identifier "test")
        (testArguments ["assert"]
          [asyncDeclaration "done" "assert", callStatement "done",
            asyncAssignment "done" "assert"]) = some reports ∧
      reports.filter (Report.namesVar "done") =
        [Report.ASYNC_VAR_MESSAGE
          (Node.CallExpression (Node.Identifier "test")
            (testArguments ["assert"]
              [asyncDeclaration "done" "assert", callStatement "done",
                asyncAssignment "done" "assert"])) "done"] :=
  (reregistration_resets [] (Node.Identifier "test")
    (testArguments ["assert"]
      [asyncDeclaration "done" "assert", callStatement "done",
        asyncAssignment "done" "assert"])
    [Event.declaratorEnter (Node.Identifier "done") (some (memberCall "assert" "async")),
      Event.callEnter (Node.MemberExpression (Node.Identifier "assert")
        (Node.Identifier "async")) [],
      Event.callEnter (Node.Identifier "done") []]
    "done" rfl (by decide) (by decide)).2.2.1
    (Event.assignmentEnter (Node.Identifier "done") (memberCall "assert" "async"))
    [Event.callEnter (Node.MemberExpression (Node.Identifier "assert")
      (Node.Identifier "async")) []]
    rfl rfl (by decide)

end ResolveAsync
